import Mathlib

/-!
# Verification of the banded block-based bit-packed NW engine

This file embeds, as a shallow Lean model, the core of the
`pa-base-algos` crate of the `astar-pairwise-aligner` repository:

* `src/pa-base-algos/src/nw/bitpacking.rs` — the bit-packed front
  (`BitFront`, `BitFronts`) and its block computation;
* `src/pa-base-algos/src/nw.rs` — the `NW` aligner driver
  (`j_range`, `fixed_j_range`, `align_for_bounded_dist`, `cost_or_align`);
* `src/pa-base-algos/src/lib.rs` — `exponential_search`.

Types that live in crates that are not part of the repository snapshot
(`pa_bitpacking`'s `V`/profile/kernel, `pa_types`' `Pos`/`Cost`,
`pa_affine_types`' cost model and CIGAR, the `JRange`/`IRange` helpers
of the missing `front.rs`, and the `Domain`/`Strategy` enums) are
modelled from the specification; each such definition carries a doc
comment saying so.

Rust `i32` arithmetic is modelled by `Int` (no alignment in this model
ever approaches `2^31`, so wrap-around is not modelled); Rust's
truncating `/` on signed integers is `Int.tdiv`; `usize` casts of
non-negative values are `Int.toNat`.  Runtime panics (`assert!`,
`.expect`, `.unwrap`, `todo!`) are modelled by the `Except Err` monad:
`.error .panic` is a panic, `.ok` is normal completion.
-/

namespace PA

deriving instance DecidableEq for Except

/-- Modelled from the spec: a runtime panic (failed `assert!`/`expect`/`todo!`). -/
inductive Err where
  | panic : Err
deriving DecidableEq, Repr

/-- Modelled from the spec: `pa_types::Pos(i, j)` — column `i`, row `j`. -/
structure Pos where
  i : Int
  j : Int
deriving DecidableEq, Repr

/-- Word width `W = 64` (`pa_bitpacking::W`). -/
def W : Nat := 64

/-- `WI = W as I` (`bitpacking.rs`). -/
def WI : Int := 64

/-- Modelled from the spec (the `front.rs` module is missing from the
snapshot): an inclusive row range `[lo, hi]`; `JRange(0, b.len())`
covers all rows of the DP matrix including row `m`, `len` counts rows
inclusively (`(round(..).len() - 1)/W` is the word count in
`bitpacking.rs`), `exclusive_len` is `hi - lo`, and a range is empty
when `hi < lo` (`j_range` in `nw.rs` early-returns
`JRange(fixed_start, fixed_end)` as empty exactly when
`fixed_start > fixed_end`). -/
structure JRange where
  lo : Int
  hi : Int
deriving DecidableEq, Repr

/-- Modelled from the spec: inclusive row count of a `JRange`. -/
def JRange.len (r : JRange) : Int := r.hi - r.lo + 1

/-- Modelled from the spec: `hi - lo`, the number of row-to-row deltas. -/
def JRange.exclusive_len (r : JRange) : Int := r.hi - r.lo

/-- Modelled from the spec: emptiness of an inclusive range. -/
def JRange.is_empty (r : JRange) : Bool := r.hi < r.lo

/-- Modelled from the spec: a half-open column range `[lo, hi)`;
`IRange(i, i+w)` processes the `w` columns ending at column `hi` of the
DP matrix. -/
structure IRange where
  lo : Int
  hi : Int
deriving DecidableEq, Repr

/-- Modelled from the spec: number of columns of an `IRange`. -/
def IRange.len (r : IRange) : Int := r.hi - r.lo

/-- Modelled from the spec: `IRange::first_col()`, the pseudo-range
`-1..0` used for the first column (`nw.rs` doc comment on `j_range`). -/
def IRange.first_col : IRange := ⟨-1, 0⟩

/-- Rust `i32::next_multiple_of(64)`: the smallest multiple of 64 that
is `≥ x` (ceiling division). -/
def nextMul64 (x : Int) : Int := 64 * (-(Int.fdiv (-x) 64))

/-- `bitpacking.rs::round`: `JRange(j_range.0 / WI * WI,
j_range.1.next_multiple_of(WI))` — the rounded (storage) range. -/
def round (j_range : JRange) : JRange :=
  ⟨64 * (j_range.lo.tdiv 64), nextMul64 j_range.hi⟩

/-- `bitpacking.rs::round_inward`: `JRange(j_range.0.next_multiple_of(WI),
j_range.1 / WI * WI)`. -/
def round_inward (j_range : JRange) : JRange :=
  ⟨nextMul64 j_range.lo, 64 * (j_range.hi.tdiv 64)⟩

/-- Modelled from the spec: `pa_bitpacking::V`, a word of `W = 64`
vertical deltas packed as two bitmasks: bit `k` of `p` set means the
delta from row `64w+k` to `64w+k+1` is `+1`, bit `k` of `m` set means
`-1`, both clear means `0` (spec section 3, "Vertical delta"). -/
structure V where
  p : Nat
  m : Nat
deriving DecidableEq, Repr

/-- Modelled from the spec: `V::one()`, a word of all `+1` deltas. -/
def V.one : V := ⟨2 ^ 64 - 1, 0⟩

/-- Word popcount: number of set bits among the `W` bits of the word. -/
def popcount (x : Nat) : Nat := ∑ k in Finset.range W, (x.testBit k).toNat

/-- Popcount of the low `k` bits (used for the prefix value). -/
def popcountLow (k : Nat) (x : Nat) : Nat :=
  ∑ j in Finset.range (min k W), (x.testBit j).toNat

/-- Popcount of the high `k` bits (bits `W-k ..< W`, for the suffix value). -/
def popcountHigh (k : Nat) (x : Nat) : Nat :=
  ∑ j in Finset.Ico (W - k) W, (x.testBit j).toNat

/-- Modelled from the spec: `V::value() = popcount(p) - popcount(m)`. -/
def V.value (v : V) : Int := (popcount v.p : Int) - (popcount v.m : Int)

/-- Modelled from the spec: `V::value_of_prefix(k)`, the summed value of
the first `k` deltas of the word. -/
def V.valLo (v : V) (k : Int) : Int :=
  (popcountLow k.toNat v.p : Int) - (popcountLow k.toNat v.m : Int)

/-- Modelled from the spec: `V::value_of_suffix(k)`, the summed value of
the last `k` deltas of the word. -/
def V.valHi (v : V) (k : Int) : Int :=
  (popcountHigh k.toNat v.p : Int) - (popcountHigh k.toNat v.m : Int)

/-- The signed delta stored at bit `k` of a word. -/
def V.bit (v : V) (k : Nat) : Int :=
  ((v.p.testBit k).toNat : Int) - ((v.m.testBit k).toNat : Int)

/-- `Int::MAX` (`i32::MAX`). -/
def costMAX : Int := 2 ^ 31 - 1

/-- `bitpacking.rs::BitFront`: one column's state.  Field meanings as in
the source: `v` the vertical-delta words of the rounded range, `i` the
column, `j_range` the logical (unrounded) row range, `fixed_j_range`
the rows with `f(u) ≤ f_max`, `offset` the first row of `v`, `top_val`
and `bot_val` the values at the ends of the rounded range, and `j_h`
the row at which horizontal deltas were stored. -/
structure BitFront where
  v : List V
  i : Int
  j_range : JRange
  fixed_j_range : Option JRange
  offset : Int
  top_val : Int
  bot_val : Int
  j_h : Option Int
deriving DecidableEq, Repr

/-- `impl Default for BitFront`: empty `v`, `j_range = JRange(-1,-1)`,
`fixed_j_range = None`, `top_val = bot_val = Int::MAX`, `j_h = None`. -/
def BitFront.default : BitFront :=
  ⟨[], 0, ⟨-1, -1⟩, none, 0, costMAX, costMAX, none⟩

/-- `impl Clone for BitFront::clone`: copies all fields but resets
`j_h` to `None`. -/
def BitFront.clone (f : BitFront) : BitFront :=
  { f with j_h := none }

/-- `impl Clone for BitFront::clone_from`: copies all fields except
`j_h`, which keeps the destination's old value. -/
def BitFront.clone_from (dst src : BitFront) : BitFront :=
  { src with j_h := dst.j_h }

/-- Indexing into the delta-word vector; out-of-range reads (which
would panic in Rust and are excluded by the `index` assertions) default
to `V.one`. -/
def vAt (v : List V) (k : Int) : V := v.getD k.toNat V.one

/-- The body of the `// go from top` loop of `BitFront::index`,
recursing on the exact trip count `(j - j0).toNat / 64` of the
`while j0 + WI ≤ j` loop: add whole word values, then add the prefix
value of the boundary word. -/
def topScanCnt (v : List V) (offset j : Int) : Nat → Int → Int → Int
  | 0, val, j0 => val + (vAt v ((j0 - offset).tdiv 64)).valLo (j - j0)
  | n + 1, val, j0 =>
    topScanCnt v offset j n (val + (vAt v ((j0 - offset).tdiv 64)).value) (j0 + 64)

/-- The `// go from top` loop of `BitFront::index`: starting with
`val = top_val` at row `j0 = rounded.0`, add whole word values while
`j0 + WI ≤ j`, then add the prefix value of the boundary word. -/
def topScanGo (v : List V) (offset : Int) (j : Int) (val : Int) (j0 : Int) : Int :=
  topScanCnt v offset j ((j - j0).toNat / 64) val j0

/-- The body of the `// go from bottom` loop of `BitFront::index`,
recursing on the exact trip count `(j1 - j - 1).toNat / 64` of the
`while j1 - WI > j` loop: subtract whole word values, then subtract
the suffix value of the boundary word. -/
def botScanCnt (v : List V) (offset j : Int) : Nat → Int → Int → Int
  | 0, val, j1 =>
    if j1 > j then val - (vAt v ((j1 - 64 - offset).tdiv 64)).valHi (j1 - j)
    else val
  | n + 1, val, j1 =>
    botScanCnt v offset j n (val - (vAt v ((j1 - 64 - offset).tdiv 64)).value) (j1 - 64)

/-- The `// go from bottom` loop of `BitFront::index`: starting with
`val = bot_val` at row `j1 = rounded.1`, subtract whole word values
while `j1 - WI > j`, then subtract the suffix value of the boundary
word. -/
def botScanGo (v : List V) (offset : Int) (j : Int) (val : Int) (j1 : Int) : Int :=
  botScanCnt v offset j ((j1 - j - 1).toNat / 64) val j1

/-- `BitFront::index(j)` with the assertions stripped (they are
captured by `BitFront.indexOk`): for `j` beyond the rounded range
extend by `+1` per row, otherwise scan from whichever of `top_val` /
`bot_val` is closer. -/
def BitFront.indexT (f : BitFront) (j : Int) : Int :=
  let rounded := round f.j_range
  if j > rounded.hi then
    f.bot_val + (j - rounded.hi)
  else if j - rounded.lo < rounded.hi - j then
    topScanGo f.v f.offset j f.top_val rounded.lo
  else
    botScanGo f.v f.offset j f.bot_val rounded.hi

/-- The three `assert!`s at the top of `BitFront::index`:
`rounded.0 ≤ j`, `rounded.0 - offset ≥ 0`, and
`rounded.1 - offset ≤ v.len() * WI`. -/
def BitFront.indexOk (f : BitFront) (j : Int) : Prop :=
  (round f.j_range).lo ≤ j ∧ 0 ≤ (round f.j_range).lo - f.offset ∧
    (round f.j_range).hi - f.offset ≤ (f.v.length : Int) * 64

instance (f : BitFront) (j : Int) : Decidable (f.indexOk j) := by
  unfold BitFront.indexOk; infer_instance

/-- `BitFront::index(j)` including its assertions. -/
def BitFront.indexE (f : BitFront) (j : Int) : Except Err Int :=
  if f.indexOk j then .ok (f.indexT j) else .error .panic

/-- `BitFront::get(j)`: `None` outside the rounded range, otherwise
`Some(index(j))` (the inner `index` call can still panic on a
structurally ill-formed front). -/
def BitFront.get (f : BitFront) (j : Int) : Except Err (Option Int) :=
  let rounded := round f.j_range
  if j < rounded.lo ∨ j > rounded.hi then .ok none
  else do
    let c ← f.indexE j
    return some c

/-- `BitFront::get_diff(j)`: the single delta from row `j` to `j+1`,
read from bit `(j - offset) % W` of word `(j - offset) / W`. -/
def BitFront.get_diff (f : BitFront) (j : Int) : Option Int :=
  if j < f.offset then none
  else
    let d := (j - f.offset).toNat
    if h : d / W < f.v.length then
      some ((f.v.get ⟨d / W, h⟩).bit (d % W))
    else none

/-- `BitFront::first_col(j_range)`: the first-column front — asserts
`j_range.0 = 0`; all-`+1` deltas over the rounded range, `top_val = 0`,
`bot_val = rounded.exclusive_len()`, and `fixed_j_range = j_range`. -/
def BitFront.first_col (j_range : JRange) : Except Err BitFront :=
  if j_range.lo = 0 then
    .ok
      { v := List.replicate ((round j_range).exclusive_len.toNat / W) V.one
        i := 0
        j_range := j_range
        fixed_j_range := some j_range
        offset := 0
        top_val := 0
        bot_val := (round j_range).exclusive_len
        j_h := none }
  else .error .panic

/-- Sum of the `value()`s of the words `v[s..e]` (Rust slice of the
delta vector). -/
def sliceSum (v : List V) (s e : Nat) : Int :=
  ((v.drop s).take (e - s)).foldr (fun w acc => w.value + acc) 0

/-- `BitFront::check_top_bot_val` as a proposition: `top_val` plus the
word values over the rounded range equals `bot_val`
(`bitpacking.rs:223-236`). -/
def BitFront.top_bot_ok (f : BitFront) : Prop :=
  f.top_val +
      sliceSum f.v (((round f.j_range).lo - f.offset).toNat / W)
        (((round f.j_range).hi - f.offset).toNat / W) =
    f.bot_val

instance (f : BitFront) : Decidable f.top_bot_ok := by
  unfold BitFront.top_bot_ok; infer_instance

/-- Structural well-formedness of a front: the offset is a nonnegative
multiple of `W` lying at or below the rounded range, the word vector
covers the rounded range, and the rounded range is nonempty. -/
def BitFront.wfStruct (f : BitFront) : Prop :=
  0 ≤ f.offset ∧ f.offset % 64 = 0 ∧ f.offset ≤ (round f.j_range).lo ∧
    (round f.j_range).lo ≤ (round f.j_range).hi ∧
    (round f.j_range).hi - f.offset ≤ (f.v.length : Int) * 64 ∧
    0 ≤ f.j_range.lo

instance (f : BitFront) : Decidable f.wfStruct := by
  unfold BitFront.wfStruct; infer_instance


/-! ## The bit-parallel compute kernel, modelled from the spec

The kernel itself (`pa_bitpacking::scalar::row`, `::simd::compute`,
`::fill`) is not part of the repository snapshot.  Per spec section 4.2
it advances vertical deltas `V` and horizontal deltas `H` over a block
of cells "using the standard bit-parallel Myers edit-distance
recurrence" with a fixed number of operations per `(W-row, 1-column)`
tile, and its return value enables updating `bot_val` without
rescanning, i.e. it is the total change of the bottom-boundary value
over the processed columns (the sum of the final horizontal deltas).
We model it cell-exactly: each `(row, column)` tile applies the unit
Levenshtein recurrence in delta form.  A horizontal delta `H` is
modelled by its numeric value (an `Int` in `{-1, 0, 1}`); `H::one()`
is `1`.  The `simd` flag selects a differently-scheduled but
result-identical kernel in the source, so both map to the same model. -/

/-- Modelled from the spec: one cell of the Myers recurrence in delta
form.  With `g00` the top-left value, `h = g10 - g00` the incoming
horizontal delta and `v = g01 - g00` the incoming vertical delta, the
new value is `g11 = g00 + min(sub, v + 1, h + 1)` with `sub = 0` iff
the characters match; the result is `(v_out, h_out) = (g11 - g10,
g11 - g01)`. -/
def cellStep (eq : Bool) (h v : Int) : Int × Int :=
  let g := min (if eq then 0 else 1) (min (v + 1) (h + 1))
  (g - h, g - v)

/-- Modelled from the spec: process bits `k, k+1, ...` (`todo` many) of
one delta word, threading the horizontal delta from the top of the word
downwards and packing the output deltas into fresh `p`/`m` masks. -/
def wordStepGo (eq : Nat) (v : V) : Nat → Nat → Int → V × Int
  | 0, _, h => (⟨0, 0⟩, h)
  | todo + 1, k, h =>
    let c := cellStep (eq.testBit k) h (v.bit k)
    let r := wordStepGo eq v todo (k + 1) c.2
    (⟨(if c.1 = 1 then 1 else 0) + 2 * r.1.p,
      (if c.1 = -1 then 1 else 0) + 2 * r.1.m⟩, r.2)

/-- Modelled from the spec: advance one delta word by one column:
returns the new word and the outgoing (bottom) horizontal delta. -/
def wordStep (eq : Nat) (h : Int) (v : V) : V × Int := wordStepGo eq v W 0 h

/-- Modelled from the spec: advance a vertical slice of delta words by
one column, threading the horizontal delta from top to bottom; `eqs`
holds the per-word match masks of this column. -/
def colStep : List Nat → List V → Int → List V × Int
  | e :: es, w :: ws, h =>
    let r1 := wordStep e h w
    let r2 := colStep es ws r1.2
    (r1.1 :: r2.1, r2.2)
  | _, vs, h => (vs, h)

/-- Modelled from the spec: advance a slice of delta words over several
columns (one match-mask list and one input horizontal delta per
column); returns the final words and the per-column bottom horizontal
deltas. -/
def runCols : List (List Nat) → List Int → List V → List V × List Int
  | ec :: ecs, h :: hs, vs =>
    let r1 := colStep ec vs h
    let r2 := runCols ecs hs r1.1
    (r2.1, r1.2 :: r2.2)
  | _, _, vs => (vs, [])

/-- Modelled from the spec: `fill` — advance a slice over several
columns with `H::one()` at the top of every column, recording the word
snapshot and bottom horizontal delta after every column (used by
`fill_block` to store one front per column). -/
def fillCols : List (List Nat) → List V → List (List V × Int)
  | [], _ => []
  | ec :: ecs, vs =>
    let r := colStep ec vs 1
    (r.1, r.2) :: fillCols ecs r.1

/-- Modelled from the spec: `BitProfile::is_match(a, b, i, j)` — the
characters `a[i]` and `b[j]` match; rows beyond the padded range never
match. -/
def matchBit (a b : List Nat) (i j : Int) : Bool :=
  match a.get? i.toNat, b.get? j.toNat with
  | some x, some y => decide (0 ≤ i ∧ 0 ≤ j) && decide (x = y)
  | _, _ => false

/-- Modelled from the spec: the match mask of column `i` against the
`w`-th row word of `b` (bit `k` is row `64w + k`). -/
def eqMask (a b : List Nat) (i : Int) (w : Nat) : Nat :=
  ∑ k in Finset.range W, if matchBit a b i (64 * w + k) then 2 ^ k else 0

/-- Match masks of one column over the word range `[vr0, vr1)`. -/
def eqMasksCol (a b : List Nat) (i : Int) (vr0 vr1 : Nat) : List Nat :=
  (List.range (vr1 - vr0)).map fun t => eqMask a b i (vr0 + t)

/-- Match masks of the columns `[il, ih)` over the word range
`[vr0, vr1)` (the `&a[i_range]` / `&b[v_range]` slices). -/
def eqMasks (a b : List Nat) (il ih : Int) (vr0 vr1 : Nat) : List (List Nat) :=
  (List.range (ih - il).toNat).map fun t => eqMasksCol a b (il + t) vr0 vr1

/-! ## CIGAR, modelled from the spec

`AffineCigar` lives in the missing `pa_affine_types` crate.  Per the
spec it is an ordered run-length sequence over `{Match, Sub, Ins, Del}`
(affine gap layers are out of scope); `push_elem` merges a pushed
element into the trailing run, and `reverse` reverses the sequence. -/

/-- Modelled from the spec: a CIGAR operation. -/
inductive CigarOp where
  | Match : CigarOp
  | Sub : CigarOp
  | Ins : CigarOp
  | Del : CigarOp
deriving DecidableEq, Repr

/-- Modelled from the spec: a run-length CIGAR element. -/
structure CigarElem where
  op : CigarOp
  cnt : Int
deriving DecidableEq, Repr

/-- Modelled from the spec: a CIGAR (in emission order; the Rust `Vec`
grows at the back, so `push_elem` appends). -/
abbrev Cigar := List CigarElem

/-- Modelled from the spec: `push_elem` merges into the trailing run of
the same operation, else appends a new run. -/
def Cigar.push_elem (c : Cigar) (e : CigarElem) : Cigar :=
  match c.getLast? with
  | some l =>
    if l.op = e.op then c.dropLast ++ [⟨l.op, l.cnt + e.cnt⟩]
    else c ++ [e]
  | none => [e]

/-- Unit cost of one CIGAR operation. -/
def CigarOp.opCost : CigarOp → Int
  | .Match => 0
  | _ => 1

/-- Total unit cost of a CIGAR. -/
def Cigar.cost (c : Cigar) : Int := (c.map fun e => e.cnt * e.op.opCost).sum

/-- A CIGAR flattened to its operation sequence. -/
def Cigar.ops (c : Cigar) : List CigarOp :=
  c.flatMap fun e => List.replicate e.cnt.toNat e.op

/-- Modelled from the spec: applying an operation sequence to `A`
checks that it reproduces `B` — `Match` consumes equal heads of both,
`Sub` consumes both, `Ins` consumes `B` only, `Del` consumes `A` only,
and both must be exhausted at the end. -/
def opsApply : List CigarOp → List Nat → List Nat → Bool
  | [], [], [] => true
  | .Match :: ops, x :: aa, y :: bb => decide (x = y) && opsApply ops aa bb
  | .Sub :: ops, _ :: aa, _ :: bb => opsApply ops aa bb
  | .Ins :: ops, aa, _ :: bb => opsApply ops aa bb
  | .Del :: ops, _ :: aa, bb => opsApply ops aa bb
  | _, _, _ => false

/-- Modelled from the spec: the traceback state (`pa_types::State`);
the affine `layer` is always `None` for the unit cost model and is
omitted. -/
structure State where
  i : Int
  j : Int
deriving DecidableEq, Repr


/-! ## List helpers for Rust slice / `Vec` surgery -/

/-- Rust assertion: `.ok ()` when the condition holds, panic otherwise. -/
def grd (b : Prop) [Decidable b] : Except Err Unit :=
  if b then .ok () else .error .panic

/-- The Rust slice `v[s..e]`. -/
def slice (v : List V) (s e : Nat) : List V := (v.drop s).take (e - s)

/-- Write a computed segment back at position `s` (the effect of the
kernel mutating the slice `v[s..s+seg.len()]` in place). -/
def writeSeg (v : List V) (s : Nat) (seg : List V) : List V :=
  v.take s ++ seg ++ v.drop (s + seg.length)

/-- Write a computed horizontal-delta segment back at column `s` of the
stored per-column `h` vector. -/
def writeSegH (v : List Int) (s : Nat) (seg : List Int) : List Int :=
  v.take s ++ seg ++ v.drop (s + seg.length)

/-- Rust `Vec::resize(n, x)`. -/
def resizeList (l : List V) (n : Nat) (x : V) : List V :=
  if n ≤ l.length then l.take n else l ++ List.replicate (n - l.length) x

/-- The row multiples visited by Rust's `(a..b).step_by(W)`:
`a, a + 64, a + 128, ...` while `< b`. -/
def stepL (a b : Int) : List Int :=
  (List.range (((b - a).toNat + 63) / 64)).map fun t => a + 64 * t

/-! ## `HMode` and `compute_columns` (`bitpacking.rs:943-1020`) -/

/-- `bitpacking.rs::HMode`: how the stored per-column horizontal deltas
are used by one kernel invocation. -/
inductive HMode where
  | None : HMode
  | Input : HMode
  | Update : HMode
  | Output : HMode
deriving DecidableEq, Repr

/-- `bitpacking.rs::compute_columns`: advance the word slice `v`
(whose words correspond to the absolute word range `[vr0, vr1)`) over
the columns of `i_range`, with the horizontal deltas taken from /
written to the per-column vector `hvec` according to `mode`
(`None`: fresh `+1`s, discarded; `Input`: read-only copy; `Update`:
read and written back; `Output`: fresh `+1`s, written back).  Returns
the new slice, the new `hvec`, and the kernel's return value — the
total bottom-boundary delta of the processed columns.  (The
visualizer calls and the `computed_rows` statistics of the source are
elided; the `exact_end` flag only affects SIMD scheduling, not
results.) -/
def compute_columns (a b : List Nat) (i_range : IRange) (vr0 vr1 : Nat)
    (v : List V) (hvec : List Int) (mode : HMode) :
    List V × List Int × Int :=
  let il := i_range.lo.toNat
  let len := (i_range.hi - i_range.lo).toNat
  let ess := eqMasks a b i_range.lo i_range.hi vr0 vr1
  match mode with
  | .None =>
    let r := runCols ess (List.replicate len 1) v
    (r.1, hvec, r.2.sum)
  | .Input =>
    let r := runCols ess ((hvec.drop il).take len) v
    (r.1, hvec, r.2.sum)
  | .Update =>
    let r := runCols ess ((hvec.drop il).take len) v
    (r.1, writeSegH hvec il r.2, r.2.sum)
  | .Output =>
    let r := runCols ess (List.replicate len 1) v
    (r.1, writeSegH hvec il r.2, r.2.sum)

/-- `bitpacking.rs::initialize_next_v`: a working vector for the new
rounded range — `V::one()` everywhere, with the overlap with the
previous front's rounded range copied over word by word. -/
def initialize_next_v (prev : BitFront) (j_range_rounded : JRange) : List V :=
  let base := List.replicate (j_range_rounded.exclusive_len.toNat / W) V.one
  let pr := round prev.j_range
  (stepL (max j_range_rounded.lo pr.lo) (min j_range_rounded.hi pr.hi)).foldl
    (fun acc tgt =>
      acc.set ((tgt - j_range_rounded.lo).toNat / W)
        (vAt prev.v ((tgt - prev.offset).tdiv 64)))
    base

/-- `bitpacking.rs::resize_v_with_fixed`: resize `v` to the new rounded
range, moving the fixed part of the next front into place and
initializing prefix and suffix from the previous front.  (Out-of-range
reads in the two indexing loops — panics in Rust — default to
`V::one()` here, matching the `unwrap_or(V::one())` of the third
loop.) -/
def resize_v_with_fixed (prev_front next_front : BitFront)
    (new_j_range : JRange) (v : List V) : Except Err (List V) := do
  let new_rounded := round new_j_range
  match next_front.fixed_j_range with
  | none => .error .panic
  | some nfx =>
    let fixed_rounded := round_inward nfx
    grd (new_rounded.lo ≤ next_front.j_range.lo ∧
      next_front.j_range.hi ≤ new_rounded.hi)
    let v1 := resizeList v (new_rounded.exclusive_len.toNat / W) V.one
    let old_offset := next_front.offset
    let new_offset := new_rounded.lo
    match next_front.j_h with
    | none => .error .panic
    | some stored_h => do
      grd (new_offset ≤ old_offset)
      grd (fixed_rounded.lo ≤ stored_h)
      let v2 :=
        if new_offset < old_offset then
          ((stepL fixed_rounded.lo stored_h).reverse).foldl
            (fun acc j =>
              acc.set ((j - new_offset).toNat / W)
                (vAt acc ((j - old_offset).tdiv 64)))
            v1
        else v1
      let v3 := (stepL new_rounded.lo fixed_rounded.lo).foldl
        (fun acc j =>
          acc.set ((j - new_offset).toNat / W)
            (vAt prev_front.v ((j - prev_front.offset).tdiv 64)))
        v2
      let v4 := (stepL stored_h new_rounded.hi).foldl
        (fun acc j =>
          acc.set ((j - new_offset).toNat / W)
            (vAt prev_front.v ((j - prev_front.offset).tdiv 64)))
        v3
      pure v4

/-! ## `BitFronts` (`bitpacking.rs:40-62, 253-344`) -/

/-- `bitpacking.rs::BitFrontsTag`: the front-type parameters. -/
structure BitFrontsTag where
  sparse : Bool
  simd : Bool
  incremental_doubling : Bool
deriving DecidableEq, Repr

/-- `NwFrontsTag::BLOCKSIZE` for the bit front (`bitpacking.rs:255`). -/
def BLOCKSIZE : Int := 64

/-- Number of row words of the `b` profile (`BitProfile::build` packs
`W` rows per word, padding the last word). -/
def bWords (b : List Nat) : Nat := (b.length + 63) / 64

/-- `bitpacking.rs::BitFronts`: the front sequence.  The sequences are
kept as character lists rather than bit profiles (the profile is
modelled by `matchBit`/`eqMask`); the `computed_rows`/`unique_rows`
statistics and the visualizer are elided. -/
structure BitFronts where
  params : BitFrontsTag
  trace : Bool
  a : List Nat
  b : List Nat
  fronts : List BitFront
  last_front_idx : Nat
  i_range : IRange
  h : List Int
deriving DecidableEq, Repr

/-- `NwFrontsTag::new` for the bit front (`bitpacking.rs:256-282`):
empty fronts, `i_range = IRange(-1, 0)`, and an all-zero stored-`h`
vector of length `a.len()` when incremental doubling is on. -/
def BitFrontsTag.new (tag : BitFrontsTag) (trace : Bool) (a b : List Nat) :
    BitFronts :=
  { params := tag
    trace := trace
    a := a
    b := b
    fronts := []
    last_front_idx := 0
    i_range := ⟨-1, 0⟩
    h := if tag.incremental_doubling then List.replicate a.length 0 else [] }

/-- `self.fronts[self.last_front_idx]` (in-bounds whenever reached in
an actual run; reads out of bounds — a panic in Rust — default to
`BitFront.default`). -/
def BitFronts.lastFront (st : BitFronts) : BitFront :=
  st.fronts.getD st.last_front_idx BitFront.default

/-- `BitFronts::init` (`bitpacking.rs:321-357`): reset to the first
column; the initial range is merged with an existing front 0's range,
then the first-column front is (re)built — `first_col` when tracing, a
full-column front otherwise. -/
def BitFronts.init (st : BitFronts) (initial_j_range : JRange) :
    Except Err BitFronts := do
  grd (initial_j_range.lo = 0)
  let st1 := { st with last_front_idx := 0, i_range := (⟨-1, 0⟩ : IRange) }
  let ijr := match st1.fronts.get? 0 with
    | some f0 =>
      (⟨min f0.j_range.lo initial_j_range.lo,
        max f0.j_range.hi initial_j_range.hi⟩ : JRange)
    | none => initial_j_range
  let front ←
    if st1.trace then BitFront.first_col ijr
    else
      pure
        { v := List.replicate (bWords st1.b) V.one
          i := 0
          j_range := ijr
          fixed_j_range := some ijr
          offset := 0
          top_val := 0
          bot_val := (round ijr).hi
          j_h := none }
  pure { st1 with
    fronts := if st1.fronts.isEmpty then [front] else st1.fronts.set 0 front }

/-- `BitFronts::pop_last_front` (`bitpacking.rs:360-364`): asserts the
last front matches `i_range.1`, decrements the index (panicking on
underflow, as `usize` subtraction does), and rewinds `i_range.1`. -/
def BitFronts.pop_last_front (st : BitFronts) : Except Err BitFronts := do
  grd (st.i_range.hi = st.lastFront.i)
  grd (0 < st.last_front_idx)
  let idx := st.last_front_idx - 1
  pure { st with
    last_front_idx := idx
    i_range := ⟨st.i_range.lo, match st.fronts.get? idx with
      | some f => f.i
      | none => -1⟩ }

/-- `BitFronts::set_last_front_fixed_j_range` (`bitpacking.rs:722-735`):
asserts the argument is `Some`, then merges it with the existing fixed
range (so the fixed range only grows). -/
def BitFronts.set_last_front_fixed_j_range (st : BitFronts)
    (fixed_j_range : Option JRange) : Except Err BitFronts := do
  grd fixed_j_range.isSome
  let lf := st.lastFront
  let merged := match lf.fixed_j_range, fixed_j_range with
    | some o, some n => some (⟨min o.lo n.lo, max o.hi n.hi⟩ : JRange)
    | _, _ => fixed_j_range
  pure { st with
    fronts := st.fronts.set st.last_front_idx { lf with fixed_j_range := merged } }

/-- `BitFronts::next_front_j_range` (`bitpacking.rs:647-649`). -/
def BitFronts.next_front_j_range (st : BitFronts) : Option JRange :=
  (st.fronts.get? (st.last_front_idx + 1)).map fun f => f.j_range

/-! ## `fill_block` (`bitpacking.rs:840-941`) -/

/-- The front-pushing loop of `fill_block` (step 1 of the source):
starting from the template front, repeatedly advance `i` and `top_val`
by one and either push a `clone` (which resets `j_h`) or `clone_from`
into the reused slot (which keeps the slot's old `j_h`). -/
def fillPushGo : List BitFront → Nat → BitFront → Nat → List BitFront × Nat × BitFront
  | fronts, idx, tmpl, 0 => (fronts, idx, tmpl)
  | fronts, idx, tmpl, l + 1 =>
    let tmpl1 := { tmpl with i := tmpl.i + 1, top_val := tmpl.top_val + 1 }
    let idx1 := idx + 1
    let fronts1 :=
      if idx1 = fronts.length then fronts ++ [tmpl1.clone]
      else fronts.set idx1 ((fronts.getD idx1 BitFront.default).clone_from tmpl1)
    fillPushGo fronts1 idx1 tmpl1 l

/-- Steps 4 and 5 of `fill_block`: store each column's delta words and
accumulate `bot_val` column by column from the per-column bottom
horizontal deltas. -/
def fillAssign : List BitFront → Nat → List (List V × Int) → Int → List BitFront
  | fronts, _, [], _ => fronts
  | fronts, idx, (vv, hb) :: rest, bot =>
    let f := fronts.getD idx BitFront.default
    let bot1 := bot + hb
    fillAssign (fronts.set idx { f with v := vv, bot_val := bot1 }) (idx + 1) rest bot1

/-- `BitFronts::fill_block`: compute columns `i_range` over `j_range`,
storing one front per column (dense trace). -/
def BitFronts.fill_block (st : BitFronts) (i_range : IRange) (j_range : JRange) :
    Except Err BitFronts := do
  grd (i_range.lo = st.i_range.hi)
  let st1 := { st with i_range := (⟨st.i_range.lo, i_range.hi⟩ : IRange) }
  let rounded := round j_range
  let vr0 := (rounded.lo.tdiv 64).toNat
  let vr1 := (rounded.hi.tdiv 64).toNat
  let prev_front := st1.lastFront
  grd (prev_front.i = i_range.lo)
  let v0 := initialize_next_v prev_front rounded
  let top0 ← prev_front.indexE rounded.lo
  let tmpl : BitFront :=
    { v := []
      i := i_range.lo
      j_range := j_range
      offset := rounded.lo
      fixed_j_range := none
      top_val := top0
      bot_val := 0
      j_h := none }
  let len := (i_range.hi - i_range.lo).toNat
  let pushed := fillPushGo st1.fronts st1.last_front_idx tmpl len
  let snaps := fillCols (eqMasks st1.a st1.b i_range.lo i_range.hi vr0 vr1) v0
  let bot0 ← prev_front.indexE rounded.hi
  let fronts2 := fillAssign pushed.1 (st1.last_front_idx + 1) snaps bot0
  pure { st1 with fronts := fronts2, last_front_idx := pushed.2.1 }

/-! ## `compute_next_block` (`bitpacking.rs:377-633`) -/

/-- The result of the per-branch body of the sparse-trace case of
`compute_next_block`: the new delta words, the new stored-`h` vector,
the `bottom_delta` of the final kernel call, and the next front with
`offset`/`j_h` updated. -/
def cnbCommit (st : BitFronts) (fronts1 : List BitFront)
    (r : List V × List Int × Int × BitFront) (j_range : JRange) : BitFronts :=
  let lfi := st.last_front_idx + 1
  let nf := { r.2.2.2 with
    v := r.1
    bot_val := r.2.2.2.bot_val + r.2.2.1
    j_range := j_range }
  { st with fronts := fronts1.set lfi nf, last_front_idx := lfi, h := r.2.1 }

/-- The two-way split of the incremental-doubling branch of
`compute_next_block` (no usable stored `j_h`): recompute
`[new_range.0, new_j_h)` with `HMode::Output` and `[new_j_h,
new_range.1)` with `HMode::Input`. -/
def cnbTwoSplit (st1 : BitFronts) (i_range : IRange) (jrr : JRange)
    (prev_front nf1 : BitFront) (new_range : JRange) (new_j_h : Int)
    (offW : Nat) : Except Err (List V × List Int × Int × BitFront) := do
  let v1 := initialize_next_v prev_front jrr
  grd (new_range.lo ≤ new_j_h)
  let e01 := (new_j_h.tdiv 64).toNat
  grd (e01 - offW ≤ v1.length)
  let r01 := compute_columns st1.a st1.b i_range offW e01
    (slice v1 0 (e01 - offW)) st1.h .Output
  let v2 := writeSeg v1 0 r01.1
  grd (new_j_h ≤ new_range.hi)
  let e2 := (new_range.hi.tdiv 64).toNat
  grd (e01 ≤ e2 ∧ e2 - offW ≤ v2.length)
  let r2 := compute_columns st1.a st1.b i_range e01 e2
    (slice v2 (e01 - offW) (e2 - offW)) r01.2.1 .Input
  let v3 := writeSeg v2 (e01 - offW) r2.1
  pure (v3, r2.2.1, r2.2.2,
    { nf1 with j_h := some new_j_h, offset := new_range.lo })

/-- `BitFronts::compute_next_block`: widen `j_range` to contain the
next stored front's range, then dispatch: dense trace (`fill_block`),
sparse trace (push/reuse a front, with the optional incremental
doubling three-way or two-way split), or the no-trace single-front
update. -/
def BitFronts.compute_next_block (st : BitFronts) (i_range : IRange)
    (j_range0 : JRange) : Except Err BitFronts := do
  let j_range := match st.fronts.get? (st.last_front_idx + 1) with
    | some nf =>
      (⟨min j_range0.lo nf.j_range.lo, max j_range0.hi nf.j_range.hi⟩ : JRange)
    | none => j_range0
  if st.trace ∧ ¬st.params.sparse then st.fill_block i_range j_range
  else do
    grd (i_range.lo = st.i_range.hi)
    let st1 := { st with i_range := (⟨st.i_range.lo, i_range.hi⟩ : IRange) }
    let jrr := round j_range
    let vr0 := (jrr.lo.tdiv 64).toNat
    let vr1 := (jrr.hi.tdiv 64).toNat
    let front := st1.lastFront
    let top_val ← front.indexE jrr.lo
    let bot_val ← front.indexE jrr.hi
    if st1.trace then do
      grd st1.params.sparse
      let fronts1 ←
        if st1.last_front_idx + 1 = st1.fronts.length then
          pure (st1.fronts ++ [BitFront.default])
        else do
          grd ((st1.fronts.getD (st1.last_front_idx + 1) BitFront.default).i =
            i_range.hi)
          pure st1.fronts
      let prev_front := fronts1.getD st1.last_front_idx BitFront.default
      let nf0 := fronts1.getD (st1.last_front_idx + 1) BitFront.default
      let nf1 := { nf0 with
        i := i_range.hi
        bot_val := bot_val
        top_val := top_val + i_range.len }
      let v0 := nf1.v
      let r ←
        match st1.params.incremental_doubling, prev_front.fixed_j_range,
            nf1.fixed_j_range with
        | true, some pfx, some nfx => do
          let prev_fixed := round_inward pfx
          let next_fixed := round_inward nfx
          let new_range := round j_range
          let new_j_h := prev_fixed.hi
          let offW := (new_range.lo.tdiv 64).toNat
          match nf1.j_h with
          | some old_j_h =>
            if next_fixed.lo < old_j_h then do
              let v1 ← resize_v_with_fixed prev_front nf1 j_range v0
              grd (new_range.lo ≤ next_fixed.lo)
              let s0 := (new_range.lo.tdiv 64).toNat
              let e0 := (next_fixed.lo.tdiv 64).toNat
              grd (offW ≤ s0 ∧ s0 ≤ e0 ∧ e0 - offW ≤ v1.length)
              let r0 := compute_columns st1.a st1.b i_range s0 e0
                (slice v1 (s0 - offW) (e0 - offW)) st1.h .None
              let v2 := writeSeg v1 (s0 - offW) r0.1
              grd (old_j_h ≤ new_j_h)
              let s1 := (old_j_h.tdiv 64).toNat
              let e1 := (new_j_h.tdiv 64).toNat
              grd (offW ≤ s1 ∧ s1 ≤ e1 ∧ e1 - offW ≤ v2.length)
              let r1 := compute_columns st1.a st1.b i_range s1 e1
                (slice v2 (s1 - offW) (e1 - offW)) r0.2.1 .Update
              let v3 := writeSeg v2 (s1 - offW) r1.1
              grd (new_j_h ≤ new_range.hi)
              let s2 := (new_j_h.tdiv 64).toNat
              let e2 := (new_range.hi.tdiv 64).toNat
              grd (offW ≤ s2 ∧ s2 ≤ e2 ∧ e2 - offW ≤ v3.length)
              let r2 := compute_columns st1.a st1.b i_range s2 e2
                (slice v3 (s2 - offW) (e2 - offW)) r1.2.1 .Input
              let v4 := writeSeg v3 (s2 - offW) r2.1
              pure (v4, r2.2.1, r2.2.2,
                { nf1 with j_h := some new_j_h, offset := new_range.lo })
            else
              cnbTwoSplit st1 i_range jrr prev_front nf1 new_range new_j_h offW
          | none =>
            cnbTwoSplit st1 i_range jrr prev_front nf1 new_range new_j_h offW
        | _, _, _ => do
          let v1 := initialize_next_v prev_front jrr
          let r := compute_columns st1.a st1.b i_range vr0 vr1 v1 st1.h .None
          pure (r.1, r.2.1, r.2.2, { nf1 with offset := jrr.lo })
      pure (cnbCommit st1 fronts1 r j_range)
    else do
      let top2 := top_val + i_range.len
      let v := front.v
      grd (vr0 ≤ vr1 ∧ vr1 ≤ v.length)
      let r := compute_columns st1.a st1.b i_range vr0 vr1 (slice v vr0 vr1)
        st1.h .None
      let v1 := writeSeg v vr0 r.1
      let nf := { front with
        v := v1
        i := i_range.hi
        j_range := j_range
        top_val := top2
        bot_val := bot_val + r.2.2 }
      pure { st1 with
        fronts := st1.fronts.set st1.last_front_idx nf
        h := r.2.1 }

/-! ## Traceback (`bitpacking.rs:655-837`) -/

/-- The greedy match-extension loop of `BitFronts::parent`: while
`st.i > 0` and `st.j` is above the start of the previous front's
rounded range and the diagonal characters match, step diagonally,
stopping at `block_start` (structural on the trip bound `s.i.toNat`,
which the loop cannot exceed since `s.i` decreases and stays positive). -/
def matchExtCnt (a b : List Nat) (pf : BitFront) (block_start : Int) :
    Nat → State → Int → State × Int
  | 0, s, cnt => (s, cnt)
  | n + 1, s, cnt =>
    if 0 < s.i ∧ s.j > (round pf.j_range).lo then
      if matchBit a b (s.i - 1) (s.j - 1) then
        let s1 : State := ⟨s.i - 1, s.j - 1⟩
        let cnt1 := cnt + 1
        if s1.i = block_start then (s1, cnt1)
        else matchExtCnt a b pf block_start n s1 cnt1
      else (s, cnt)
    else (s, cnt)

/-- The greedy match-extension loop entry point. -/
def matchExtGo (a b : List Nat) (pf : BitFront) (block_start : Int)
    (s : State) (cnt : Int) : State × Int :=
  matchExtCnt a b pf block_start s.i.toNat s cnt

/-- `BitFronts::parent`: the parent of `st` at distance `g`, assuming
the last front is for column `st.i` and the one before for `st.i - 1`.
Returns the parent, the emitted CIGAR element, and the updated `g`.
Parent priority: greedy matches, then `Ins` (from the vertical delta
bit), then `Del` (from the previous front's value), then `Sub`;
otherwise the `PARENT NOT FOUND` panic. -/
def BitFronts.parentF (st : BitFronts) (s0 : State) (g : Int)
    (block_start : Int) : Except Err (State × CigarElem × Int) := do
  let front := st.lastFront
  grd (front.i = s0.i)
  let prevOpt ←
    if 0 < s0.i then do
      grd (0 < st.last_front_idx)
      let pf := st.fronts.getD (st.last_front_idx - 1) BitFront.default
      grd (pf.i = s0.i - 1)
      pure (some pf)
    else pure (none : Option BitFront)
  let me : State × Int := match prevOpt with
    | some pf => matchExtGo st.a st.b pf block_start s0 0
    | none => (s0, 0)
  if 0 < me.2 then pure (me.1, (⟨.Match, me.2⟩ : CigarElem), g)
  else do
    let g1 := g - 1
    if front.get_diff (s0.j - 1) = some 1 then
      pure ((⟨s0.i, s0.j - 1⟩ : State), (⟨.Ins, 1⟩ : CigarElem), g1)
    else
      match prevOpt with
      | none => .error .panic
      | some pf => do
        let pv ← pf.indexE s0.j
        let hd := (g1 + 1) - pv
        if hd = 1 then
          pure ((⟨s0.i - 1, s0.j⟩ : State), (⟨.Del, 1⟩ : CigarElem), g1)
        else
          match pf.get_diff (s0.j - 1) with
          | none => .error .panic
          | some pd =>
            if pd + hd = 1 then
              pure ((⟨s0.i - 1, s0.j - 1⟩ : State), (⟨.Sub, 1⟩ : CigarElem), g1)
            else .error .panic

/-- The `while self.fronts[self.last_front_idx].i > tgt.i { pop }` loop
of `trace` (with `pop_last_front`'s asserts inlined so the recursion is
structural in `last_front_idx`). -/
def popWhileCnt (toi : Int) : Nat → BitFronts → Except Err BitFronts
  | 0, st => .ok st
  | n + 1, st =>
    if st.lastFront.i > toi then
      if st.i_range.hi = st.lastFront.i ∧ 0 < st.last_front_idx then
        let idx := st.last_front_idx - 1
        popWhileCnt toi n
          { st with
            last_front_idx := idx
            i_range := ⟨st.i_range.lo, match st.fronts.get? idx with
              | some f => f.i
              | none => -1⟩ }
      else .error .panic
    else .ok st

/-- Entry point of the popping loop: `last_front_idx + 1` bounds the
trip count exactly (the index decreases by one per pop and a pop at
index 0 is the `usize` underflow panic). -/
def BitFronts.popWhile (st : BitFronts) (toi : Int) : Except Err BitFronts :=
  popWhileCnt toi (st.last_front_idx + 1) st

/-- `for _i in i_range.0..i_range.1 { self.pop_last_front() }`. -/
def BitFronts.popN (st : BitFronts) : Nat → Except Err BitFronts
  | 0 => pure st
  | n + 1 => do
    let st1 ← st.pop_last_front
    st1.popN n

/-- The exponential-height retry loop of `trace` (`bitpacking.rs:
691-704`): fill the block at the current height; if the value at
`tgt.j` does not yet match `g`, pop the filled columns, double the
height and retry.  `fuel` bounds the number of retries (the source
loop is unbounded). -/
def BitFronts.heightLoop (st : BitFronts) (i_range : IRange)
    (j_range : JRange) (toj g : Int) (height : Int) :
    Nat → Except Err BitFronts
  | 0 => .error .panic
  | fuel + 1 => do
    let jr : JRange := ⟨max j_range.lo (j_range.hi - height), j_range.hi⟩
    let st1 ← st.fill_block i_range jr
    let gv ← st1.lastFront.indexE toj
    if gv = g then pure st1
    else do
      let st2 ← st1.popN (i_range.hi - i_range.lo).toNat
      st2.heightLoop i_range j_range toj g (height * 2) fuel

/-- The body of `trace`'s `while tgt != from` loop, returning the final
state, the emitted (unreversed) CIGAR and the final `g`.  `fuel`
bounds the number of backward steps. -/
def BitFronts.traceGo (st : BitFronts) (frm tgt : State) (g : Int)
    (block_start : Int) (cigar : Cigar) : Nat →
    Except Err (BitFronts × Cigar × Int)
  | 0 => .error .panic
  | fuel + 1 =>
    if tgt = frm then pure (st, cigar, g)
    else do
      let st1 ← st.popWhile tgt.i
      let r ←
        if st1.params.sparse ∧ 0 < tgt.i then do
          let front := st1.lastFront
          grd (0 < st1.last_front_idx)
          let prev_front := st1.fronts.getD (st1.last_front_idx - 1)
            BitFront.default
          grd (front.i = tgt.i)
          if prev_front.i < tgt.i - 1 then do
            let i_range : IRange := ⟨prev_front.i, front.i⟩
            grd (front.j_range.lo ≤ tgt.j ∧ tgt.j ≤ front.j_range.hi)
            let j_range : JRange := ⟨front.j_range.lo, tgt.j⟩
            let st2 ← st1.pop_last_front
            let height := (i_range.hi - i_range.lo) * 5 / 4
            let st3 ← st2.heightLoop i_range j_range tgt.j g height (fuel + 1)
            pure (st3, prev_front.i)
          else pure (st1, block_start)
        else pure (st1, block_start)
      let p ← r.1.parentF tgt g r.2
      r.1.traceGo frm p.1 p.2.2 r.2 (cigar.push_elem p.2.1) fuel

/-- `BitFronts::trace`: walk back from `to` tgt `from`, asserting the
final `g` is 0 and reversing the emitted CIGAR. -/
def BitFronts.traceF (st : BitFronts) (frm tgt : State) (fuel : Nat) :
    Except Err (BitFronts × Cigar) := do
  grd st.trace
  match st.fronts.getLast? with
  | none => .error .panic
  | some lst => do
    grd (lst.i = tgt.i)
    let g0 ← st.lastFront.indexE tgt.j
    let r ← st.traceGo frm tgt g0 (tgt.i - 1) [] fuel
    grd (r.2.2 = 0)
    pure (r.1, r.2.1.reverse)

/-! ## The `NW` driver (`nw.rs`)

The `Domain` / `Strategy` / `DoublingStart` enums live in a module of
`pa-base-algos` that is not part of the snapshot; they are modelled
from the spec (section 6, configuration parameters) and from their use
sites in `nw.rs`.  The heuristic is modelled as a plain function
`Pos → Int`; `h_with_hint` hints only speed up heuristic evaluation
(spec section 6) and are dropped.  The cost model is fixed to
`AffineCost::unit()` (asserted by `BitFrontsTag::new` in the source):
all unit-cost helpers (`max_del_for_cost`, `gap_cost`, `extend_cost`,
`min_ins_extend`, `min_del_extend`) are modelled from the spec for the
unit cost model. -/

/-- Modelled from the spec: the `j_range` strategy selector. -/
inductive Domain where
  | Full : Domain
  | GapStart : Domain
  | GapGap : Domain
  | Astar : (Pos → Int) → Domain

/-- `matches!(self.domain, Domain::Full)`. -/
def Domain.isFull : Domain → Bool
  | .Full => true
  | _ => false

/-- Modelled from the spec: where band doubling starts
(`crate::DoublingStart`, used in `band_doubling_params`). -/
inductive DoublingStart where
  | Zero : DoublingStart
  | Gap : DoublingStart
  | H0 : DoublingStart
deriving DecidableEq, Repr

/-- Modelled from the spec: the search strategy.  `LocalDoubling` is
`todo!()` in the source.  The geometric factor is an `f32` in the
source; it is modelled as a rational (exact for the small factors and
bounds involved). -/
inductive Strategy where
  | None : Strategy
  | BandDoubling : DoublingStart → ℚ → Strategy
  | LocalDoubling : Strategy

/-- Modelled from the spec, unit cost: `cm.max_del_for_cost(f)` — `f`
deletions are affordable at cost `f`. -/
def max_del_for_cost (f : Int) : Int := f

/-- Modelled from the spec, unit cost: `cm.max_ins_for_cost(f)`. -/
def max_ins_for_cost (f : Int) : Int := f

/-- Modelled from the spec, unit cost: `cm.min_ins_extend`. -/
def min_ins_extend : Int := 1

/-- Modelled from the spec, unit cost: `cm.min_del_extend`. -/
def min_del_extend : Int := 1

/-- Modelled from the spec, unit cost: `cm.gap_cost(p, q)` — the cost
of bridging the diagonal difference between `p` and `q` by indels. -/
def gap_cost (p q : Pos) : Int := |(q.j - p.j) - (q.i - p.i)|

/-- Modelled from the spec, unit cost: `cm.extend_cost(u, v)` for `v`
at or below the diagonal of `u` — one insertion per extra row. -/
def extend_cost (u v : Pos) : Int := (v.j - u.j) - (v.i - u.i)

/-- Rust `i32::div_ceil` (round toward positive infinity); for a
positive divisor this is `⌊(x + y - 1) / y⌋`. -/
def ceilDivInt (x y : Int) : Int := (x + y - 1) / y

/-- The aligner parameters (`NW` struct of `nw.rs`, unit cost). -/
structure NWp where
  domain : Domain
  strategy : Strategy
  block_width : Int
  front : BitFrontsTag
  trace : Bool
  sparse_h : Bool

/-- The `f` closure of the A* `j_range` walk (`nw.rs:417-420`):
`gu + extend_cost(u, v) + h(v)`, asserting `v` is at or below the
diagonal of `u`. -/
def fWalk (h : Pos → Int) (u : Pos) (gu : Int) (v : Pos) : Except Err Int :=
  if v.j - u.j ≥ v.i - u.i then .ok (gu + extend_cost u v + h v)
  else .error .panic

/-- The sparse-`h` down-right walk loop of the A* `j_range`
(`nw.rs:442-451`, `while v.0 ≤ ie && v.1 < m`): in scope
(`f(v) ≤ f_max`) move one row down; out of scope move
`⌈(f(v) - f_max) / (2 · min_del_extend)⌉` columns right. -/
def walkDRCnt (h : Pos → Int) (u : Pos) (gu fmax ie m : Int) :
    Nat → Pos → Except Err Pos
  | 0, v => .ok v
  | n + 1, v =>
    if v.i ≤ ie ∧ v.j < m then
      match fWalk h u gu v with
      | .error e => .error e
      | .ok fv =>
        if fv ≤ fmax then walkDRCnt h u gu fmax ie m n ⟨v.i, v.j + 1⟩
        else
          walkDRCnt h u gu fmax ie m n
            ⟨v.i + ceilDivInt (fv - fmax) (2 * min_del_extend), v.j⟩
    else .ok v

/-- Entry point of the down-right walk; every trip moves down one row
or right at least one column (the stride is positive out of scope), so
`(ie + 1 - v.i).toNat + (m - v.j).toNat` bounds the trip count and the
guard is false when it reaches zero. -/
def walkDR (h : Pos → Int) (u : Pos) (gu fmax ie m : Int) (v : Pos) :
    Except Err Pos :=
  walkDRCnt h u gu fmax ie m ((ie + 1 - v.i).toNat + (m - v.j).toNat) v

/-- The sparse-`h` final up-walk of the A* `j_range` (`nw.rs:453-467`):
starting at column `ie`, move up by
`⌈(f(v) - f_max) / (2 · min_ins_extend)⌉` rows until in scope, stopping
at `v.1 < 0` or `v.1 = m`. -/
def walkUpCnt (h : Pos → Int) (u : Pos) (gu fmax m : Int) :
    Nat → Pos → Except Err Pos
  | 0, v => .ok v
  | n + 1, v =>
    if v.j < 0 ∨ v.j = m then .ok v
    else
      match fWalk h u gu v with
      | .error e => .error e
      | .ok fv =>
        if fv ≤ fmax then .ok v
        else
          walkUpCnt h u gu fmax m n
            ⟨v.i, v.j - ceilDivInt (fv - fmax) (2 * min_ins_extend)⟩

/-- Entry point of the up-walk; the row decreases by at least one per
trip and the loop stops below row 0, so `(v.j + 1).toNat` bounds the
trip count and the guard is false when it reaches zero. -/
def walkUp (h : Pos → Int) (u : Pos) (gu fmax m : Int) (v : Pos) :
    Except Err Pos :=
  walkUpCnt h u gu fmax m (v.j + 1).toNat v

/-- The inner `while v.1 ≤ m && f(v) ≤ f_max { v.1 += 1 }` of the
non-sparse A* walk (`nw.rs:475-477`): starting from row `j`, the first
row that is out of scope (the column `vi` never changes and is
returned as a row only). -/
def denseDownCnt (h : Pos → Int) (u : Pos) (gu fmax m vi : Int) :
    Nat → Int → Except Err Int
  | 0, j => .ok j
  | n + 1, j =>
    if j ≤ m then
      match fWalk h u gu ⟨vi, j⟩ with
      | .error e => .error e
      | .ok fv =>
        if fv ≤ fmax then denseDownCnt h u gu fmax m vi n (j + 1)
        else .ok j
    else .ok j

/-- Entry point of the inner down-extension; `(m + 1 - j).toNat`
bounds the trip count exactly. -/
def denseDown (h : Pos → Int) (u : Pos) (gu fmax m vi : Int) (j : Int) :
    Except Err Int :=
  denseDownCnt h u gu fmax m vi (m + 1 - j).toNat j

/-- The non-sparse A* walk (`nw.rs:469-479`): per column, extend
diagonally, probe one row down, extend down while in scope, and step
back up one row. -/
def walkDenseCnt (h : Pos → Int) (u : Pos) (gu fmax ie m : Int) :
    Nat → Pos → Except Err Pos
  | 0, v => .ok v
  | n + 1, v =>
    if v.i < ie then
      match denseDown h u gu fmax m (v.i + 1) (v.j + 1 + 1) with
      | .error e => .error e
      | .ok j2 => walkDenseCnt h u gu fmax ie m n ⟨v.i + 1, j2 - 1⟩
    else .ok v

/-- Entry point of the non-sparse walk; the column advances by one per
trip, so `(ie - v.i).toNat` is the exact trip count. -/
def walkDense (h : Pos → Int) (u : Pos) (gu fmax ie m : Int) (v : Pos) :
    Except Err Pos :=
  walkDenseCnt h u gu fmax ie m (ie - v.i).toNat v

/-- `NWInstance::j_range` (`nw.rs:335-484`): the row range to process
for the block `i_range` under bound `f_max`, from the previous front.
Per the source doc comment, for the first column (`IRange(-1, 0)`)
`prev` "is not used" — but the A* branch does read
`prev.fixed_j_range()` and panics when it is `None`. -/
def jRangeF (p : NWp) (a b : List Nat) (i_range : IRange)
    (f_max : Option Int) (prev : BitFront) : Except Err JRange :=
  match f_max with
  | none => .ok ⟨0, (b.length : Int)⟩
  | some f_max =>
    let is := i_range.lo
    let ie := i_range.hi
    match p.domain with
    | .Full => .ok ⟨0, (b.length : Int)⟩
    | .GapStart =>
      .ok ⟨max (is + 1 + (-(max_del_for_cost f_max))) 0,
        min (ie + max_ins_for_cost f_max) (b.length : Int)⟩
    | .GapGap =>
      let d := (b.length : Int) - (a.length : Int)
      let s := f_max - gap_cost ⟨0, 0⟩ ⟨(a.length : Int), (b.length : Int)⟩
      let extra_diagonals := s.tdiv (min_ins_extend + min_del_extend)
      let range : JRange :=
        ⟨min d 0 - extra_diagonals, max d 0 + extra_diagonals⟩
      .ok ⟨max (is + 1 + range.lo) 0, min (ie + range.hi) (b.length : Int)⟩
    | .Astar h =>
      match prev.fixed_j_range with
      | none => .error .panic
      | some fr => do
        let fixed_start := fr.lo
        let fixed_end := fr.hi
        if fixed_start > fixed_end then pure (⟨fixed_start, fixed_end⟩ : JRange)
        else do
          let u : Pos := ⟨is, fixed_end⟩
          let gu ← if is < 0 then pure 0 else prev.indexE fixed_end
          let m := (b.length : Int)
          if p.sparse_h then do
            let v0 : Pos := ⟨u.i + 1, u.j + 1⟩
            let v1 : Pos := ⟨v0.i, min (v0.j + p.block_width) m⟩
            let v2 ← walkDR h u gu f_max ie m v1
            let v3 ← walkUp h u gu f_max m ⟨ie, v2.j⟩
            pure (⟨max fixed_start 0, min v3.j m⟩ : JRange)
          else do
            let v2 ← walkDense h u gu f_max ie m u
            pure (⟨max fixed_start 0, min v2.j m⟩ : JRange)

/-- The start-increasing loop of `NWInstance::fixed_j_range`
(`nw.rs:522-532`): raise `start` until `f(start) ≤ f_max` or the range
empties, by sparse strides of `⌈(f - f_max)/(2 · min_ins_extend)⌉` (or
1 when `sparse_h` is off). -/
def fixedStartCnt (front : BitFront) (h : Pos → Int) (i f_max : Int)
    (sparse_h : Bool) (e : Int) : Nat → Int → Except Err Int
  | 0, s => pure s
  | n + 1, s =>
    if s ≤ e then
      match front.indexE s with
      | .error er => .error er
      | .ok g =>
        let f := g + h ⟨i, s⟩
        if f ≤ f_max then pure s
        else
          fixedStartCnt front h i f_max sparse_h e n
            (s + if sparse_h then ceilDivInt (f - f_max) (2 * min_ins_extend) else 1)
    else pure s

/-- Entry point of the start-increasing loop; `(e + 1 - s).toNat`
bounds the trip count (the stride is at least one). -/
def fixedStartGo (front : BitFront) (h : Pos → Int) (i f_max : Int)
    (sparse_h : Bool) (e : Int) (s : Int) : Except Err Int :=
  fixedStartCnt front h i f_max sparse_h e (e + 1 - s).toNat s

/-- The end-decreasing loop of `NWInstance::fixed_j_range`
(`nw.rs:534-544`). -/
def fixedEndCnt (front : BitFront) (h : Pos → Int) (i f_max : Int)
    (sparse_h : Bool) (s : Int) : Nat → Int → Except Err Int
  | 0, e => pure e
  | n + 1, e =>
    if e ≥ s then
      match front.indexE e with
      | .error er => .error er
      | .ok g =>
        let f := g + h ⟨i, e⟩
        if f ≤ f_max then pure e
        else
          fixedEndCnt front h i f_max sparse_h s n
            (e - if sparse_h then ceilDivInt (f - f_max) (2 * min_ins_extend) else 1)
    else pure e

/-- Entry point of the end-decreasing loop; `(e + 1 - s).toNat` bounds
the trip count (the stride is at least one). -/
def fixedEndGo (front : BitFront) (h : Pos → Int) (i f_max : Int)
    (sparse_h : Bool) (s : Int) (e : Int) : Except Err Int :=
  fixedEndCnt front h i f_max sparse_h s (e + 1 - s).toNat e

/-- `NWInstance::fixed_j_range` (`nw.rs:489-546`): `None` unless the
domain is A* and `f_max` is present; otherwise the subrange of the
front's `j_range` obtained by moving `start` up and `end` down until
`f ≤ f_max` (with sparse strides when `sparse_h`). -/
def fixedJRangeF (p : NWp) (i : Int) (f_max : Option Int)
    (front : BitFront) : Except Err (Option JRange) :=
  match p.domain, f_max with
  | .Astar h, some f_max => do
    let s ← fixedStartGo front h i f_max p.sparse_h front.j_range.hi
      front.j_range.lo
    let e ← fixedEndGo front h i f_max p.sparse_h s front.j_range.hi
    pure (some (⟨s, e⟩ : JRange))
  | _, _ => pure none

/-- The per-block loop of `NWInstance::align_for_bounded_dist`
(`nw.rs:591-615`): for each block of `block_width` columns, compute the
`j_range` (returning "not found" when it is empty), compute the block
and set the fixed range.  Returns `(false, st)` for the early
"not found" return and `(true, st)` on completion.  The
proof argument `hbw` reflects that Rust's `step_by` panics on a zero
step (checked by the caller). -/
def blockLoopCnt (p : NWp) (a b : List Nat) (f_max : Option Int) :
    Nat → BitFronts → Int → Except Err (Bool × BitFronts)
  | 0, st, _ => pure (true, st)
  | n + 1, st, i =>
    if i < (a.length : Int) then do
      let i_range : IRange := ⟨i, min (i + p.block_width) (a.length : Int)⟩
      let j_range ← jRangeF p a b i_range f_max st.lastFront
      if j_range.is_empty then pure (false, st)
      else do
        let st1 ← st.compute_next_block i_range j_range
        let fr ← fixedJRangeF p i_range.hi f_max st1.lastFront
        let st2 ← st1.set_last_front_fixed_j_range fr
        blockLoopCnt p a b f_max n st2 (i + p.block_width)
    else pure (true, st)

/-- Entry point of the block loop; since `block_width` is positive
(checked by the caller, as `step_by` would panic on zero), `a.length`
bounds the trip count and the guard is false when it reaches zero. -/
def blockLoopF (p : NWp) (a b : List Nat) (f_max : Option Int)
    (st : BitFronts) (i : Int) : Except Err (Bool × BitFronts) :=
  blockLoopCnt p a b f_max a.length st i

/-- `NWInstance::align_for_bounded_dist` (`nw.rs:553-638`): one bounded
run.  Returns the optional result (`None` = "not found") and the
final front state (the `&mut` fronts argument of the source; a fresh
front sequence is created when none is passed in).  `fuel` bounds the
traceback loops only. -/
def alignForBoundedDist (p : NWp) (a b : List Nat) (f_max : Option Int)
    (trace : Bool) (fronts0 : Option BitFronts) (fuel : Nat) :
    Except Err (Option (Int × Option Cigar) × BitFronts) := do
  let fronts := match fronts0 with
    | some f => f
    | none => p.front.new trace a b
  grd (0 ≤ f_max.getD 0)
  let initial_j_range ← jRangeF p a b IRange.first_col f_max BitFront.default
  if initial_j_range.is_empty then pure (none, fronts)
  else do
    let st ← fronts.init initial_j_range
    if 0 < p.block_width then do
      let r ← blockLoopF p a b f_max st 0
      if r.1 = false then pure (none, r.2)
      else do
        let dOpt ← r.2.lastFront.get (b.length : Int)
        match dOpt with
        | none => pure (none, r.2)
        | some dist =>
          if trace ∧ dist ≤ f_max.getD costMAX then do
            let tr ← r.2.traceF ⟨0, 0⟩ ⟨(a.length : Int), (b.length : Int)⟩ fuel
            pure (some (dist, some tr.2), tr.1)
          else pure (some (dist, none), r.2)
    else .error .panic

/-- `NW::band_doubling_params` (`nw.rs:209-231`): the starting bound
and increment; the increment is raised to at least `F::BLOCKSIZE`.
`DoublingStart::H0` panics (`expect`) unless the domain is A*. -/
def bandDoublingParams (p : NWp) (start : DoublingStart) (a b : List Nat) :
    Except Err (Int × Int) :=
  match start with
  | .Zero => pure (0, max 1 BLOCKSIZE)
  | .Gap =>
    let x := gap_cost ⟨0, 0⟩ ⟨(a.length : Int), (b.length : Int)⟩
    pure (x, max x BLOCKSIZE)
  | .H0 =>
    match p.domain with
    | .Astar h => pure (h ⟨0, 0⟩, max 1 BLOCKSIZE)
    | _ => .error .panic

/-- `exponential_search` as defined in the snapshot's `lib.rs:19-32`
(three parameters): try `f` at bound `s`; return on success with
`cost ≤ s`, otherwise grow the bound to `max(⌈factor · s⌉, 1)`.  The
source's unbounded `loop` is cut off by `fuel` (the source comment
itself notes the potential infinite loop); the `f32` factor is
modelled as an exact rational. -/
def exponentialSearchGo {T : Type} (factor : ℚ) (f : Int → Option (Int × T)) :
    Nat → Int → Option (Int × T)
  | 0, _ => none
  | fuel + 1, s =>
    match f s with
    | some (cost, t) =>
      if cost ≤ s then some (cost, t)
      else exponentialSearchGo factor f fuel (max (Int.ceil (factor * (s : ℚ))) 1)
    | none => exponentialSearchGo factor f fuel (max (Int.ceil (factor * (s : ℚ))) 1)

/-- The bound sequence generated by `exponential_search`'s update
`s ← max(⌈factor · s⌉, 1)` (`lib.rs:30`). -/
def expSearchBound (factor : ℚ) (s0 : Int) : Nat → Int
  | 0 => s0
  | k + 1 => max (Int.ceil (factor * (expSearchBound factor s0 k : ℚ))) 1

/-- Modelled from the spec: the four-argument `exponential_search`
that `cost_or_align` actually calls (`nw.rs:243`) does not exist in
the snapshot — `lib.rs`'s `exponential_search` takes three arguments
and ignores any increment.  Per spec section 4.6 the intended update
is `s ← max(⌈factor · s⌉, s + start_increment)`; this driver threads
the reused front sequence through the closure
`|s| nw.align_for_bounded_dist(Some(s), trace, Some(&mut fronts))`. -/
def expSearchDriver (p : NWp) (a b : List Nat) (trace : Bool) (factor : ℚ)
    (incr : Int) (fuelT : Nat) (st : BitFronts) :
    Nat → Int → Except Err (Int × (Int × Option Cigar))
  | 0, _ => .error .panic
  | fuel + 1, s => do
    let r ← alignForBoundedDist p a b (some s) trace (some st) fuelT
    match r.1 with
    | some (cost, cg) =>
      if cost ≤ s then pure (cost, (cost, cg))
      else
        expSearchDriver p a b trace factor incr fuelT r.2 fuel
          (max (Int.ceil (factor * (s : ℚ))) (s + incr))
    | none =>
      expSearchDriver p a b trace factor incr fuelT r.2 fuel
        (max (Int.ceil (factor * (s : ℚ))) (s + incr))

/-- `NW::cost_or_align` (`nw.rs:233-257`): `LocalDoubling` is
`todo!()`; `BandDoubling` runs the doubling driver over a fresh front
sequence; `Strategy::None` asserts the `Full` domain and runs a single
unbounded alignment, unwrapping the result (a panic if it is
`None`). -/
def costOrAlign (p : NWp) (a b : List Nat) (trace : Bool) (fuel : Nat) :
    Except Err (Int × Option Cigar) :=
  match p.strategy with
  | .LocalDoubling => .error .panic
  | .BandDoubling start factor => do
    let pr ← bandDoublingParams p start a b
    let fronts := p.front.new trace a b
    let r ← expSearchDriver p a b trace factor pr.2 fuel fronts fuel pr.1
    pure r.2
  | .None => do
    grd p.domain.isFull
    let r ← alignForBoundedDist p a b none trace none fuel
    match r.1 with
    | some x => pure x
    | none => .error .panic

/-- `NW::cost` (`nw.rs:259-261`): `cost_or_align(a, b, false).0`. -/
def NWcost (p : NWp) (a b : List Nat) (fuel : Nat) : Except Err Int := do
  let r ← costOrAlign p a b false fuel
  pure r.1

/-- `NW::align` (`nw.rs:263-266`): `cost_or_align(a, b, self.trace)`. -/
def NWalign (p : NWp) (a b : List Nat) (fuel : Nat) :
    Except Err (Int × Option Cigar) :=
  costOrAlign p a b p.trace fuel

/-! ## Specification-side notions used by the theorems -/

/-- The stored delta of a raw word vector at row boundary `x` (bit
`(x - off) % W` of word `(x - off) / W`, like `get_diff` without the
bounds checks). -/
def wordBit (v : List V) (off x : Int) : Int :=
  (vAt v ((x - off).tdiv 64)).bit ((x - off).toNat % W)

/-- The stored delta of a front at row boundary `j`. -/
def bitAt (f : BitFront) (j : Int) : Int := wordBit f.v f.offset j

/-- The column-value function encoded by a front: anchored at
`top_val` at the top of the rounded range, accumulating the stored
deltas through the rounded range, and extending by `+1` per row
below it. -/
def frontG (f : BitFront) (j : Int) : Int :=
  f.top_val +
    (∑ t in Finset.range
      ((min j (round f.j_range).hi - (round f.j_range).lo).toNat),
      bitAt f ((round f.j_range).lo + t)) +
    max (j - (round f.j_range).hi) 0

/-- The front represents the column-value function `G`: `top_val`
anchors `G` at the top of the rounded range and every stored delta in
the rounded range is the corresponding difference of `G`. -/
def RepG (f : BitFront) (G : Int → Int) : Prop :=
  f.top_val = G (round f.j_range).lo ∧
    ∀ t : Nat, t < ((round f.j_range).hi - (round f.j_range).lo).toNat →
      bitAt f ((round f.j_range).lo + t) =
        G ((round f.j_range).lo + t + 1) - G ((round f.j_range).lo + t)

instance (f : BitFront) (G : Int → Int) : Decidable (RepG f G) := by
  unfold RepG
  infer_instance

/-- All stored words at or below the bottom of the rounded range are
`V.one` (run invariant of the single-front no-trace mode: rows are
initialized to `+1` and the computed row range never moves back up). -/
def onesBeyond (f : BitFront) : Prop :=
  ∀ w : Nat, w < f.v.length → (round f.j_range).hi ≤ f.offset + 64 * w →
    f.v.getD w V.one = V.one

instance (f : BitFront) : Decidable (onesBeyond f) := by
  unfold onesBeyond
  infer_instance

/-- Total value of a word vector (sum of word values). -/
def sumVals (l : List V) : Int := (l.map V.value).sum

/-! # Theorems -/

def c3Front : BitFront :=
  { v := [V.one], i := 0, j_range := ⟨0, 1⟩, fixed_j_range := some ⟨0, 1⟩,
    offset := 0, top_val := 0, bot_val := 64, j_h := none }

def c3St : BitFronts :=
  { params := ⟨false, false, false⟩, trace := false, a := [0], b := [0],
    fronts := [c3Front], last_front_idx := 0, i_range := ⟨-1, 0⟩, h := [] }

def c3St' : BitFronts := (c3St.compute_next_block ⟨0, 1⟩ ⟨0, 1⟩).toOption.getD c3St

def c3BadPrev : BitFront :=
  { v := [V.one, V.one], i := 0, j_range := ⟨0, 65⟩, fixed_j_range := some ⟨0, 65⟩,
    offset := 0, top_val := 0, bot_val := 128, j_h := none }

def c3BadNext : BitFront :=
  { v := [⟨0, 0⟩, V.one], i := 1, j_range := ⟨0, 65⟩, fixed_j_range := some ⟨0, 64⟩,
    offset := 0, top_val := 1, bot_val := 65, j_h := some 64 }

def c3BadSt : BitFronts :=
  { params := ⟨true, false, true⟩, trace := true, a := [0], b := [0],
    fronts := [c3BadPrev, c3BadNext], last_front_idx := 0,
    i_range := ⟨-1, 0⟩, h := [1] }

def c3BadSt' : BitFronts :=
  (c3BadSt.compute_next_block ⟨0, 1⟩ ⟨0, 65⟩).toOption.getD c3BadSt

def c4PrevFront : BitFront :=
  { v := [V.one, V.one], i := 0, j_range := ⟨0, 65⟩, fixed_j_range := some ⟨0, 128⟩,
    offset := 0, top_val := 0, bot_val := 128, j_h := none }

def c4NextFront : BitFront :=
  { v := [V.one, V.one], i := 1, j_range := ⟨0, 65⟩, fixed_j_range := some ⟨0, 64⟩,
    offset := 0, top_val := 0, bot_val := 128, j_h := some 64 }

def c4St : BitFronts :=
  { params := ⟨true, false, true⟩, trace := true, a := [0], b := [0],
    fronts := [c4PrevFront, c4NextFront], last_front_idx := 0,
    i_range := ⟨-1, 0⟩, h := [0] }

def c4St' : BitFronts := (c4St.compute_next_block ⟨0, 1⟩ ⟨0, 65⟩).toOption.getD c4St

def c6f (s : Int) : Option (Int × Int) := if 96 ≤ s then some (96, s) else none

/-- The down-right walk as worded by the claim (stride applied to rows):
used only to compare against the code's `walkDRCnt`. -/
def walkDRRowsCnt (h : Pos → Int) (u : Pos) (gu fmax ie m : Int) :
    Nat → Pos → Except Err Pos
  | 0, v => .ok v
  | n + 1, v =>
    if v.i ≤ ie ∧ v.j < m then
      match fWalk h u gu v with
      | .error e => .error e
      | .ok fv =>
        if fv ≤ fmax then walkDRRowsCnt h u gu fmax ie m n ⟨v.i, v.j + 1⟩
        else
          walkDRRowsCnt h u gu fmax ie m n
            ⟨v.i, v.j + ceilDivInt (fv - fmax) (2 * min_del_extend)⟩
    else .ok v

def c1Params : NWp :=
  { domain := .Full, strategy := .None, block_width := 1,
    front := ⟨false, false, false⟩, trace := false, sparse_h := false }

def c2ParamsAstar : NWp :=
  { domain := .Astar (fun _ => 0), strategy := .None, block_width := 1,
    front := ⟨false, false, false⟩, trace := false, sparse_h := false }

def insPushN : Cigar → Nat → Cigar
  | c, 0 => c
  | c, k + 1 => insPushN (c.push_elem ⟨.Ins, 1⟩) k

def c9Params : NWp :=
  { domain := .Full, strategy := .None, block_width := 1,
    front := ⟨false, false, false⟩, trace := true, sparse_h := false }

def c10Front : BitFront :=
  { v := [V.one], i := 2, j_range := ⟨0, 1⟩, fixed_j_range := none,
    offset := 0, top_val := 2, bot_val := 66, j_h := none }

def c10Params : NWp :=
  { domain := .GapStart, strategy := .None, block_width := 2,
    front := ⟨false, false, false⟩, trace := false, sparse_h := false }

/-- The bounded run used to test the "not found" report: `GapStart`
domain, `A = [0,1]`, `B = []`, bound `f_max = 0`. -/
def c10run : Except Err (Option (Int × Option Cigar) × BitFronts) :=
  alignForBoundedDist c10Params [0, 1] [] (some 0) false none 4

theorem V_value_eq_sum (v : V) : v.value = ∑ t in Finset.range 64, v.bit t := by
  unfold V.value V.bit popcount W
  push_cast
  rw [Finset.sum_sub_distrib]

theorem V_valLo_eq_sum (v : V) (k : Int) (h0 : 0 ≤ k) (h64 : k ≤ 64) :
    v.valLo k = ∑ t in Finset.range k.toNat, v.bit t := by
  unfold V.valLo V.bit popcountLow
  have hmin : min k.toNat W = k.toNat := by
    unfold W
    omega
  rw [hmin]
  push_cast
  rw [Finset.sum_sub_distrib]

theorem V_valHi_eq_sum (v : V) (k : Int) (h0 : 0 ≤ k) (h64 : k ≤ 64) :
    v.valHi k = ∑ t in Finset.Ico (64 - k.toNat) 64, v.bit t := by
  unfold V.valHi V.bit popcountHigh W
  push_cast
  rw [Finset.sum_sub_distrib]

theorem wordBit_word (v : List V) (off x : Int) (q : Int) (t : Nat)
    (hq : x - off = 64 * q) (h0 : 0 ≤ q) (ht : t < 64) :
    wordBit v off (x + t) = (vAt v q).bit t := by
  unfold wordBit
  have h1 : x + t - off = 64 * q + t := by omega
  have h2 : (x + t - off).tdiv 64 = q := by
    rw [h1, Int.tdiv_eq_ediv (by omega) (by omega)]
    omega
  have h3 : (x + t - off).toNat % W = t := by
    unfold W
    omega
  rw [h2, h3]

theorem topScanCnt_eq (v : List V) (off j : Int) (n : Nat) (val j0 : Int)
    (hn : n = (j - j0).toNat / 64) (h0 : 0 ≤ j0 - off)
    (hmod : (j0 - off) % 64 = 0) (hj : j0 ≤ j) :
    topScanCnt v off j n val j0 =
      val + ∑ t in Finset.range (j - j0).toNat, wordBit v off (j0 + t) := by
  induction n generalizing val j0 with
  | zero =>
    unfold topScanCnt
    obtain ⟨q, hq⟩ : ∃ q : Int, j0 - off = 64 * q := ⟨(j0 - off) / 64, by omega⟩
    have hq0 : 0 ≤ q := by omega
    have hdiv : (j0 - off).tdiv 64 = q := by
      rw [hq, Int.tdiv_eq_ediv (by omega) (by omega)]
      omega
    rw [hdiv, V_valLo_eq_sum _ _ (by omega) (by omega)]
    congr 1
    apply Finset.sum_congr rfl
    intro t htr
    have ht : t < 64 := by
      have := Finset.mem_range.mp htr
      omega
    exact (wordBit_word v off j0 q t hq hq0 ht).symm
  | succ n ih =>
    unfold topScanCnt
    rw [ih _ (j0 + 64) (by omega) (by omega) (by omega) (by omega)]
    obtain ⟨q, hq⟩ : ∃ q : Int, j0 - off = 64 * q := ⟨(j0 - off) / 64, by omega⟩
    have hq0 : 0 ≤ q := by omega
    have hN : (j - j0).toNat = 64 + (j - (j0 + 64)).toNat := by omega
    rw [hN, Finset.sum_range_add]
    have hw : ∀ t ∈ Finset.range 64, wordBit v off (j0 + (t : Int)) = (vAt v q).bit t := by
      intro t htr
      exact wordBit_word v off j0 q t hq hq0 (Finset.mem_range.mp htr)
    rw [Finset.sum_congr rfl hw, ← V_value_eq_sum]
    have hdiv : (j0 - off).tdiv 64 = q := by
      rw [hq, Int.tdiv_eq_ediv (by omega) (by omega)]
      omega
    rw [hdiv]
    have hsh : ∀ t ∈ Finset.range (j - (j0 + 64)).toNat,
        wordBit v off (j0 + ((64 + t : Nat) : Int)) = wordBit v off ((j0 + 64) + (t : Int)) := by
      intro t _
      congr 1
      push_cast
      ring
    rw [Finset.sum_congr rfl hsh]
    ring

theorem topScanGo_eq (v : List V) (off j val j0 : Int) (h0 : 0 ≤ j0 - off)
    (hmod : (j0 - off) % 64 = 0) (hj : j0 ≤ j) :
    topScanGo v off j val j0 =
      val + ∑ t in Finset.range (j - j0).toNat, wordBit v off (j0 + t) := by
  unfold topScanGo
  exact topScanCnt_eq v off j _ val j0 rfl h0 hmod hj

theorem botScanCnt_eq (v : List V) (off j : Int) (n : Nat) (val j1 : Int)
    (hn : n = (j1 - j - 1).toNat / 64)
    (hmod : (j1 - off) % 64 = 0) (hj : j ≤ j1) (hjo : 0 ≤ j - off) :
    botScanCnt v off j n val j1 =
      val - ∑ t in Finset.range (j1 - j).toNat, wordBit v off (j + t) := by
  induction n generalizing val j1 with
  | zero =>
    unfold botScanCnt
    split
    · next hgt =>
      obtain ⟨q, hq⟩ : ∃ q : Int, j1 - 64 - off = 64 * q := ⟨(j1 - 64 - off) / 64, by omega⟩
      have hq0 : 0 ≤ q := by omega
      have hdiv : (j1 - 64 - off).tdiv 64 = q := by
        rw [hq, Int.tdiv_eq_ediv (by omega) (by omega)]
        omega
      rw [hdiv, V_valHi_eq_sum _ _ (by omega) (by omega), Finset.sum_Ico_eq_sum_range]
      have hNN : 64 - (64 - (j1 - j).toNat) = (j1 - j).toNat := by omega
      rw [hNN]
      have hw : ∀ t ∈ Finset.range (j1 - j).toNat,
          (vAt v q).bit (64 - (j1 - j).toNat + t) = wordBit v off (j + (t : Int)) := by
        intro t htr
        have ht := Finset.mem_range.mp htr
        have harg : j + (t : Int) = (j1 - 64) + ((64 - (j1 - j).toNat + t : Nat) : Int) := by
          push_cast
          omega
        rw [harg, wordBit_word v off (j1 - 64) q _ hq hq0 (by omega)]
      rw [Finset.sum_congr rfl hw]
    · next hle =>
      have hj1 : j1 = j := by omega
      rw [hj1]
      simp
  | succ n ih =>
    unfold botScanCnt
    rw [ih _ (j1 - 64) (by omega) (by omega) (by omega)]
    obtain ⟨q, hq⟩ : ∃ q : Int, j1 - 64 - off = 64 * q := ⟨(j1 - 64 - off) / 64, by omega⟩
    have hq0 : 0 ≤ q := by omega
    have hdiv : (j1 - 64 - off).tdiv 64 = q := by
      rw [hq, Int.tdiv_eq_ediv (by omega) (by omega)]
      omega
    have hN : (j1 - j).toNat = (j1 - 64 - j).toNat + 64 := by omega
    rw [hN, Finset.sum_range_add, hdiv]
    have hw : ∀ t ∈ Finset.range 64,
        wordBit v off (j + (((j1 - 64 - j).toNat + t : Nat) : Int)) = (vAt v q).bit t := by
      intro t htr
      have ht : t < 64 := Finset.mem_range.mp htr
      have harg : j + (((j1 - 64 - j).toNat + t : Nat) : Int) = (j1 - 64) + (t : Int) := by
        push_cast
        omega
      rw [harg]
      exact wordBit_word v off (j1 - 64) q t hq hq0 ht
    rw [Finset.sum_congr rfl hw, ← V_value_eq_sum]
    ring

theorem botScanGo_eq (v : List V) (off j val j1 : Int)
    (hmod : (j1 - off) % 64 = 0) (hj : j ≤ j1) (hjo : 0 ≤ j - off) :
    botScanGo v off j val j1 =
      val - ∑ t in Finset.range (j1 - j).toNat, wordBit v off (j + t) := by
  unfold botScanGo
  exact botScanCnt_eq v off j _ val j1 rfl hmod hj hjo

theorem sliceSum_step (v : List V) (s e : Nat) (hs : s < e) (he : e ≤ v.length) :
    sliceSum v s e = (vAt v (s : Int)).value + sliceSum v (s + 1) e := by
  unfold sliceSum vAt
  have hdrop : v.drop s = v.getD s V.one :: v.drop (s + 1) := by
    rw [List.getD_eq_getElem v V.one (by omega)]
    exact List.drop_eq_getElem_cons (by omega)
  rw [hdrop]
  have hlen : e - s = (e - (s + 1)) + 1 := by omega
  rw [hlen, List.take_succ_cons, List.foldr_cons]
  simp

theorem sliceSum_eq_sum (v : List V) (s e : Nat) (hse : s ≤ e) (he : e ≤ v.length) :
    sliceSum v s e = ∑ t in Finset.range (e - s), (vAt v ((s + t : Nat) : Int)).value := by
  obtain ⟨d, hd⟩ : ∃ d, e = s + d := ⟨e - s, by omega⟩
  subst hd
  induction d generalizing s with
  | zero =>
    unfold sliceSum
    simp
  | succ d ih =>
    rw [sliceSum_step v s (s + (d + 1)) (by omega) he]
    have h1 : s + (d + 1) = (s + 1) + d := by omega
    rw [h1, ih (s + 1) (by omega) (by omega)]
    have h2 : (s + 1) + d - (s + 1) = d := by omega
    have h3 : (s + 1) + d - s = 1 + d := by omega
    rw [h2, h3, Finset.sum_range_add]
    simp only [Finset.sum_range_one]
    have h4 : ∀ t ∈ Finset.range d,
        (vAt v (((s + 1) + t : Nat) : Int)).value = (vAt v ((s + (1 + t) : Nat) : Int)).value := by
      intro t _
      congr 2
      omega
    rw [Finset.sum_congr rfl h4]
    push_cast
    ring_nf

theorem rowSum_eq_wordSum (v : List V) (off x : Int) (q : Int) (K : Nat)
    (hq : x - off = 64 * q) (hq0 : 0 ≤ q) :
    ∑ t in Finset.range (64 * K), wordBit v off (x + t) =
      ∑ w in Finset.range K, (vAt v (q + w)).value := by
  induction K generalizing x q with
  | zero => simp
  | succ K ih =>
    have h1 : 64 * (K + 1) = 64 + 64 * K := by omega
    rw [h1, Finset.sum_range_add]
    have hw : ∀ t ∈ Finset.range 64, wordBit v off (x + (t : Int)) = (vAt v q).bit t := by
      intro t htr
      exact wordBit_word v off x q t hq hq0 (Finset.mem_range.mp htr)
    rw [Finset.sum_congr rfl hw, ← V_value_eq_sum]
    have hsh : ∀ t ∈ Finset.range (64 * K),
        wordBit v off (x + ((64 + t : Nat) : Int)) = wordBit v off ((x + 64) + (t : Int)) := by
      intro t _
      congr 1
      push_cast
      ring
    rw [Finset.sum_congr rfl hsh, ih (x + 64) (q + 1) (by omega) (by omega)]
    rw [Finset.sum_range_succ']
    have hv : ∀ w ∈ Finset.range K,
        (vAt v ((q + 1) + (w : Int))).value = (vAt v (q + ((w + 1 : Nat) : Int))).value := by
      intro w _
      congr 2
      push_cast
      ring
    rw [Finset.sum_congr rfl hv]
    have h0 : (vAt v (q + ((0 : Nat) : Int))).value = (vAt v q).value := by
      norm_num
    rw [h0]
    ring

theorem nextMul64_spec (x : Int) :
    nextMul64 x % 64 = 0 ∧ x ≤ nextMul64 x ∧ nextMul64 x < x + 64 := by
  unfold nextMul64
  rw [Int.fdiv_eq_ediv _ (by omega)]
  omega

theorem round_spec (r : JRange) :
    (round r).lo % 64 = 0 ∧ (round r).hi % 64 = 0 ∧
      r.hi ≤ (round r).hi ∧ (round r).hi < r.hi + 64 ∧
      (0 ≤ r.lo → (round r).lo ≤ r.lo ∧ r.lo < (round r).lo + 64) := by
  unfold round
  obtain ⟨h1, h2, h3⟩ := nextMul64_spec r.hi
  have h4 : r.lo.tdiv 64 = if 0 ≤ r.lo then r.lo / 64 else 0 - ((-r.lo) / 64) := by
    split
    · rw [Int.tdiv_eq_ediv (by omega) (by omega)]
    · rw [show r.lo = -(-r.lo) from by ring, Int.neg_tdiv,
        Int.tdiv_eq_ediv (by omega) (by omega)]
      omega
  constructor
  · simp only
    split at h4 <;> omega
  refine ⟨h1, h2, h3, ?_⟩
  intro h5
  simp only
  rw [h4]
  split <;> omega

theorem top_bot_ok_iff (f : BitFront) (hwf : f.wfStruct) :
    f.top_bot_ok ↔ f.bot_val = frontG f (round f.j_range).hi := by
  obtain ⟨ho0, homod, hor0, hr01, hlen, hjl⟩ := hwf
  obtain ⟨hm0, hm1, _, _, _⟩ := round_spec f.j_range
  unfold BitFront.top_bot_ok frontG
  simp only [W]
  have hK : ((round f.j_range).hi - (round f.j_range).lo).toNat =
      64 * (((round f.j_range).hi - (round f.j_range).lo).toNat / 64) := by
    omega
  have hmin : min (round f.j_range).hi (round f.j_range).hi = (round f.j_range).hi := by
    omega
  rw [hmin, hK]
  have hbit : ∀ t ∈ Finset.range (64 * (((round f.j_range).hi - (round f.j_range).lo).toNat / 64)),
      bitAt f ((round f.j_range).lo + t) = wordBit f.v f.offset ((round f.j_range).lo + t) := by
    intro t _
    rfl
  rw [Finset.sum_congr rfl hbit]
  rw [rowSum_eq_wordSum f.v f.offset (round f.j_range).lo (((round f.j_range).lo - f.offset) / 64)
    _ (by omega) (by omega)]
  rw [sliceSum_eq_sum _ _ _ (by omega) (by omega)]
  have hcong : ∀ w ∈ Finset.range ((((round f.j_range).hi - f.offset).toNat / 64) -
        (((round f.j_range).lo - f.offset).toNat / 64)),
      (vAt f.v (((((round f.j_range).lo - f.offset).toNat / 64 + w : Nat)) : Int)).value =
        (vAt f.v (((round f.j_range).lo - f.offset) / 64 + (w : Int))).value := by
    intro w _
    congr 2
    omega
  rw [Finset.sum_congr rfl hcong]
  have hEq : (((round f.j_range).hi - f.offset).toNat / 64) -
      (((round f.j_range).lo - f.offset).toNat / 64) =
      ((round f.j_range).hi - (round f.j_range).lo).toNat / 64 := by
    omega
  rw [hEq]
  have hmax : max ((round f.j_range).hi - (round f.j_range).hi) 0 = 0 := by omega
  rw [hmax]
  constructor
  · intro h
    linarith [h]
  · intro h
    linarith [h]

theorem indexT_eq_frontG (f : BitFront) (hwf : f.wfStruct) (hbb : f.top_bot_ok)
    (j : Int) (hj : (round f.j_range).lo ≤ j) : f.indexT j = frontG f j := by
  have hbot := (top_bot_ok_iff f hwf).mp hbb
  obtain ⟨ho0, homod, hor0, hr01, hlen, hjl⟩ := hwf
  obtain ⟨hm0, hm1, _, _, _⟩ := round_spec f.j_range
  unfold BitFront.indexT
  simp only
  split
  · next hgt =>
    rw [hbot]
    unfold frontG
    have hmin1 : min j (round f.j_range).hi = (round f.j_range).hi := by omega
    have hmin2 : min (round f.j_range).hi (round f.j_range).hi = (round f.j_range).hi := by
      omega
    rw [hmin1, hmin2]
    have hmax1 : max (j - (round f.j_range).hi) 0 = j - (round f.j_range).hi := by omega
    have hmax2 : max ((round f.j_range).hi - (round f.j_range).hi) 0 = 0 := by omega
    rw [hmax1, hmax2]
    ring
  · next hle =>
    split
    · next hnear =>
      rw [topScanGo_eq f.v f.offset j f.top_val (round f.j_range).lo (by omega) (by omega)
        (by omega)]
      unfold frontG
      have hmin1 : min j (round f.j_range).hi = j := by omega
      rw [hmin1]
      have hmax1 : max (j - (round f.j_range).hi) 0 = 0 := by omega
      rw [hmax1]
      have hb : ∀ t ∈ Finset.range (j - (round f.j_range).lo).toNat,
          wordBit f.v f.offset ((round f.j_range).lo + (t : Int)) =
            bitAt f ((round f.j_range).lo + (t : Int)) := by
        intro t _
        rfl
      rw [Finset.sum_congr rfl hb]
      ring
    · next hfar =>
      rw [botScanGo_eq f.v f.offset j f.bot_val (round f.j_range).hi (by omega) (by omega)
        (by omega)]
      rw [hbot]
      unfold frontG
      have hmin1 : min j (round f.j_range).hi = j := by omega
      have hmin2 : min (round f.j_range).hi (round f.j_range).hi = (round f.j_range).hi := by
        omega
      rw [hmin1, hmin2]
      have hmax1 : max (j - (round f.j_range).hi) 0 = 0 := by omega
      have hmax2 : max ((round f.j_range).hi - (round f.j_range).hi) 0 = 0 := by omega
      rw [hmax1, hmax2]
      have hsplit : ((round f.j_range).hi - (round f.j_range).lo).toNat =
          (j - (round f.j_range).lo).toNat + ((round f.j_range).hi - j).toNat := by omega
      rw [hsplit, Finset.sum_range_add]
      have hsh : ∀ t ∈ Finset.range ((round f.j_range).hi - j).toNat,
          bitAt f ((round f.j_range).lo + (((j - (round f.j_range).lo).toNat + t : Nat) : Int)) =
            wordBit f.v f.offset (j + (t : Int)) := by
        intro t _
        unfold bitAt
        congr 1
        push_cast
        omega
      rw [Finset.sum_congr rfl hsh]
      ring

theorem frontG_eq_of_repG (f : BitFront) (G : Int → Int) (hrep : RepG f G)
    (j : Int) (h0 : (round f.j_range).lo ≤ j) (h1 : j ≤ (round f.j_range).hi) :
    frontG f j = G j := by
  obtain ⟨htop, hdel⟩ := hrep
  unfold frontG
  have hmin : min j (round f.j_range).hi = j := by omega
  have hmax : max (j - (round f.j_range).hi) 0 = 0 := by omega
  rw [hmin, hmax]
  have hd : ∀ t ∈ Finset.range (j - (round f.j_range).lo).toNat,
      bitAt f ((round f.j_range).lo + (t : Int)) =
        (fun n : Nat => G ((round f.j_range).lo + n)) (t + 1) -
          (fun n : Nat => G ((round f.j_range).lo + n)) t := by
    intro t htr
    have ht := Finset.mem_range.mp htr
    have := hdel t (by omega)
    simp only [this]
    congr 2
    push_cast
    ring
  rw [Finset.sum_congr rfl hd,
    Finset.sum_range_sub (fun n : Nat => G ((round f.j_range).lo + (n : Int)))]
  simp only [htop]
  have harg : (round f.j_range).lo + ((j - (round f.j_range).lo).toNat : Int) = j := by
    omega
  rw [harg]
  push_cast
  ring

/-- Claim C5: for every front whose top/bottom invariant holds and
whose stored words represent a column-value function `G` (the DP
values `g(i, ·)` of its column), `index(j)` returns `G j` for every
`j` in the rounded range, the top scan and the bottom scan agree (the
half-scan choice does not change the result), and for `j` beyond the
bottom of the rounded range `index(j) = bot_val + (j - round_hi)`. -/
theorem C5_index_half_scan (f : BitFront) (G : Int → Int) (hwf : f.wfStruct)
    (hbb : f.top_bot_ok) (hrep : RepG f G) :
    (∀ j, (round f.j_range).lo ≤ j → j ≤ (round f.j_range).hi →
      f.indexT j = G j ∧
        topScanGo f.v f.offset j f.top_val (round f.j_range).lo =
          botScanGo f.v f.offset j f.bot_val (round f.j_range).hi) ∧
    ∀ j, (round f.j_range).hi < j →
      f.indexT j = f.bot_val + (j - (round f.j_range).hi) := by
  have hbot := (top_bot_ok_iff f hwf).mp hbb
  obtain ⟨ho0, homod, hor0, hr01, hlen, hjl⟩ := hwf
  obtain ⟨hm0, hm1, _, _, _⟩ := round_spec f.j_range
  constructor
  · intro j hj0 hj1
    have hidx := indexT_eq_frontG f ⟨ho0, homod, hor0, hr01, hlen, hjl⟩ hbb j hj0
    have hG := frontG_eq_of_repG f G hrep j hj0 hj1
    refine ⟨by rw [hidx, hG], ?_⟩
    rw [topScanGo_eq f.v f.offset j f.top_val (round f.j_range).lo (by omega) (by omega)
      (by omega)]
    rw [botScanGo_eq f.v f.offset j f.bot_val (round f.j_range).hi (by omega) (by omega)
      (by omega)]
    rw [hbot]
    unfold frontG
    have hmin2 : min (round f.j_range).hi (round f.j_range).hi = (round f.j_range).hi := by
      omega
    have hmax2 : max ((round f.j_range).hi - (round f.j_range).hi) 0 = 0 := by omega
    rw [hmin2, hmax2]
    have hsplit : ((round f.j_range).hi - (round f.j_range).lo).toNat =
        (j - (round f.j_range).lo).toNat + ((round f.j_range).hi - j).toNat := by omega
    rw [hsplit, Finset.sum_range_add]
    have hsh : ∀ t ∈ Finset.range ((round f.j_range).hi - j).toNat,
        bitAt f ((round f.j_range).lo + (((j - (round f.j_range).lo).toNat + t : Nat) : Int)) =
          wordBit f.v f.offset (j + (t : Int)) := by
      intro t _
      unfold bitAt
      congr 1
      push_cast
      omega
    rw [Finset.sum_congr rfl hsh]
    have hb : ∀ t ∈ Finset.range (j - (round f.j_range).lo).toNat,
        wordBit f.v f.offset ((round f.j_range).lo + (t : Int)) =
          bitAt f ((round f.j_range).lo + (t : Int)) := by
      intro t _
      rfl
    rw [Finset.sum_congr rfl hb]
    ring
  · intro j hj
    unfold BitFront.indexT
    simp only
    rw [if_pos hj]

/-- Witness for C5 at a concrete front: the first-column front of row
range `[0, 5]` (one all-`+1` word) representing `G = id`, probed inside
the rounded range at `j = 3` and below it at `j = 70`. -/
theorem C5_index_half_scan_witness :
    (⟨[V.one], 0, ⟨0, 5⟩, some ⟨0, 5⟩, 0, 0, 64, none⟩ : BitFront).indexT 3 = 3 ∧
    (⟨[V.one], 0, ⟨0, 5⟩, some ⟨0, 5⟩, 0, 0, 64, none⟩ : BitFront).indexT 70 = 64 + (70 - 64) := by
  have h := C5_index_half_scan ⟨[V.one], 0, ⟨0, 5⟩, some ⟨0, 5⟩, 0, 0, 64, none⟩
    (fun j => j) (by decide) (by decide) (by decide)
  constructor
  · exact (h.1 3 (by decide) (by decide)).1
  · exact h.2 70 (by decide)

theorem V_bit_mem (v : V) (k : Nat) : -1 ≤ v.bit k ∧ v.bit k ≤ 1 := by
  unfold V.bit
  cases hp : v.p.testBit k <;> cases hm : v.m.testBit k <;> simp

theorem cellStep_spec (e : Bool) (h v : Int) (hh : -1 ≤ h ∧ h ≤ 1)
    (hv : -1 ≤ v ∧ v ≤ 1) :
    ((cellStep e h v).1 + h = (cellStep e h v).2 + v) ∧
      (-1 ≤ (cellStep e h v).1 ∧ (cellStep e h v).1 ≤ 1) ∧
      (-1 ≤ (cellStep e h v).2 ∧ (cellStep e h v).2 ≤ 1) := by
  unfold cellStep
  cases e <;> simp <;> omega

theorem popcount_cons (b x : Nat) (hb : b ≤ 1) (hx : x < 2 ^ 63) :
    popcount (b + 2 * x) = b + popcount x := by
  unfold popcount W
  rw [Finset.sum_range_succ']
  have h0 : ((b + 2 * x).testBit 0).toNat = b := by
    rw [Nat.testBit_zero]
    rcases (by omega : b = 0 ∨ b = 1) with hb0 | hb1 <;> subst_vars <;> simp <;> omega
  have hs : ∀ t : Nat, (b + 2 * x).testBit (t + 1) = x.testBit t := by
    intro t
    rw [Nat.testBit_add_one]
    congr 1
    omega
  have hsum : ∀ t ∈ Finset.range 63, ((b + 2 * x).testBit (t + 1)).toNat =
      (x.testBit t).toNat := by
    intro t _
    rw [hs]
  rw [Finset.sum_congr rfl hsum, h0]
  have h63 : x.testBit 63 = false := Nat.testBit_lt_two_pow (by omega)
  have : ∑ t in Finset.range 64, (x.testBit t).toNat =
      ∑ t in Finset.range 63, (x.testBit t).toNat + (x.testBit 63).toNat := by
    rw [← Finset.sum_range_succ]
  rw [this, h63]
  simp
  omega

theorem value_cons_bit (bp bm P M : Nat) (hbp : bp ≤ 1) (hbm : bm ≤ 1)
    (hP : P < 2 ^ 63) (hM : M < 2 ^ 63) :
    V.value ⟨bp + 2 * P, bm + 2 * M⟩ = (bp : Int) - (bm : Int) + V.value ⟨P, M⟩ := by
  unfold V.value
  simp only
  rw [popcount_cons bp P hbp hP, popcount_cons bm M hbm hM]
  push_cast
  ring

set_option maxHeartbeats 1000000 in
theorem wordStepGo_spec (eq : Nat) (v : V) (todo : Nat) :
    ∀ k h, todo ≤ 64 → -1 ≤ h → h ≤ 1 →
      ((wordStepGo eq v todo k h).1.p < 2 ^ todo ∧
        (wordStepGo eq v todo k h).1.m < 2 ^ todo) ∧
      (-1 ≤ (wordStepGo eq v todo k h).2 ∧ (wordStepGo eq v todo k h).2 ≤ 1) ∧
      (wordStepGo eq v todo k h).1.value =
        (∑ t in Finset.range todo, v.bit (k + t)) + (wordStepGo eq v todo k h).2 - h := by
  induction todo with
  | zero =>
    intro k h _ hh1 hh2
    unfold wordStepGo
    refine ⟨⟨by norm_num, by norm_num⟩, ⟨hh1, hh2⟩, ?_⟩
    simp [V.value, popcount]
  | succ todo ih =>
    intro k h ht hh1 hh2
    have hc := cellStep_spec (eq.testBit k) h (v.bit k) ⟨hh1, hh2⟩ (V_bit_mem v k)
    have hrest := ih (k + 1) (cellStep (eq.testBit k) h (v.bit k)).2 (by omega)
      hc.2.2.1 hc.2.2.2
    unfold wordStepGo
    simp only
    refine ⟨⟨?_, ?_⟩, hrest.2.1, ?_⟩
    · have := hrest.1.1
      split <;> [skip; skip] <;> omega
    · have := hrest.1.2
      split <;> [skip; skip] <;> omega
    · have hv1 : V.value
          ⟨(if (cellStep (eq.testBit k) h (v.bit k)).1 = 1 then 1 else 0) +
            2 * (wordStepGo eq v todo (k + 1) (cellStep (eq.testBit k) h (v.bit k)).2).1.p,
          (if (cellStep (eq.testBit k) h (v.bit k)).1 = -1 then 1 else 0) +
            2 * (wordStepGo eq v todo (k + 1) (cellStep (eq.testBit k) h (v.bit k)).2).1.m⟩ =
          (((if (cellStep (eq.testBit k) h (v.bit k)).1 = 1 then (1:Nat) else 0) : Nat) : Int) -
            (((if (cellStep (eq.testBit k) h (v.bit k)).1 = -1 then (1:Nat) else 0) : Nat) : Int) +
            V.value (wordStepGo eq v todo (k + 1) (cellStep (eq.testBit k) h (v.bit k)).2).1 := by
        apply value_cons_bit
        · split <;> omega
        · split <;> omega
        · calc _ < 2 ^ todo := hrest.1.1
            _ ≤ 2 ^ 63 := Nat.pow_le_pow_right (by omega) (by omega)
        · calc _ < 2 ^ todo := hrest.1.2
            _ ≤ 2 ^ 63 := Nat.pow_le_pow_right (by omega) (by omega)
      have hsum : ∑ t in Finset.range (todo + 1), v.bit (k + t) =
          v.bit k + ∑ t in Finset.range todo, v.bit (k + 1 + t) := by
        rw [Finset.sum_range_succ']
        have hc2 : ∀ t ∈ Finset.range todo, v.bit (k + (t + 1)) = v.bit (k + 1 + t) := by
          intro t _
          have he : k + (t + 1) = k + 1 + t := by omega
          rw [he]
        rw [Finset.sum_congr rfl hc2]
        simp [Nat.add_zero]
        ring
      have hbits : (((if (cellStep (eq.testBit k) h (v.bit k)).1 = 1 then (1:Nat) else 0) : Nat) : Int) -
          (((if (cellStep (eq.testBit k) h (v.bit k)).1 = -1 then (1:Nat) else 0) : Nat) : Int) =
          (cellStep (eq.testBit k) h (v.bit k)).1 := by
        have hm1 := hc.2.1.1
        have hm2 := hc.2.1.2
        split <;> split <;> push_cast <;> omega
      have hcons := hc.1
      rw [hv1, hrest.2.2]
      omega

theorem wordStep_spec (eq : Nat) (h : Int) (v : V) (hh1 : -1 ≤ h) (hh2 : h ≤ 1) :
    (-1 ≤ (wordStep eq h v).2 ∧ (wordStep eq h v).2 ≤ 1) ∧
      (wordStep eq h v).1.value = v.value + (wordStep eq h v).2 - h := by
  have hs := wordStepGo_spec eq v W 0 h (by unfold W; omega) hh1 hh2
  unfold wordStep
  refine ⟨hs.2.1, ?_⟩
  rw [hs.2.2, V_value_eq_sum]
  unfold W
  simp

theorem colStep_spec (es : List Nat) :
    ∀ ws h, -1 ≤ h → h ≤ 1 → es.length = ws.length →
      ((colStep es ws h).1.length = ws.length) ∧
      (-1 ≤ (colStep es ws h).2 ∧ (colStep es ws h).2 ≤ 1) ∧
      sumVals (colStep es ws h).1 = sumVals ws + (colStep es ws h).2 - h := by
  induction es with
  | nil =>
    intro ws h hh1 hh2 _
    unfold colStep
    exact ⟨rfl, ⟨hh1, hh2⟩, by ring⟩
  | cons e es ih =>
    intro ws h hh1 hh2 hlen
    match ws with
    | [] => simp at hlen
    | w :: ws =>
      have hw := wordStep_spec e h w hh1 hh2
      have hrest := ih ws (wordStep e h w).2 hw.1.1 hw.1.2 (by simpa using hlen)
      unfold colStep
      simp only
      refine ⟨by simp [hrest.1], hrest.2.1, ?_⟩
      have h1 : sumVals ((wordStep e h w).1 :: (colStep es ws (wordStep e h w).2).1) =
          (wordStep e h w).1.value + sumVals (colStep es ws (wordStep e h w).2).1 := by
        simp [sumVals]
      rw [h1, hrest.2.2, hw.2]
      simp [sumVals]
      ring

theorem colStep_len (es : List Nat) : ∀ ws h, (colStep es ws h).1.length = ws.length := by
  induction es with
  | nil => intro ws h; unfold colStep; rfl
  | cons e es ih =>
    intro ws h
    match ws with
    | [] => unfold colStep; rfl
    | w :: ws =>
      unfold colStep
      simp [ih]

theorem runCols_spec (ecs : List (List Nat)) :
    ∀ hs vs, ecs.length = hs.length → (∀ ec ∈ ecs, ec.length = vs.length) →
      (∀ x ∈ hs, -1 ≤ x ∧ x ≤ 1) →
      (runCols ecs hs vs).1.length = vs.length ∧
      (runCols ecs hs vs).2.length = hs.length ∧
      sumVals (runCols ecs hs vs).1 =
        sumVals vs + (runCols ecs hs vs).2.sum - hs.sum := by
  induction ecs with
  | nil =>
    intro hs vs hlen _ _
    match hs with
    | [] =>
      unfold runCols
      exact ⟨rfl, rfl, by simp⟩
    | _ :: _ => simp at hlen
  | cons ec ecs ih =>
    intro hs vs hlen hec hb
    match hs with
    | [] => simp at hlen
    | h :: hs =>
      have hh := hb h (by simp)
      have hc := colStep_spec ec vs h hh.1 hh.2 (hec ec (by simp))
      have hrest := ih hs (colStep ec vs h).1 (by simpa using hlen)
        (fun e he => by rw [hc.1]; exact hec e (by simp [he]))
        (fun x hx => hb x (by simp [hx]))
      unfold runCols
      simp only
      refine ⟨by rw [hrest.1, hc.1], by simpa using hrest.2.1, ?_⟩
      rw [hrest.2.2, hc.2.2]
      simp
      ring

theorem eqMasks_length (a b : List Nat) (il ih : Int) (vr0 vr1 : Nat) :
    (eqMasks a b il ih vr0 vr1).length = (ih - il).toNat := by
  unfold eqMasks
  rw [List.length_map]
  simp [Function.comp_def, List.map_const', List.sum_replicate]

theorem eqMasks_mem_length (a b : List Nat) (il ih : Int) (vr0 vr1 : Nat) :
    ∀ ec ∈ eqMasks a b il ih vr0 vr1, ec.length = vr1 - vr0 := by
  intro ec hec
  unfold eqMasks at hec
  simp at hec
  obtain ⟨t, _, rfl⟩ := hec
  unfold eqMasksCol
  simp

theorem V_one_value : V.one.value = 64 := by decide

theorem sliceSum_eq_sumVals (v : List V) (s e : Nat) :
    sliceSum v s e = sumVals (slice v s e) := by
  unfold sliceSum slice sumVals
  induction (v.drop s).take (e - s) with
  | nil => simp
  | cons w l ih => simp [ih]

theorem slice_length (v : List V) (s e : Nat) (hse : s ≤ e) (he : e ≤ v.length) :
    (slice v s e).length = e - s := by
  unfold slice
  simp
  omega

theorem slice_writeSeg (v : List V) (s : Nat) (seg : List V) (hs : s ≤ v.length) :
    slice (writeSeg v s seg) s (s + seg.length) = seg := by
  unfold slice writeSeg
  rw [List.drop_append_eq_append_drop]
  simp [List.length_take, Nat.min_eq_left hs]

theorem frontG_step64 (f : BitFront) (hwf : f.wfStruct) (hones : onesBeyond f)
    (x : Int) (hx : (round f.j_range).lo ≤ x) (hal : x % 64 = 0)
    (hlen : x + 64 - f.offset ≤ 64 * (f.v.length : Int)) :
    frontG f (x + 64) = frontG f x + (vAt f.v ((x - f.offset) / 64)).value := by
  obtain ⟨ho0, homod, hor0, hr01, hl, hjl⟩ := hwf
  obtain ⟨hm0, hm1, _, _, _⟩ := round_spec f.j_range
  rcases (by omega : x + 64 ≤ (round f.j_range).hi ∨ (round f.j_range).hi ≤ x) with hca | hcb
  · unfold frontG
    have hx64 : min (x + 64) (round f.j_range).hi = x + 64 := by omega
    have hxm : min x (round f.j_range).hi = x := by omega
    have hmax1 : max (x + 64 - (round f.j_range).hi) 0 = 0 := by omega
    have hmax0 : max (x - (round f.j_range).hi) 0 = 0 := by omega
    rw [hx64, hxm, hmax1, hmax0]
    have hn : (x + 64 - (round f.j_range).lo).toNat =
        (x - (round f.j_range).lo).toNat + 64 := by omega
    rw [hn, Finset.sum_range_add]
    have hterm : ∀ t ∈ Finset.range 64,
        bitAt f ((round f.j_range).lo +
            ((((x - (round f.j_range).lo).toNat + t : Nat)) : Int)) =
          wordBit f.v f.offset (x + t) := by
      intro t _
      unfold bitAt
      congr 1
      omega
    rw [Finset.sum_congr rfl hterm]
    have h64 : (64 : ℕ) = 64 * 1 := by norm_num
    rw [h64, rowSum_eq_wordSum f.v f.offset x ((x - f.offset) / 64) 1 (by omega) (by omega)]
    simp
    ring
  · unfold frontG
    have hx64 : min (x + 64) (round f.j_range).hi = (round f.j_range).hi := by omega
    have hxm : min x (round f.j_range).hi = (round f.j_range).hi := by omega
    have hmax1 : max (x + 64 - (round f.j_range).hi) 0 = x + 64 - (round f.j_range).hi := by
      omega
    have hmax0 : max (x - (round f.j_range).hi) 0 = x - (round f.j_range).hi := by omega
    rw [hx64, hxm, hmax1, hmax0]
    have hone : vAt f.v ((x - f.offset) / 64) = V.one := by
      unfold vAt
      apply hones
      · omega
      · have : (((x - f.offset) / 64).toNat : Int) = (x - f.offset) / 64 := by
          apply Int.toNat_of_nonneg
          omega
        omega
    rw [hone, V_one_value]
    ring

theorem frontG_add_sliceSum (f : BitFront) (hwf : f.wfStruct) (hones : onesBeyond f)
    (x : Int) (K : Nat) (hx : (round f.j_range).lo ≤ x) (hal : x % 64 = 0)
    (hlen : x + 64 * K - f.offset ≤ 64 * (f.v.length : Int)) :
    frontG f (x + 64 * K) = frontG f x +
      sliceSum f.v ((x - f.offset).toNat / 64) ((x - f.offset).toNat / 64 + K) := by
  obtain ⟨ho0, homod, hor0, hr01, hl, hjl⟩ := hwf
  have hxo : 0 ≤ x - f.offset := by omega
  have hsl : ((x - f.offset).toNat / 64 : Int) = (x - f.offset) / 64 := by omega
  induction K with
  | zero =>
    simp
    unfold sliceSum
    simp
  | succ K ih =>
    have hlenK : x + 64 * (K : Int) - f.offset ≤ 64 * (f.v.length : Int) := by
      push_cast at hlen
      push_cast
      omega
    have hstep := frontG_step64 f ⟨ho0, homod, hor0, hr01, hl, hjl⟩ hones
      (x + 64 * K) (by omega) (by omega) (by push_cast at hlen ⊢; omega)
    have hKlen : (x - f.offset).toNat / 64 + (K + 1) ≤ f.v.length := by
      push_cast at hlen
      omega
    have hsK : (x - f.offset).toNat / 64 + (K + 1) - (x - f.offset).toNat / 64 = K + 1 := by
      omega
    have hsK0 : (x - f.offset).toNat / 64 + K - (x - f.offset).toNat / 64 = K := by omega
    rw [sliceSum_eq_sum _ _ _ (by omega) hKlen, hsK, Finset.sum_range_succ]
    have hcast : x + 64 * ((K + 1 : Nat) : Int) = (x + 64 * K) + 64 := by push_cast; ring
    rw [hcast, hstep, ih hlenK, sliceSum_eq_sum _ _ _ (by omega) (by omega), hsK0]
    have hidx : ((((x - f.offset).toNat / 64 + K : Nat)) : Int) =
        (x + 64 * K - f.offset) / 64 := by omega
    rw [hidx]
    ring

theorem round_nonempty (r : JRange) (h : r.lo ≤ r.hi) (h0 : 0 ≤ (round r).lo) :
    (round r).lo ≤ (round r).hi := by
  obtain ⟨hm0, hm1, hup, _, hcond⟩ := round_spec r
  rcases le_or_lt 0 r.lo with hl | hl
  · have := hcond hl
    omega
  · unfold round at h0 ⊢
    have h4 : r.lo.tdiv 64 = 0 - ((-r.lo) / 64) := by
      rw [show r.lo = -(-r.lo) from by ring, Int.neg_tdiv,
        Int.tdiv_eq_ediv (by omega) (by omega)]
      omega
    simp only at h0 ⊢
    rw [h4] at h0 ⊢
    unfold round at hm1 hup
    simp only at hm1 hup
    have hd : 0 ≤ (-r.lo) / 64 := Int.ediv_nonneg (by omega) (by omega)
    have hlo64 : -r.lo < 64 := by
      by_contra hc
      push_neg at hc
      have : 1 ≤ (-r.lo) / 64 := by
        apply Int.le_ediv_iff_mul_le (by omega) |>.mpr
        omega
      omega
    omega

theorem indexT_add_sliceSum (f : BitFront) (hwf : f.wfStruct) (hbb : f.top_bot_ok)
    (hones : onesBeyond f) (x y : Int) (hx : (round f.j_range).lo ≤ x) (hxy : x ≤ y)
    (hax : x % 64 = 0) (hay : y % 64 = 0)
    (hylen : y - f.offset ≤ 64 * (f.v.length : Int)) :
    f.indexT x +
        sliceSum f.v ((x - f.offset).toNat / 64) ((y - f.offset).toNat / 64) =
      f.indexT y := by
  have hwf' := hwf
  obtain ⟨ho0, homod, hor0, hr01, hl, hjl⟩ := hwf'
  obtain ⟨K, hK⟩ : ∃ K : Nat, y = x + 64 * K := by
    refine ⟨((y - x) / 64).toNat, ?_⟩
    omega
  subst hK
  rw [indexT_eq_frontG f hwf hbb x hx, indexT_eq_frontG f hwf hbb _ (by omega)]
  rw [frontG_add_sliceSum f hwf hones x K hx hax (by omega)]
  have hidx : (x - f.offset).toNat / 64 + K = (x + 64 * K - f.offset).toNat / 64 := by
    omega
  rw [hidx]

theorem frontG_stepA (f : BitFront) (hwf : f.wfStruct) (x : Int)
    (hx : (round f.j_range).lo ≤ x) (hal : x % 64 = 0)
    (hca : x + 64 ≤ (round f.j_range).hi) :
    frontG f (x + 64) = frontG f x + (vAt f.v ((x - f.offset) / 64)).value := by
  obtain ⟨ho0, homod, hor0, hr01, hl, hjl⟩ := hwf
  obtain ⟨hm0, hm1, _, _, _⟩ := round_spec f.j_range
  unfold frontG
  have hx64 : min (x + 64) (round f.j_range).hi = x + 64 := by omega
  have hxm : min x (round f.j_range).hi = x := by omega
  have hmax1 : max (x + 64 - (round f.j_range).hi) 0 = 0 := by omega
  have hmax0 : max (x - (round f.j_range).hi) 0 = 0 := by omega
  rw [hx64, hxm, hmax1, hmax0]
  have hn : (x + 64 - (round f.j_range).lo).toNat =
      (x - (round f.j_range).lo).toNat + 64 := by omega
  rw [hn, Finset.sum_range_add]
  have hterm : ∀ t ∈ Finset.range 64,
      bitAt f ((round f.j_range).lo +
          ((((x - (round f.j_range).lo).toNat + t : Nat)) : Int)) =
        wordBit f.v f.offset (x + t) := by
    intro t _
    unfold bitAt
    congr 1
    omega
  rw [Finset.sum_congr rfl hterm]
  have h64 : (64 : ℕ) = 64 * 1 := by norm_num
  rw [h64, rowSum_eq_wordSum f.v f.offset x ((x - f.offset) / 64) 1 (by omega) (by omega)]
  simp
  ring

theorem frontG_stepB (f : BitFront) (x : Int) (hcb : (round f.j_range).hi ≤ x) :
    frontG f (x + 64) = frontG f x + 64 := by
  unfold frontG
  have hx64 : min (x + 64) (round f.j_range).hi = (round f.j_range).hi := by omega
  have hxm : min x (round f.j_range).hi = (round f.j_range).hi := by omega
  have hmax1 : max (x + 64 - (round f.j_range).hi) 0 = x + 64 - (round f.j_range).hi := by
    omega
  have hmax0 : max (x - (round f.j_range).hi) 0 = x - (round f.j_range).hi := by omega
  rw [hx64, hxm, hmax1, hmax0]
  ring

theorem foldl_set_length (n : Nat) (base : List V) (a0 : Nat) (val : Nat → V) :
    ((List.range n).foldl (fun acc t => acc.set (a0 + t) (val t)) base).length =
      base.length := by
  induction n with
  | zero => rfl
  | succ n ih =>
    rw [List.range_succ, List.foldl_append]
    simp [ih]

theorem foldl_set_getD (n : Nat) (base : List V) (a0 : Nat) (val : Nat → V) (w : Nat) :
    ((List.range n).foldl (fun acc t => acc.set (a0 + t) (val t)) base).getD w V.one =
      if a0 ≤ w ∧ w < a0 + n ∧ w < base.length then val (w - a0)
      else base.getD w V.one := by
  induction n with
  | zero =>
    rw [if_neg (by omega)]
    rfl
  | succ n ih =>
    rw [List.range_succ, List.foldl_append]
    simp only [List.foldl_cons, List.foldl_nil]
    rcases eq_or_ne w (a0 + n) with hw | hw
    · subst hw
      rcases lt_or_ge (a0 + n) base.length with hlt | hge
      · have hlen : a0 + n <
            ((List.range n).foldl (fun acc t => acc.set (a0 + t) (val t)) base).length := by
          rw [foldl_set_length]
          exact hlt
        rw [List.getD_eq_getElem?_getD, List.getElem?_set_eq_of_lt _ hlen]
        rw [if_pos ⟨by omega, by omega, hlt⟩]
        have hn : a0 + n - a0 = n := by omega
        rw [hn]
        rfl
      · have hnone : ((List.range n).foldl
            (fun acc t => acc.set (a0 + t) (val t)) base)[a0 + n]? = none := by
          rw [List.getElem?_eq_none]
          rw [foldl_set_length]
          omega
        rw [List.getD_eq_getElem?_getD, List.getElem?_set_self', hnone]
        rw [if_neg (by omega)]
        have hbnone : base[a0 + n]? = none := by
          rw [List.getElem?_eq_none]
          omega
        rw [List.getD_eq_getElem?_getD, hbnone]
        rfl
    · rw [List.getD_eq_getElem?_getD, List.getElem?_set_ne (by omega),
        ← List.getD_eq_getElem?_getD, ih]
      by_cases hc : a0 ≤ w ∧ w < a0 + n ∧ w < base.length
      · rw [if_pos hc, if_pos ⟨hc.1, by omega, hc.2.2⟩]
      · rw [if_neg hc, if_neg (by omega)]

theorem getD_replicate_one (n w : Nat) : (List.replicate n V.one).getD w V.one = V.one := by
  rw [List.getD_eq_getElem?_getD]
  rcases lt_or_ge w n with h | h
  · simp [List.getElem?_replicate, h]
  · rw [List.getElem?_eq_none (by simpa using h)]
    rfl

theorem foldl_set_length_list (l : List Int) (g : Int → Nat) (val : Int → V) :
    ∀ base : List V,
      (l.foldl (fun acc x => acc.set (g x) (val x)) base).length = base.length := by
  induction l with
  | nil =>
    intro base
    rfl
  | cons x l ih =>
    intro base
    simp only [List.foldl_cons]
    rw [ih]
    simp

theorem initialize_next_v_length (prev : BitFront) (jrr : JRange) :
    (initialize_next_v prev jrr).length = jrr.exclusive_len.toNat / W := by
  unfold initialize_next_v
  rw [foldl_set_length_list]
  simp

theorem initialize_next_v_getD (prev : BitFront) (jrr : JRange)
    (hplo : (round prev.j_range).lo ≤ jrr.lo) (hpl0 : 0 ≤ (round prev.j_range).lo)
    (hal : jrr.lo % 64 = 0) (hpla : (round prev.j_range).lo % 64 = 0)
    (hph : (round prev.j_range).hi % 64 = 0) (hjh : jrr.hi % 64 = 0) (w : Nat) :
    (initialize_next_v prev jrr).getD w V.one =
      if jrr.lo + 64 * w < min jrr.hi (round prev.j_range).hi ∧
          w < jrr.exclusive_len.toNat / 64 then
        vAt prev.v ((jrr.lo + 64 * w - prev.offset).tdiv 64)
      else V.one := by
  unfold initialize_next_v stepL
  simp only [max_eq_left hplo, bind_pure_comp, List.map_eq_map]
  rw [List.map_map, List.foldl_map]
  simp only [Function.comp_apply]
  have hfun : (fun (acc : List V) (t : Nat) =>
      acc.set (((jrr.lo + 64 * t - jrr.lo).toNat) / W)
        (vAt prev.v ((jrr.lo + 64 * t - prev.offset).tdiv 64))) =
      fun acc t => acc.set (0 + t)
        (vAt prev.v ((jrr.lo + 64 * (t : Int) - prev.offset).tdiv 64)) := by
    funext acc t
    have hidx : ((jrr.lo + 64 * t - jrr.lo).toNat) / W = 0 + t := by
      unfold W
      omega
    rw [hidx]
  rw [hfun, foldl_set_getD, getD_replicate_one]
  simp only [List.length_replicate, Nat.zero_add, Nat.zero_le, true_and, Nat.sub_zero]
  have hcond : (w < ((min jrr.hi (round prev.j_range).hi - jrr.lo).toNat + 63) / 64 ∧
      w < jrr.exclusive_len.toNat / W) ↔
      (jrr.lo + 64 * w < min jrr.hi (round prev.j_range).hi ∧
        w < jrr.exclusive_len.toNat / 64) := by
    unfold W JRange.exclusive_len
    omega
  rcases (em (jrr.lo + 64 * w < min jrr.hi (round prev.j_range).hi ∧
      w < jrr.exclusive_len.toNat / 64)) with hc | hc
  · rw [if_pos (hcond.mpr hc), if_pos hc]
  · rw [if_neg (fun hx => hc (hcond.mp hx)), if_neg hc]

theorem sumVals_eq_sum (v : List V) :
    sumVals v = ∑ t in Finset.range v.length, (vAt v ((t : Nat) : Int)).value := by
  have h1 := sliceSum_eq_sumVals v 0 v.length
  have h2 := sliceSum_eq_sum v 0 v.length (by omega) (by omega)
  unfold slice at h1
  simp only [List.drop_zero, Nat.sub_zero, List.take_length] at h1
  rw [← h1, h2]
  apply Finset.sum_congr rfl
  intro t _
  congr 2
  omega

theorem frontG_sum_words (f : BitFront) (hwf : f.wfStruct) (x : Int) (K : Nat)
    (hx : (round f.j_range).lo ≤ x) (hal : x % 64 = 0) :
    frontG f (x + 64 * K) = frontG f x +
      ∑ w in Finset.range K,
        (if x + 64 * w + 64 ≤ (round f.j_range).hi then
          (vAt f.v ((x + 64 * w - f.offset) / 64)).value
        else (64 : Int)) := by
  obtain ⟨ho0, homod, hor0, hr01, hl, hjl⟩ := hwf
  obtain ⟨hm0, hm1, _, _, _⟩ := round_spec f.j_range
  induction K with
  | zero => simp
  | succ K ih =>
    rw [Finset.sum_range_succ]
    have hx1 : x + 64 * (((K + 1 : Nat)) : Int) = (x + 64 * K) + 64 := by push_cast; ring
    have hstep : frontG f (x + 64 * (((K + 1 : Nat)) : Int)) =
        frontG f (x + 64 * K) +
          (if x + 64 * (K : Int) + 64 ≤ (round f.j_range).hi then
            (vAt f.v ((x + 64 * (K : Int) - f.offset) / 64)).value
          else (64 : Int)) := by
      rw [hx1]
      rcases (em (x + 64 * (K : Int) + 64 ≤ (round f.j_range).hi)) with hc | hc
      · rw [if_pos hc, frontG_stepA f ⟨ho0, homod, hor0, hr01, hl, hjl⟩ (x + 64 * K)
          (by omega) (by omega) hc]
      · rw [if_neg hc, frontG_stepB f (x + 64 * K) (by omega)]
    rw [hstep, ih]
    ring

theorem initialize_next_v_sum (prev : BitFront) (hwf : prev.wfStruct)
    (hbb : prev.top_bot_ok) (jrr : JRange)
    (hplo : (round prev.j_range).lo ≤ jrr.lo) (h01 : jrr.lo ≤ jrr.hi)
    (hal : jrr.lo % 64 = 0) (hjh : jrr.hi % 64 = 0) :
    prev.indexT jrr.lo + sumVals (initialize_next_v prev jrr) = prev.indexT jrr.hi := by
  have hwf' := hwf
  obtain ⟨ho0, homod, hor0, hr01, hl, hjl⟩ := hwf'
  obtain ⟨hm0, hm1, _, _, _⟩ := round_spec prev.j_range
  rw [sumVals_eq_sum, initialize_next_v_length]
  rw [indexT_eq_frontG prev hwf hbb jrr.lo hplo,
    indexT_eq_frontG prev hwf hbb jrr.hi (by omega)]
  have hK : jrr.hi = jrr.lo + 64 * (((jrr.exclusive_len.toNat / W : Nat)) : Int) := by
    unfold JRange.exclusive_len W
    omega
  rw [hK]
  rw [frontG_sum_words prev hwf jrr.lo (jrr.exclusive_len.toNat / W) hplo hal]
  have hterm : ∀ w ∈ Finset.range (jrr.exclusive_len.toNat / W),
      (vAt (initialize_next_v prev jrr) ((w : Nat) : Int)).value =
        (if jrr.lo + 64 * w + 64 ≤ (round prev.j_range).hi then
          (vAt prev.v ((jrr.lo + 64 * w - prev.offset) / 64)).value
        else (64 : Int)) := by
    intro w hwmem
    simp only [Finset.mem_range] at hwmem
    have hget : vAt (initialize_next_v prev jrr) ((w : Nat) : Int) =
        (initialize_next_v prev jrr).getD w V.one := by
      unfold vAt
      rw [Int.toNat_natCast]
    rw [hget, initialize_next_v_getD prev jrr hplo (by omega) hal hm0 hm1 hjh w]
    have hcond : (jrr.lo + 64 * w < min jrr.hi (round prev.j_range).hi ∧
        w < jrr.exclusive_len.toNat / 64) ↔
        jrr.lo + 64 * w + 64 ≤ (round prev.j_range).hi := by
      unfold JRange.exclusive_len at hwmem ⊢
      unfold W at hwmem
      omega
    rcases (em (jrr.lo + 64 * w + 64 ≤ (round prev.j_range).hi)) with hc | hc
    · rw [if_pos (hcond.mpr hc), if_pos hc]
      have htd : (jrr.lo + 64 * w - prev.offset).tdiv 64 =
          (jrr.lo + 64 * w - prev.offset) / 64 :=
        Int.tdiv_eq_ediv (by omega) (by omega)
      rw [htd]
    · rw [if_neg (fun hx => hc (hcond.mp hx)), if_neg hc, V_one_value]
  rw [Finset.sum_congr rfl hterm]

theorem grd_bind_ok {α : Type} {b : Prop} [Decidable b] {k : Unit → Except Err α}
    {x : α} (h : (grd b >>= k) = .ok x) : b ∧ k () = .ok x := by
  by_cases hb : b
  · refine ⟨hb, ?_⟩
    unfold grd at h
    rw [if_pos hb] at h
    exact h
  · unfold grd at h
    rw [if_neg hb] at h
    simp [Bind.bind, Except.bind] at h

theorem bind_ok {α β : Type} {e : Except Err β} {k : β → Except Err α} {x : α}
    (h : (e >>= k) = .ok x) : ∃ y, e = .ok y ∧ k y = .ok x := by
  cases e with
  | error err => simp [Bind.bind, Except.bind] at h
  | ok y => exact ⟨y, rfl, h⟩

theorem pure_ok {α : Type} {x y : α}
    (h : (pure x : Except Err α) = .ok y) : x = y := by
  simpa [pure, Except.pure] using h

theorem getD_set_self (l : List BitFront) (i : Nat) (x : BitFront) (d : BitFront)
    (h : i < l.length) : (l.set i x).getD i d = x := by
  rw [List.getD_eq_getElem?_getD, List.getElem?_set_eq_of_lt _ h]
  rfl

theorem indexE_ok {f : BitFront} {j : Int} {c : Int} (h : f.indexE j = .ok c) :
    f.indexOk j ∧ c = f.indexT j := by
  unfold BitFront.indexE at h
  by_cases hk : f.indexOk j
  · rw [if_pos hk] at h
    cases h
    exact ⟨hk, rfl⟩
  · rw [if_neg hk] at h
    cases h

theorem cnb_notrace_top_bot (st : BitFronts) (i_range : IRange) (j_range0 : JRange)
    (st' : BitFronts) (hrun : st.compute_next_block i_range j_range0 = .ok st')
    (htrace : st.trace = false)
    (hidx : st.last_front_idx < st.fronts.length)
    (hil : i_range.lo ≤ i_range.hi)
    (hwf : st.lastFront.wfStruct) (hbb : st.lastFront.top_bot_ok)
    (hoff : st.lastFront.offset = 0) (hones : onesBeyond st.lastFront) :
    st'.lastFront.top_bot_ok := by
  unfold BitFronts.compute_next_block at hrun
  rw [htrace] at hrun
  simp only [Bool.false_eq_true, false_and, if_false] at hrun
  obtain ⟨hG1, hrun⟩ := grd_bind_ok hrun
  generalize hJ : (match st.fronts.get? (st.last_front_idx + 1) with
    | some nf =>
      (⟨min j_range0.lo nf.j_range.lo, max j_range0.hi nf.j_range.hi⟩ : JRange)
    | none => j_range0) = J at hrun
  have hst1 : BitFronts.lastFront
      { params := st.params, trace := false, a := st.a, b := st.b,
        fronts := st.fronts, last_front_idx := st.last_front_idx,
        i_range := { lo := st.i_range.lo, hi := i_range.hi },
        h := st.h } = st.lastFront := rfl
  rw [hst1] at hrun
  obtain ⟨T, hT, hrun⟩ := bind_ok hrun
  obtain ⟨B, hB, hrun⟩ := bind_ok hrun
  obtain ⟨hG2, hrun⟩ := grd_bind_ok hrun
  have hst' := pure_ok hrun
  subst hst'
  obtain ⟨hokT, hTv⟩ := indexE_ok hT
  obtain ⟨hokB, hBv⟩ := indexE_ok hB
  set lf := st.lastFront with hlf
  have hwfc := hwf
  obtain ⟨ho0, homod, hor0, hr01, hlnn, hjl⟩ := hwf
  obtain ⟨hm0, hm1, _, _, _⟩ := round_spec J
  set vr0 := ((round J).lo.tdiv 64).toNat with hvr0
  set vr1 := ((round J).hi.tdiv 64).toNat with hvr1
  have hlo0 : 0 ≤ (round J).lo := by
    have := hokT.1
    omega
  have hhi0 : 0 ≤ (round J).hi := by
    have := hokB.1
    omega
  have htd0 : (round J).lo.tdiv 64 = (round J).lo / 64 :=
    Int.tdiv_eq_ediv (by omega) (by omega)
  have htd1 : (round J).hi.tdiv 64 = (round J).hi / 64 :=
    Int.tdiv_eq_ediv (by omega) (by omega)
  have hx0 : ((round J).lo : Int) = 64 * (vr0 : Int) := by
    rw [hvr0, htd0]
    omega
  have hx1 : ((round J).hi : Int) = 64 * (vr1 : Int) := by
    rw [hvr1, htd1]
    omega
  have hxy : (round J).lo ≤ (round J).hi := by
    rw [hx0, hx1]
    have := hG2.1
    omega
  have hslen : (slice lf.v vr0 vr1).length = vr1 - vr0 :=
    slice_length _ _ _ hG2.1 hG2.2
  have hrc := runCols_spec (eqMasks st.a st.b i_range.lo i_range.hi vr0 vr1)
    (List.replicate (i_range.hi - i_range.lo).toNat 1) (slice lf.v vr0 vr1)
    (by rw [eqMasks_length, List.length_replicate])
    (by
      intro ec hec
      rw [hslen]
      exact eqMasks_mem_length _ _ _ _ _ _ ec hec)
    (by
      intro x hx
      rw [List.eq_of_mem_replicate hx]
      exact ⟨by omega, by omega⟩)
  have hcc : compute_columns st.a st.b i_range vr0 vr1 (slice lf.v vr0 vr1) st.h
      HMode.None =
      ((runCols (eqMasks st.a st.b i_range.lo i_range.hi vr0 vr1)
          (List.replicate (i_range.hi - i_range.lo).toNat 1) (slice lf.v vr0 vr1)).1,
        st.h,
        (runCols (eqMasks st.a st.b i_range.lo i_range.hi vr0 vr1)
          (List.replicate (i_range.hi - i_range.lo).toNat 1) (slice lf.v vr0 vr1)).2.sum) :=
    rfl
  unfold BitFronts.lastFront
  simp only
  rw [hcc]
  simp only
  rw [getD_set_self _ _ _ _ (by simpa using hidx)]
  unfold BitFront.top_bot_ok
  simp only
  rw [hoff]
  have hiw0 : ((round J).lo - 0).toNat / W = vr0 := by
    unfold W
    omega
  have hiw1 : ((round J).hi - 0).toNat / W = vr1 := by
    unfold W
    omega
  rw [hiw0, hiw1]
  have h1len : (runCols (eqMasks st.a st.b i_range.lo i_range.hi vr0 vr1)
      (List.replicate (i_range.hi - i_range.lo).toNat 1) (slice lf.v vr0 vr1)).1.length =
      vr1 - vr0 := by
    rw [hrc.1, hslen]
  have hsw : slice (writeSeg lf.v vr0
      (runCols (eqMasks st.a st.b i_range.lo i_range.hi vr0 vr1)
        (List.replicate (i_range.hi - i_range.lo).toNat 1) (slice lf.v vr0 vr1)).1)
      vr0 vr1 =
      (runCols (eqMasks st.a st.b i_range.lo i_range.hi vr0 vr1)
        (List.replicate (i_range.hi - i_range.lo).toNat 1) (slice lf.v vr0 vr1)).1 := by
    have := slice_writeSeg lf.v vr0
      (runCols (eqMasks st.a st.b i_range.lo i_range.hi vr0 vr1)
        (List.replicate (i_range.hi - i_range.lo).toNat 1) (slice lf.v vr0 vr1)).1
      (by omega)
    rw [h1len] at this
    rw [show vr0 + (vr1 - vr0) = vr1 from by omega] at this
    exact this
  rw [sliceSum_eq_sumVals, hsw]
  have hpc := indexT_add_sliceSum lf hwfc hbb hones (round J).lo (round J).hi
    hokT.1 hxy hm0 hm1 (by rw [hoff]; omega)
  rw [hoff] at hpc
  rw [show ((round J).lo - 0).toNat / 64 = vr0 from by omega,
    show ((round J).hi - 0).toNat / 64 = vr1 from by omega,
    ← hTv, ← hBv, sliceSum_eq_sumVals] at hpc
  have hrep : (List.replicate (i_range.hi - i_range.lo).toNat (1 : Int)).sum =
      ((i_range.hi - i_range.lo).toNat : Int) := by
    simp [List.sum_replicate]
  have hcons := hrc.2.2
  rw [hrep] at hcons
  unfold IRange.len
  omega


theorem getD_append_left (l : List BitFront) (x : BitFront) (i : Nat) (d : BitFront)
    (h : i < l.length) : (l ++ [x]).getD i d = l.getD i d := by
  rw [List.getD_eq_getElem?_getD, List.getElem?_append_left h,
    ← List.getD_eq_getElem?_getD]

theorem sliceSum_zero_length (v : List V) : sliceSum v 0 v.length = sumVals v := by
  rw [sliceSum_eq_sumVals]
  unfold slice
  simp

theorem commit_core (lf : BitFront) (a b : List Nat)
    (i_range : IRange) (J : JRange) (F : BitFront)
    (hil : i_range.lo ≤ i_range.hi) (hJne : J.lo ≤ J.hi)
    (hwf : lf.wfStruct) (hbb : lf.top_bot_ok)
    (hokT : lf.indexOk (round J).lo) (hokB : lf.indexOk (round J).hi)
    (hvF : F.v = (runCols (eqMasks a b i_range.lo i_range.hi
        ((round J).lo.tdiv 64).toNat ((round J).hi.tdiv 64).toNat)
      (List.replicate (i_range.hi - i_range.lo).toNat 1)
      (initialize_next_v lf (round J))).1)
    (hjrF : F.j_range = J) (hoffF : F.offset = (round J).lo)
    (htopF : F.top_val = lf.indexT (round J).lo + i_range.len)
    (hbotF : F.bot_val = lf.indexT (round J).hi +
      (runCols (eqMasks a b i_range.lo i_range.hi
          ((round J).lo.tdiv 64).toNat ((round J).hi.tdiv 64).toNat)
        (List.replicate (i_range.hi - i_range.lo).toNat 1)
        (initialize_next_v lf (round J))).2.sum) :
    F.top_bot_ok := by
  have hwfc := hwf
  obtain ⟨ho0, homod, hor0, hr01, hlnn, hjl⟩ := hwfc
  obtain ⟨hm0, hm1, _, _, _⟩ := round_spec J
  set vr0 := ((round J).lo.tdiv 64).toNat with hvr0
  set vr1 := ((round J).hi.tdiv 64).toNat with hvr1
  have hlo0 : 0 ≤ (round J).lo := by
    have := hokT.1
    omega
  have hhi0 : 0 ≤ (round J).hi := by
    have := hokB.1
    omega
  have htd0 : (round J).lo.tdiv 64 = (round J).lo / 64 :=
    Int.tdiv_eq_ediv (by omega) (by omega)
  have htd1 : (round J).hi.tdiv 64 = (round J).hi / 64 :=
    Int.tdiv_eq_ediv (by omega) (by omega)
  have hx0 : ((round J).lo : Int) = 64 * (vr0 : Int) := by
    rw [hvr0, htd0]
    omega
  have hx1 : ((round J).hi : Int) = 64 * (vr1 : Int) := by
    rw [hvr1, htd1]
    omega
  have hxy : (round J).lo ≤ (round J).hi := round_nonempty J hJne hlo0
  have hvlen : (initialize_next_v lf (round J)).length =
      (round J).exclusive_len.toNat / W := initialize_next_v_length lf (round J)
  have hL : (round J).exclusive_len.toNat / W = vr1 - vr0 := by
    unfold JRange.exclusive_len W
    omega
  have hrc := runCols_spec (eqMasks a b i_range.lo i_range.hi vr0 vr1)
    (List.replicate (i_range.hi - i_range.lo).toNat 1)
    (initialize_next_v lf (round J))
    (by rw [eqMasks_length, List.length_replicate])
    (by
      intro ec hec
      rw [hvlen, hL]
      exact eqMasks_mem_length _ _ _ _ _ _ ec hec)
    (by
      intro x hx
      rw [List.eq_of_mem_replicate hx]
      exact ⟨by omega, by omega⟩)
  unfold BitFront.top_bot_ok
  rw [hvF, hjrF, hoffF, htopF, hbotF]
  have hiw0 : (((round J).lo - (round J).lo).toNat) / W = 0 := by
    unfold W
    omega
  have hiw1 : (((round J).hi - (round J).lo).toNat) / W =
      (runCols (eqMasks a b i_range.lo i_range.hi vr0 vr1)
        (List.replicate (i_range.hi - i_range.lo).toNat 1)
        (initialize_next_v lf (round J))).1.length := by
    rw [hrc.1, hvlen, hL]
    unfold W
    omega
  rw [hiw0, hiw1, sliceSum_zero_length]
  have hsum := initialize_next_v_sum lf hwf hbb (round J) hokT.1 hxy hm0 hm1
  have hrep : (List.replicate (i_range.hi - i_range.lo).toNat (1 : Int)).sum =
      ((i_range.hi - i_range.lo).toNat : Int) := by
    simp [List.sum_replicate]
  have hcons := hrc.2.2
  rw [hrep] at hcons
  unfold IRange.len
  omega

theorem cnb_sparse_top_bot (st : BitFronts) (i_range : IRange) (j_range0 : JRange)
    (st' : BitFronts) (hrun : st.compute_next_block i_range j_range0 = .ok st')
    (htrace : st.trace = true) (hsp : st.params.sparse = true)
    (hninc : st.params.incremental_doubling = false)
    (hfr : st.last_front_idx + 1 ≤ st.fronts.length)
    (hil : i_range.lo ≤ i_range.hi) (hjr : j_range0.lo ≤ j_range0.hi)
    (hwf : st.lastFront.wfStruct) (hbb : st.lastFront.top_bot_ok) :
    st'.lastFront.top_bot_ok := by
  unfold BitFronts.compute_next_block at hrun
  rw [htrace, hsp] at hrun
  simp only [not_true, and_false, if_false, if_true] at hrun
  obtain ⟨hG1, hrun⟩ := grd_bind_ok hrun
  generalize hJ : (match st.fronts.get? (st.last_front_idx + 1) with
    | some nf =>
      (⟨min j_range0.lo nf.j_range.lo, max j_range0.hi nf.j_range.hi⟩ : JRange)
    | none => j_range0) = J at hrun
  have hst1 : BitFronts.lastFront
      { params := st.params, trace := true, a := st.a, b := st.b,
        fronts := st.fronts, last_front_idx := st.last_front_idx,
        i_range := { lo := st.i_range.lo, hi := i_range.hi },
        h := st.h } = st.lastFront := rfl
  rw [hst1] at hrun
  obtain ⟨T, hT, hrun⟩ := bind_ok hrun
  obtain ⟨B, hB, hrun⟩ := bind_ok hrun
  obtain ⟨hG3, hrun⟩ := grd_bind_ok hrun
  have hJne : J.lo ≤ J.hi := by
    rcases hg : st.fronts.get? (st.last_front_idx + 1) with _ | nf
    · rw [hg] at hJ
      rw [← hJ]
      exact hjr
    · rw [hg] at hJ
      rw [← hJ]
      simp only
      omega
  obtain ⟨hokT, hTv⟩ := indexE_ok hT
  obtain ⟨hokB, hBv⟩ := indexE_ok hB
  by_cases hpush : st.last_front_idx + 1 = st.fronts.length
  · rw [if_pos hpush] at hrun
    obtain ⟨fronts1, hf1, hrun⟩ := bind_ok hrun
    have hf1v := pure_ok hf1
    subst hf1v
    rw [hninc] at hrun
    simp only [] at hrun
    obtain ⟨r, hr, hrun⟩ := bind_ok hrun
    have hrv := pure_ok hr
    subst hrv
    have hst' := pure_ok hrun
    subst hst'
    unfold cnbCommit BitFronts.lastFront
    simp only
    rw [getD_set_self _ _ _ _ (by rw [List.length_append]; simp; omega)]
    rw [show (st.fronts ++ [BitFront.default]).getD st.last_front_idx
        BitFront.default = st.lastFront from by
      rw [getD_append_left _ _ _ _ (by omega)]
      rfl]
    rw [hTv, hBv]
    exact commit_core st.lastFront st.a st.b i_range J _ hil hJne hwf hbb hokT hokB
      rfl rfl rfl rfl rfl
  · rw [if_neg hpush] at hrun
    obtain ⟨hGi, hrun⟩ := grd_bind_ok hrun
    obtain ⟨fronts1, hf1, hrun⟩ := bind_ok hrun
    have hf1v := pure_ok hf1
    subst hf1v
    rw [hninc] at hrun
    simp only [] at hrun
    obtain ⟨r, hr, hrun⟩ := bind_ok hrun
    have hrv := pure_ok hr
    subst hrv
    have hst' := pure_ok hrun
    subst hst'
    unfold cnbCommit BitFronts.lastFront
    simp only
    rw [getD_set_self _ _ _ _ (by omega)]
    rw [show st.fronts.getD st.last_front_idx BitFront.default = st.lastFront from rfl]
    rw [hTv, hBv]
    exact commit_core st.lastFront st.a st.b i_range J _ hil hJne hwf hbb hokT hokB
      rfl rfl rfl rfl rfl

theorem fillCols_length : ∀ (ecs : List (List Nat)) (vs : List V),
    (fillCols ecs vs).length = ecs.length := by
  intro ecs
  induction ecs with
  | nil => intro vs; rfl
  | cons ec ecs ih =>
    intro vs
    unfold fillCols
    simp only [List.length_cons]
    rw [ih]

theorem fillCols_map_snd : ∀ (ecs : List (List Nat)) (vs : List V),
    (fillCols ecs vs).map Prod.snd =
      (runCols ecs (List.replicate ecs.length 1) vs).2 := by
  intro ecs
  induction ecs with
  | nil => intro vs; rfl
  | cons ec ecs ih =>
    intro vs
    rw [List.length_cons, List.replicate_succ]
    unfold fillCols runCols
    simp only [List.map_cons]
    rw [ih]

theorem fillCols_last : ∀ (ecs : List (List Nat)) (vs : List V) (s : List V × Int),
    (fillCols ecs vs).getLast? = some s →
    s.1 = (runCols ecs (List.replicate ecs.length 1) vs).1 := by
  intro ecs
  induction ecs with
  | nil =>
    intro vs s hs
    cases hs
  | cons ec ecs ih =>
    intro vs s hs
    rw [List.length_cons, List.replicate_succ]
    unfold runCols
    simp only []
    unfold fillCols at hs
    simp only [] at hs
    cases hfc : fillCols ecs (colStep ec vs 1).1 with
    | nil =>
      have hel : ecs = [] := by
        have hq := fillCols_length ecs (colStep ec vs 1).1
        rw [hfc] at hq
        exact List.length_eq_zero.mp hq.symm
      subst hel
      rw [hfc] at hs
      simp only [List.getLast?_singleton, Option.some.injEq] at hs
      rw [← hs]
      rfl
    | cons p t =>
      rw [hfc, List.getLast?_cons_cons] at hs
      exact ih (colStep ec vs 1).1 s (by rw [hfc]; exact hs)

theorem fillPushGo_spec : ∀ (l : Nat) (fronts : List BitFront)
    (idx : Nat) (tmpl : BitFront), idx < fronts.length →
    (fillPushGo fronts idx tmpl l).2.1 = idx + l ∧
    idx + l < (fillPushGo fronts idx tmpl l).1.length ∧
    (0 < l →
      ((fillPushGo fronts idx tmpl l).1.getD (idx + l) BitFront.default).j_range
          = tmpl.j_range ∧
      ((fillPushGo fronts idx tmpl l).1.getD (idx + l) BitFront.default).offset
          = tmpl.offset ∧
      ((fillPushGo fronts idx tmpl l).1.getD (idx + l) BitFront.default).top_val
          = tmpl.top_val + l) := by
  intro l
  induction l with
  | zero =>
    intro fronts idx tmpl hidx
    exact ⟨rfl, by simpa using hidx, fun h => absurd h (by omega)⟩
  | succ n ih =>
    intro fronts idx tmpl hidx
    have hstep : fillPushGo fronts idx tmpl (n + 1) =
        fillPushGo
          (if idx + 1 = fronts.length
            then fronts ++
              [BitFront.clone { tmpl with i := tmpl.i + 1, top_val := tmpl.top_val + 1 }]
            else fronts.set (idx + 1) (BitFront.clone_from
              (fronts.getD (idx + 1) BitFront.default)
              { tmpl with i := tmpl.i + 1, top_val := tmpl.top_val + 1 }))
          (idx + 1) { tmpl with i := tmpl.i + 1, top_val := tmpl.top_val + 1 } n := rfl
    rw [hstep]
    by_cases hc : idx + 1 = fronts.length
    · rw [if_pos hc]
      have hidx1 : idx + 1 < (fronts ++
          [BitFront.clone { tmpl with i := tmpl.i + 1, top_val := tmpl.top_val + 1 }]).length := by
        rw [List.length_append]
        simp
        omega
      have H := ih _ (idx + 1) { tmpl with i := tmpl.i + 1, top_val := tmpl.top_val + 1 } hidx1
      refine ⟨by rw [H.1]; omega, ?_, ?_⟩
      · have := H.2.1
        have he : idx + (n + 1) = idx + 1 + n := by omega
        rw [he]
        exact this
      · intro _
        have he : idx + (n + 1) = idx + 1 + n := by omega
        rw [he]
        by_cases hn : n = 0
        · subst hn
          simp only [Nat.add_zero]
          have hred : (fillPushGo (fronts ++
              [BitFront.clone { tmpl with i := tmpl.i + 1, top_val := tmpl.top_val + 1 }])
              (idx + 1) { tmpl with i := tmpl.i + 1, top_val := tmpl.top_val + 1 } 0).1 =
              fronts ++
              [BitFront.clone { tmpl with i := tmpl.i + 1, top_val := tmpl.top_val + 1 }] := rfl
          rw [hred, List.getD_eq_getElem?_getD, hc, List.getElem?_concat_length]
          refine ⟨rfl, rfl, ?_⟩
          simp only [Option.getD_some, BitFront.clone]
          push_cast
          ring
        · obtain ⟨hj, ho, ht⟩ := H.2.2 (by omega)
          refine ⟨hj, ho, ?_⟩
          rw [ht]
          show ({ tmpl with i := tmpl.i + 1, top_val := tmpl.top_val + 1 } : BitFront).top_val
            + (n : Int) = tmpl.top_val + ((n + 1 : Nat) : Int)
          simp only []
          push_cast
          ring
    · rw [if_neg hc]
      have hidx1 : idx + 1 < (fronts.set (idx + 1) (BitFront.clone_from
          (fronts.getD (idx + 1) BitFront.default)
          { tmpl with i := tmpl.i + 1, top_val := tmpl.top_val + 1 })).length := by
        rw [List.length_set]
        omega
      have H := ih _ (idx + 1) { tmpl with i := tmpl.i + 1, top_val := tmpl.top_val + 1 } hidx1
      refine ⟨by rw [H.1]; omega, ?_, ?_⟩
      · have := H.2.1
        have he : idx + (n + 1) = idx + 1 + n := by omega
        rw [he]
        exact this
      · intro _
        have he : idx + (n + 1) = idx + 1 + n := by omega
        rw [he]
        by_cases hn : n = 0
        · subst hn
          simp only [Nat.add_zero]
          have hred : (fillPushGo (fronts.set (idx + 1) (BitFront.clone_from
              (fronts.getD (idx + 1) BitFront.default)
              { tmpl with i := tmpl.i + 1, top_val := tmpl.top_val + 1 }))
              (idx + 1) { tmpl with i := tmpl.i + 1, top_val := tmpl.top_val + 1 } 0).1 =
              fronts.set (idx + 1) (BitFront.clone_from
                (fronts.getD (idx + 1) BitFront.default)
                { tmpl with i := tmpl.i + 1, top_val := tmpl.top_val + 1 }) := rfl
          rw [hred, getD_set_self _ _ _ _ (by omega)]
          refine ⟨rfl, rfl, ?_⟩
          simp only [BitFront.clone_from]
          push_cast
          ring
        · obtain ⟨hj, ho, ht⟩ := H.2.2 (by omega)
          refine ⟨hj, ho, ?_⟩
          rw [ht]
          show ({ tmpl with i := tmpl.i + 1, top_val := tmpl.top_val + 1 } : BitFront).top_val
            + (n : Int) = tmpl.top_val + ((n + 1 : Nat) : Int)
          simp only []
          push_cast
          ring

theorem fillAssign_last : ∀ (snaps : List (List V × Int)) (fronts : List BitFront)
    (idx : Nat) (bot : Int) (s : List V × Int),
    snaps.getLast? = some s → idx + snaps.length - 1 < fronts.length →
    ((fillAssign fronts idx snaps bot).getD (idx + snaps.length - 1)
        BitFront.default).v = s.1 ∧
    ((fillAssign fronts idx snaps bot).getD (idx + snaps.length - 1)
        BitFront.default).bot_val = bot + (snaps.map Prod.snd).sum ∧
    ((fillAssign fronts idx snaps bot).getD (idx + snaps.length - 1)
        BitFront.default).j_range =
      (fronts.getD (idx + snaps.length - 1) BitFront.default).j_range ∧
    ((fillAssign fronts idx snaps bot).getD (idx + snaps.length - 1)
        BitFront.default).offset =
      (fronts.getD (idx + snaps.length - 1) BitFront.default).offset ∧
    ((fillAssign fronts idx snaps bot).getD (idx + snaps.length - 1)
        BitFront.default).top_val =
      (fronts.getD (idx + snaps.length - 1) BitFront.default).top_val := by
  intro snaps
  induction snaps with
  | nil =>
    intro fronts idx bot s hs hb
    cases hs
  | cons p rest ih =>
    intro fronts idx bot s hs hb
    cases rest with
    | nil =>
      simp only [List.length_cons, List.length_nil, Nat.zero_add,
        Nat.add_sub_cancel] at hb ⊢
      simp only [List.getLast?_singleton, Option.some.injEq] at hs
      have hfa : fillAssign fronts idx [p] bot =
          fronts.set idx { fronts.getD idx BitFront.default with
            v := p.1, bot_val := bot + p.2 } := rfl
      rw [hfa, getD_set_self _ _ _ _ hb]
      rw [← hs]
      refine ⟨rfl, by simp, rfl, rfl, rfl⟩
    | cons q t =>
      have hfa : fillAssign fronts idx (p :: q :: t) bot =
          fillAssign (fronts.set idx { fronts.getD idx BitFront.default with
            v := p.1, bot_val := bot + p.2 }) (idx + 1) (q :: t) (bot + p.2) := rfl
      rw [List.getLast?_cons_cons] at hs
      have hidxeq : idx + (p :: q :: t).length - 1 = (idx + 1) + (q :: t).length - 1 := by
        simp
        omega
      have hb' : (idx + 1) + (q :: t).length - 1 <
          (fronts.set idx { fronts.getD idx BitFront.default with
            v := p.1, bot_val := bot + p.2 }).length := by
        rw [List.length_set]
        rw [hidxeq] at hb
        exact hb
      have H := ih (fronts.set idx { fronts.getD idx BitFront.default with
          v := p.1, bot_val := bot + p.2 }) (idx + 1) (bot + p.2) s hs hb'
      rw [hfa, hidxeq]
      have hne : idx ≠ (idx + 1) + (q :: t).length - 1 := by
        simp
        omega
      have hgd : (fronts.set idx { fronts.getD idx BitFront.default with
          v := p.1, bot_val := bot + p.2 }).getD ((idx + 1) + (q :: t).length - 1)
          BitFront.default =
          fronts.getD ((idx + 1) + (q :: t).length - 1) BitFront.default := by
        rw [List.getD_eq_getElem?_getD, List.getElem?_set_ne hne,
          ← List.getD_eq_getElem?_getD]
      rw [hgd] at H
      refine ⟨H.1, ?_, H.2.2.1, H.2.2.2.1, H.2.2.2.2⟩
      rw [H.2.1]
      simp only [List.map_cons, List.sum_cons]
      ring

theorem cnb_fill_top_bot (st : BitFronts) (i_range : IRange) (j_range0 : JRange)
    (st' : BitFronts) (hrun : st.compute_next_block i_range j_range0 = .ok st')
    (htrace : st.trace = true) (hsp : st.params.sparse = false)
    (hfr : st.last_front_idx + 1 ≤ st.fronts.length)
    (hil : i_range.lo ≤ i_range.hi) (hjr : j_range0.lo ≤ j_range0.hi)
    (hwf : st.lastFront.wfStruct) (hbb : st.lastFront.top_bot_ok) :
    st'.lastFront.top_bot_ok := by
  unfold BitFronts.compute_next_block at hrun
  generalize hJ : (match st.fronts.get? (st.last_front_idx + 1) with
    | some nf =>
      (⟨min j_range0.lo nf.j_range.lo, max j_range0.hi nf.j_range.hi⟩ : JRange)
    | none => j_range0) = J at hrun
  rw [if_pos (show st.trace = true ∧ ¬st.params.sparse = true from
    ⟨htrace, by rw [hsp]; simp⟩)] at hrun
  have hJne : J.lo ≤ J.hi := by
    rcases hg : st.fronts.get? (st.last_front_idx + 1) with _ | nf
    · rw [hg] at hJ
      rw [← hJ]
      exact hjr
    · rw [hg] at hJ
      rw [← hJ]
      simp only
      omega
  unfold BitFronts.fill_block at hrun
  obtain ⟨hG1, hrun⟩ := grd_bind_ok hrun
  simp only [] at hrun
  have hst1 : BitFronts.lastFront
      { params := st.params, trace := st.trace, a := st.a, b := st.b,
        fronts := st.fronts, last_front_idx := st.last_front_idx,
        i_range := { lo := st.i_range.lo, hi := i_range.hi },
        h := st.h } = st.lastFront := rfl
  rw [hst1] at hrun
  obtain ⟨hG2, hrun⟩ := grd_bind_ok hrun
  obtain ⟨top0, hT, hrun⟩ := bind_ok hrun
  obtain ⟨bot0, hB, hrun⟩ := bind_ok hrun
  have hst' := pure_ok hrun
  subst hst'
  obtain ⟨hokT, hTv⟩ := indexE_ok hT
  obtain ⟨hokB, hBv⟩ := indexE_ok hB
  unfold BitFronts.lastFront
  simp only []
  rw [show st.fronts.getD st.last_front_idx BitFront.default = st.lastFront from rfl]
  set TMPL : BitFront := { v := ([] : List V), i := i_range.lo, j_range := J, fixed_j_range := none, offset := (round J).lo, top_val := top0, bot_val := 0, j_h := none } with hTM
  set LEN := (i_range.hi - i_range.lo).toNat with hLEN
  set SNAPS := fillCols (eqMasks st.a st.b i_range.lo i_range.hi
    ((round J).lo.tdiv 64).toNat ((round J).hi.tdiv 64).toNat)
    (initialize_next_v st.lastFront (round J)) with hSN
  by_cases hl0 : LEN = 0
  · have hmask : eqMasks st.a st.b i_range.lo i_range.hi
        ((round J).lo.tdiv 64).toNat ((round J).hi.tdiv 64).toNat = [] := by
      unfold eqMasks
      rw [← hLEN, hl0]
      simp
    have hsn0 : SNAPS = [] := by
      rw [hSN, hmask]
      rfl
    rw [hsn0, hl0]
    exact hbb
  · have h0l : 0 < LEN := Nat.pos_of_ne_zero hl0
    have hidx0 : st.last_front_idx < st.fronts.length := by omega
    have hps := fillPushGo_spec LEN st.fronts st.last_front_idx TMPL hidx0
    rw [hps.1]
    have hsl : SNAPS.length = LEN := by
      rw [hSN, fillCols_length, eqMasks_length, ← hLEN]
    have hsne : SNAPS ≠ [] := by
      intro hx
      rw [hx] at hsl
      simp at hsl
      omega
    obtain ⟨s, hs⟩ : ∃ s, SNAPS.getLast? = some s := by
      cases hx : SNAPS.getLast? with
      | none => exact absurd (List.getLast?_eq_none_iff.mp hx) hsne
      | some s => exact ⟨s, rfl⟩
    have hbound : (st.last_front_idx + 1) + SNAPS.length - 1 <
        (fillPushGo st.fronts st.last_front_idx TMPL LEN).1.length := by
      rw [hsl]
      have := hps.2.1
      omega
    have hfa := fillAssign_last SNAPS
      (fillPushGo st.fronts st.last_front_idx TMPL LEN).1
      (st.last_front_idx + 1) bot0 s hs hbound
    have hidxeq : (st.last_front_idx + 1) + SNAPS.length - 1 =
        st.last_front_idx + LEN := by
      rw [hsl]
      omega
    rw [hidxeq] at hfa
    obtain ⟨hfv, hfb, hfj, hfo, hft⟩ := hfa
    obtain ⟨hpj, hpo, hpt⟩ := hps.2.2 h0l
    apply commit_core st.lastFront st.a st.b i_range J _ hil hJne hwf hbb hokT hokB
    · rw [hfv]
      have hlast := fillCols_last (eqMasks st.a st.b i_range.lo i_range.hi
        ((round J).lo.tdiv 64).toNat ((round J).hi.tdiv 64).toNat)
        (initialize_next_v st.lastFront (round J)) s (by rw [← hSN]; exact hs)
      rw [eqMasks_length] at hlast
      exact hlast
    · rw [hfj, hpj]
    · rw [hfo, hpo]
    · rw [hft, hpt]
      rw [show TMPL.top_val = top0 from rfl, hTv]
      unfold IRange.len
      rw [hLEN]
      omega
    · rw [hfb, hBv]
      have hsnd := fillCols_map_snd (eqMasks st.a st.b i_range.lo i_range.hi
        ((round J).lo.tdiv 64).toNat ((round J).hi.tdiv 64).toNat)
        (initialize_next_v st.lastFront (round J))
      rw [eqMasks_length] at hsnd
      rw [hSN, hsnd]

/-- **C3 (amended)**: every front produced or updated by `compute_next_block`
satisfies `top_val + Σ (popcount p − popcount m)` over the rounded range
`= bot_val` whenever the block recomputes the whole row range it stores: in
the no-trace single-front mode (offset 0, all-ones words below the range),
in the dense-trace `fill_block` mode, and in the sparse-trace mode without
incremental doubling — in particular in every configuration with
`incremental_doubling` disabled.  The incremental-doubling reuse path does
not preserve the invariant unconditionally (see the counterexample): there
it also rests on the consistency of the reused stored words and stored
horizontal deltas with the previous front. -/
theorem C3_block_conservation (st : BitFronts) (i_range : IRange) (j_range0 : JRange)
    (st' : BitFronts)
    (hrun : st.compute_next_block i_range j_range0 = .ok st')
    (hil : i_range.lo ≤ i_range.hi)
    (hjr : j_range0.lo ≤ j_range0.hi)
    (hfr : st.last_front_idx + 1 ≤ st.fronts.length)
    (hwf : st.lastFront.wfStruct) (hbb : st.lastFront.top_bot_ok)
    (hbranch : (st.trace = false ∧ st.lastFront.offset = 0 ∧ onesBeyond st.lastFront) ∨
      (st.trace = true ∧ st.params.sparse = false) ∨
      (st.trace = true ∧ st.params.sparse = true ∧
        st.params.incremental_doubling = false)) :
    st'.lastFront.top_bot_ok := by
  rcases hbranch with ⟨ht, ho, hon⟩ | ⟨ht, hs⟩ | ⟨ht, hs, hn⟩
  · exact cnb_notrace_top_bot st i_range j_range0 st' hrun ht (by omega) hil hwf hbb ho hon
  · exact cnb_fill_top_bot st i_range j_range0 st' hrun ht hs hfr hil hjr hwf hbb
  · exact cnb_sparse_top_bot st i_range j_range0 st' hrun ht hs hn hfr hil hjr hwf hbb

set_option maxRecDepth 4000 in
/-- Witness for C3: one concrete block computation on `a = b = [0]`. -/
theorem C3_block_conservation_witness :
    c3St.compute_next_block ⟨0, 1⟩ ⟨0, 1⟩ = .ok c3St' ∧ c3St'.lastFront.top_bot_ok :=
  ⟨by decide, C3_block_conservation c3St ⟨0, 1⟩ ⟨0, 1⟩ c3St' (by decide) (by decide)
    (by decide) (by decide) (by decide) (by decide)
    (Or.inl ⟨rfl, by decide, by decide⟩)⟩

set_option maxRecDepth 4000 in
/-- **C3 counterexample**: the incremental-doubling reuse path of
`compute_next_block` does not preserve the invariant unconditionally.  In
this state every stored front is structurally well-formed and satisfies
`top_val + Σ values = bot_val`, but the next front's stored fixed words
disagree with what recomputing from the previous front would give; the
three-way split keeps them, the block computation succeeds, and the
resulting last front violates the invariant. -/
theorem C3_counterexample :
    (∀ f ∈ c3BadSt.fronts, f.wfStruct ∧ f.top_bot_ok) ∧
    c3BadSt.compute_next_block ⟨0, 1⟩ ⟨0, 65⟩ = .ok c3BadSt' ∧
    ¬ c3BadSt'.lastFront.top_bot_ok := by
  refine ⟨by decide, by decide, by decide⟩

theorem commit_jrange (st1 : BitFronts) (fronts1 : List BitFront)
    (r : List V × List Int × Int × BitFront) (J : JRange) (st' : BitFronts)
    (h : cnbCommit st1 fronts1 r J = st')
    (hlen : st1.last_front_idx + 1 < fronts1.length) :
    st'.lastFront.j_range = J := by
  subst h
  unfold cnbCommit BitFronts.lastFront
  simp only
  rw [getD_set_self _ _ _ _ hlen]

theorem cnb_jrange_widen (st : BitFronts) (i_range : IRange) (j_range0 : JRange)
    (st' : BitFronts) (nf0 : BitFront)
    (hrun : st.compute_next_block i_range j_range0 = .ok st')
    (htrace : st.trace = true) (hsp : st.params.sparse = true)
    (hget : st.fronts.get? (st.last_front_idx + 1) = some nf0) :
    st'.lastFront.j_range.lo ≤ nf0.j_range.lo ∧
      nf0.j_range.hi ≤ st'.lastFront.j_range.hi ∧
      st'.lastFront.j_range.lo ≤ j_range0.lo ∧
      j_range0.hi ≤ st'.lastFront.j_range.hi := by
  have hlt : st.last_front_idx + 1 < st.fronts.length :=
    (List.get?_eq_some.mp hget).1
  unfold BitFronts.compute_next_block at hrun
  rw [htrace, hsp, hget] at hrun
  simp only [not_true, and_false, if_false, if_true] at hrun
  obtain ⟨hG1, hrun⟩ := grd_bind_ok hrun
  have hst1 : BitFronts.lastFront
      { params := st.params, trace := true, a := st.a, b := st.b,
        fronts := st.fronts, last_front_idx := st.last_front_idx,
        i_range := { lo := st.i_range.lo, hi := i_range.hi },
        h := st.h } = st.lastFront := rfl
  rw [hst1] at hrun
  obtain ⟨T, hT, hrun⟩ := bind_ok hrun
  obtain ⟨B, hB, hrun⟩ := bind_ok hrun
  obtain ⟨hG3, hrun⟩ := grd_bind_ok hrun
  rw [if_neg (by omega)] at hrun
  obtain ⟨hGi, hrun⟩ := grd_bind_ok hrun
  obtain ⟨fronts1, hf1, hrun⟩ := bind_ok hrun
  have hf1v := pure_ok hf1
  subst hf1v
  split at hrun
  · split at hrun
    · split at hrun
      · obtain ⟨v1, hv1, hrun⟩ := bind_ok hrun
        obtain ⟨hg1, hrun⟩ := grd_bind_ok hrun
        obtain ⟨hg2, hrun⟩ := grd_bind_ok hrun
        obtain ⟨hg3, hrun⟩ := grd_bind_ok hrun
        obtain ⟨hg4, hrun⟩ := grd_bind_ok hrun
        obtain ⟨hg5, hrun⟩ := grd_bind_ok hrun
        obtain ⟨hg6, hrun⟩ := grd_bind_ok hrun
        obtain ⟨r, hr, hrun⟩ := bind_ok hrun
        have hc := commit_jrange _ _ _ _ _ (pure_ok hrun) (by exact hlt)
        rw [hc]
        dsimp only
        omega
      · obtain ⟨r, hr, hrun⟩ := bind_ok hrun
        have hc := commit_jrange _ _ _ _ _ (pure_ok hrun) (by exact hlt)
        rw [hc]
        dsimp only
        omega
    · obtain ⟨r, hr, hrun⟩ := bind_ok hrun
      have hc := commit_jrange _ _ _ _ _ (pure_ok hrun) (by exact hlt)
      rw [hc]
      dsimp only
      omega
  · obtain ⟨r, hr, hrun⟩ := bind_ok hrun
    have hc := commit_jrange _ _ _ _ _ (pure_ok hrun) (by exact hlt)
    rw [hc]
    dsimp only
    omega

theorem set_last_fixed_merge (st : BitFronts) (fj : Option JRange) (st' : BitFronts)
    (hrun : st.set_last_front_fixed_j_range fj = .ok st')
    (hidx : st.last_front_idx < st.fronts.length) :
    (∀ o, st.lastFront.fixed_j_range = some o →
      ∃ m, st'.lastFront.fixed_j_range = some m ∧ m.lo ≤ o.lo ∧ o.hi ≤ m.hi) ∧
    (∀ n, fj = some n →
      ∃ m, st'.lastFront.fixed_j_range = some m ∧ m.lo ≤ n.lo ∧ n.hi ≤ m.hi) := by
  unfold BitFronts.set_last_front_fixed_j_range at hrun
  obtain ⟨hs, hrun⟩ := grd_bind_ok hrun
  have hst' := pure_ok hrun
  subst hst'
  unfold BitFronts.lastFront
  simp only
  rw [getD_set_self _ _ _ _ hidx]
  simp only
  have hfold : st.fronts.getD st.last_front_idx BitFront.default = st.lastFront := rfl
  rw [hfold]
  constructor
  · intro o ho
    rcases fj with _ | n
    · simp at hs
    rw [ho]
    exact ⟨⟨min o.lo n.lo, max o.hi n.hi⟩, rfl, by simp, by simp⟩
  · intro n hn
    subst hn
    rcases ho : st.lastFront.fixed_j_range with _ | o
    · exact ⟨n, rfl, le_refl _, le_refl _⟩
    · exact ⟨⟨min o.lo n.lo, max o.hi n.hi⟩, rfl, by simp, by simp⟩

theorem round_inward_hi_mono (r r' : JRange) (h : r.hi ≤ r'.hi) :
    (round_inward r).hi ≤ (round_inward r').hi := by
  unfold round_inward
  simp only
  have h4 : ∀ x : Int, x.tdiv 64 = if 0 ≤ x then x / 64 else 0 - ((-x) / 64) := by
    intro x
    split
    · rw [Int.tdiv_eq_ediv (by omega) (by omega)]
    · rw [show x = -(-x) from by ring, Int.neg_tdiv,
        Int.tdiv_eq_ediv (by omega) (by omega)]
      omega
  rw [h4, h4]
  split <;> split <;> omega

theorem commit_jh (st1 : BitFronts) (fronts1 : List BitFront)
    (r : List V × List Int × Int × BitFront) (J : JRange) (st' : BitFronts)
    (h : cnbCommit st1 fronts1 r J = st')
    (hlen : st1.last_front_idx + 1 < fronts1.length) :
    st'.lastFront.j_h = r.2.2.2.j_h := by
  subst h
  unfold cnbCommit BitFronts.lastFront
  simp only
  rw [getD_set_self _ _ _ _ hlen]

theorem cnb_jh_three_split (st : BitFronts) (i_range : IRange) (j_range0 : JRange)
    (st' : BitFronts) (nf0 : BitFront) (pfx nfx : JRange) (old : Int)
    (hrun : st.compute_next_block i_range j_range0 = .ok st')
    (htrace : st.trace = true) (hsp : st.params.sparse = true)
    (hinc : st.params.incremental_doubling = true)
    (hget : st.fronts.get? (st.last_front_idx + 1) = some nf0)
    (hpfx : st.lastFront.fixed_j_range = some pfx)
    (hnfx : nf0.fixed_j_range = some nfx)
    (hjh : nf0.j_h = some old)
    (hlt3 : (round_inward nfx).lo < old) :
    st'.lastFront.j_h = some (round_inward pfx).hi ∧ old ≤ (round_inward pfx).hi := by
  have hlt : st.last_front_idx + 1 < st.fronts.length :=
    (List.get?_eq_some.mp hget).1
  have hgetD : st.fronts.getD (st.last_front_idx + 1) BitFront.default = nf0 := by
    rw [List.getD_eq_getElem?_getD, ← List.get?_eq_getElem?, hget]
    rfl
  unfold BitFronts.compute_next_block at hrun
  rw [htrace, hsp, hget] at hrun
  simp only [not_true, and_false, if_false, if_true] at hrun
  obtain ⟨hG1, hrun⟩ := grd_bind_ok hrun
  have hst1 : BitFronts.lastFront
      { params := st.params, trace := true, a := st.a, b := st.b,
        fronts := st.fronts, last_front_idx := st.last_front_idx,
        i_range := { lo := st.i_range.lo, hi := i_range.hi },
        h := st.h } = st.lastFront := rfl
  rw [hst1] at hrun
  obtain ⟨T, hT, hrun⟩ := bind_ok hrun
  obtain ⟨B, hB, hrun⟩ := bind_ok hrun
  obtain ⟨hG3, hrun⟩ := grd_bind_ok hrun
  rw [if_neg (by omega)] at hrun
  obtain ⟨hGi, hrun⟩ := grd_bind_ok hrun
  obtain ⟨fronts1, hf1, hrun⟩ := bind_ok hrun
  have hf1v := pure_ok hf1
  subst hf1v
  rw [hinc] at hrun
  rw [show st.fronts.getD st.last_front_idx BitFront.default = st.lastFront from rfl,
    hpfx, hgetD, hnfx, hjh] at hrun
  simp only [] at hrun
  rw [if_pos hlt3] at hrun
  obtain ⟨v1, hv1, hrun⟩ := bind_ok hrun
  obtain ⟨hg1, hrun⟩ := grd_bind_ok hrun
  obtain ⟨hg2, hrun⟩ := grd_bind_ok hrun
  obtain ⟨hg3, hrun⟩ := grd_bind_ok hrun
  obtain ⟨hg4, hrun⟩ := grd_bind_ok hrun
  obtain ⟨hg5, hrun⟩ := grd_bind_ok hrun
  obtain ⟨hg6, hrun⟩ := grd_bind_ok hrun
  obtain ⟨r, hr, hrun⟩ := bind_ok hrun
  have hrv := pure_ok hr
  subst hrv
  have hc := commit_jh _ _ _ _ _ (pure_ok hrun) (by exact hlt)
  rw [hc]
  exact ⟨rfl, hg3⟩

/-- **C4**: the band-doubling monotonicity mechanisms: (1) `compute_next_block`
widens the new `j_range` to contain the stored front's previous `j_range`
(and the requested range); (2) `set_last_front_fixed_j_range` merges, so the
stored `fixed_j_range` contains both the old fixed range and the newly passed
one; (3) the upper end of `round_inward` is monotone (so `j_h`, always set to
`round_inward(prev fixed).hi`, does not decrease when the fixed range grows);
(4) in the three-way incremental split the stored `j_h` becomes
`round_inward(prev fixed).hi` and the `assert!(old_j_h <= new_j_h)` guarantees
it is no smaller than the old `j_h`. -/
theorem C4_band_doubling_monotonicity :
    (∀ (st : BitFronts) (i_range : IRange) (j_range0 : JRange) (st' : BitFronts)
        (nf0 : BitFront),
      st.compute_next_block i_range j_range0 = .ok st' → st.trace = true →
        st.params.sparse = true →
        st.fronts.get? (st.last_front_idx + 1) = some nf0 →
        st'.lastFront.j_range.lo ≤ nf0.j_range.lo ∧
          nf0.j_range.hi ≤ st'.lastFront.j_range.hi ∧
          st'.lastFront.j_range.lo ≤ j_range0.lo ∧
          j_range0.hi ≤ st'.lastFront.j_range.hi) ∧
    (∀ (st : BitFronts) (fj : Option JRange) (st' : BitFronts),
      st.set_last_front_fixed_j_range fj = .ok st' →
        st.last_front_idx < st.fronts.length →
        (∀ o, st.lastFront.fixed_j_range = some o →
          ∃ m, st'.lastFront.fixed_j_range = some m ∧ m.lo ≤ o.lo ∧ o.hi ≤ m.hi) ∧
        (∀ n, fj = some n →
          ∃ m, st'.lastFront.fixed_j_range = some m ∧ m.lo ≤ n.lo ∧ n.hi ≤ m.hi)) ∧
    (∀ r r' : JRange, r.hi ≤ r'.hi → (round_inward r).hi ≤ (round_inward r').hi) ∧
    (∀ (st : BitFronts) (i_range : IRange) (j_range0 : JRange) (st' : BitFronts)
        (nf0 : BitFront) (pfx nfx : JRange) (old : Int),
      st.compute_next_block i_range j_range0 = .ok st' → st.trace = true →
        st.params.sparse = true → st.params.incremental_doubling = true →
        st.fronts.get? (st.last_front_idx + 1) = some nf0 →
        st.lastFront.fixed_j_range = some pfx → nf0.fixed_j_range = some nfx →
        nf0.j_h = some old → (round_inward nfx).lo < old →
        st'.lastFront.j_h = some (round_inward pfx).hi ∧
          old ≤ (round_inward pfx).hi) :=
  ⟨cnb_jrange_widen, set_last_fixed_merge, round_inward_hi_mono, cnb_jh_three_split⟩

set_option maxRecDepth 8000 in
/-- Witness for C4: a concrete sparse incremental-doubling block computation
that takes the three-way split. -/
theorem C4_band_doubling_monotonicity_witness :
    c4St.compute_next_block ⟨0, 1⟩ ⟨0, 65⟩ = .ok c4St' ∧
    (c4St'.lastFront.j_range.lo ≤ c4NextFront.j_range.lo ∧
      c4NextFront.j_range.hi ≤ c4St'.lastFront.j_range.hi ∧
      c4St'.lastFront.j_range.lo ≤ (⟨0, 65⟩ : JRange).lo ∧
      (⟨0, 65⟩ : JRange).hi ≤ c4St'.lastFront.j_range.hi) ∧
    (c4St'.lastFront.j_h = some (round_inward (⟨0, 128⟩ : JRange)).hi ∧
      (64 : Int) ≤ (round_inward (⟨0, 128⟩ : JRange)).hi) :=
  ⟨by decide,
    C4_band_doubling_monotonicity.1 c4St ⟨0, 1⟩ ⟨0, 65⟩ c4St' c4NextFront (by decide)
      (by decide) (by decide) (by decide),
    C4_band_doubling_monotonicity.2.2.2 c4St ⟨0, 1⟩ ⟨0, 65⟩ c4St' c4NextFront
      ⟨0, 128⟩ ⟨0, 64⟩ 64 (by decide) (by decide) (by decide) (by decide) (by decide)
      (by decide) (by decide) (by decide) (by decide)⟩

theorem expSearchBound_shift (factor : ℚ) (s0 : Int) (j : Nat) :
    expSearchBound factor (max (Int.ceil (factor * (s0 : ℚ))) 1) j =
      expSearchBound factor s0 (j + 1) := by
  induction j with
  | zero => rfl
  | succ j ih =>
    unfold expSearchBound
    rw [ih]

theorem C6_exp_search_core (T : Type) (factor : ℚ) (f : Int → Option (Int × T)) :
    ∀ (n : Nat) (fuel : Nat) (s0 : Int) (c : Int) (t : T), n < fuel →
      (∀ j, j < n → ∀ c' t', f (expSearchBound factor s0 j) = some (c', t') →
        expSearchBound factor s0 j < c') →
      f (expSearchBound factor s0 n) = some (c, t) →
      c ≤ expSearchBound factor s0 n →
      exponentialSearchGo factor f fuel s0 = some (c, t) := by
  intro n
  induction n with
  | zero =>
    intro fuel s0 c t hn hfail hsucc hc
    match fuel with
    | fuel + 1 =>
      unfold exponentialSearchGo
      unfold expSearchBound at hsucc hc
      rw [hsucc]
      simp only
      rw [if_pos hc]
  | succ n ih =>
    intro fuel s0 c t hn hfail hsucc hc
    match fuel with
    | fuel + 1 =>
      unfold exponentialSearchGo
      rcases hf0 : f s0 with _ | ⟨c0, t0⟩
      · simp only
        apply ih fuel _ c t (by omega)
        · intro j hj c' t' hj2
          rw [expSearchBound_shift] at hj2
          rw [expSearchBound_shift]
          exact hfail (j + 1) (by omega) c' t' hj2
        · rw [expSearchBound_shift]
          exact hsucc
        · rw [expSearchBound_shift]
          exact hc
      · simp only
        have hlt := hfail 0 (by omega) c0 t0 hf0
        unfold expSearchBound at hlt
        rw [if_neg (by omega)]
        apply ih fuel _ c t (by omega)
        · intro j hj c' t' hj2
          rw [expSearchBound_shift] at hj2
          rw [expSearchBound_shift]
          exact hfail (j + 1) (by omega) c' t' hj2
        · rw [expSearchBound_shift]
          exact hsucc
        · rw [expSearchBound_shift]
          exact hc

/-- **C6 (amended)**: in the snapshot's `exponential_search` the next bound
after an unsuccessful iteration at bound `s` is `max(⌈factor·s⌉, 1)` — the
`BLOCKSIZE` increment of the claim does not appear — and the search returns
exactly at the first bound whose result has `cost ≤ s`. -/
theorem C6_exponential_search_amended :
    (∀ (factor : ℚ) (s0 : Int) (k : Nat),
      expSearchBound factor s0 (k + 1) =
        max (Int.ceil (factor * (expSearchBound factor s0 k : ℚ))) 1) ∧
    (∀ (T : Type) (factor : ℚ) (f : Int → Option (Int × T)) (n fuel : Nat)
        (s0 c : Int) (t : T), n < fuel →
      (∀ j, j < n → ∀ c' t', f (expSearchBound factor s0 j) = some (c', t') →
        expSearchBound factor s0 j < c') →
      f (expSearchBound factor s0 n) = some (c, t) →
      c ≤ expSearchBound factor s0 n →
      exponentialSearchGo factor f fuel s0 = some (c, t)) :=
  ⟨fun _ _ _ => rfl,
    fun T factor f n fuel s0 c t => C6_exp_search_core T factor f n fuel s0 c t⟩

/-- Counterexample to C6 as stated: with `factor = 3/2` from bound `64`,
the code's next bound is `96`, not `max(⌈3/2·64⌉, 64 + BLOCKSIZE) = 128`:
the search (probed by a function that records the bound it was called at)
succeeds at bound `96`. -/
theorem C6_counterexample :
    exponentialSearchGo (3 / 2 : ℚ) c6f 5 64 = some (96, 96) ∧
      (96 : Int) ≠ max (Int.ceil ((3 / 2 : ℚ) * ((64 : Int) : ℚ))) (64 + BLOCKSIZE) := by
  constructor
  · have hb : max (Int.ceil ((3 / 2 : ℚ) * ((64 : Int) : ℚ))) 1 = 96 := by norm_num
    unfold exponentialSearchGo
    have hf1 : c6f 64 = none := by
      unfold c6f
      norm_num
    rw [hf1, hb]
    simp only
    have hf2 : c6f 96 = some (96, 96) := by
      unfold c6f
      norm_num
    unfold exponentialSearchGo
    rw [hf2]
    simp only
    rw [if_pos (by omega)]
  · unfold BLOCKSIZE
    norm_num

/-- Witness for C6: the amended return rule instantiated on the same search. -/
theorem C6_exponential_search_amended_witness :
    exponentialSearchGo (3 / 2 : ℚ) c6f 5 64 = some (96, 96) :=
  C6_exponential_search_amended.2 Int (3 / 2) c6f 1 5 64 96 96 (by omega)
    (fun j hj c' t' h => by
      have hj0 : j = 0 := by omega
      subst hj0
      unfold expSearchBound c6f at h
      norm_num at h
      exact Option.noConfusion h)
    (by
      simp only [expSearchBound, c6f]
      norm_num)
    (by
      simp only [expSearchBound]
      norm_num)

/-- Counterexample to C7 as stated: with `h ≡ 3`, `u = (0,0)`, `g(u) = 0`,
`f_max = 2`, `ie = 2`, `m = 6`, the code's down-right walk (stride applied
to the column) ends at `(3,3)`, while a walk whose exponential stride
advances rows, as the claim words it, ends at `(1,8)`. -/
theorem C7_counterexample :
    walkDR (fun _ => 3) ⟨0, 0⟩ 0 2 2 6 ⟨1, 3⟩ = .ok ⟨3, 3⟩ ∧
      walkDRRowsCnt (fun _ => 3) ⟨0, 0⟩ 0 2 2 6 5 ⟨1, 3⟩ = .ok ⟨1, 8⟩ ∧
      (⟨3, 3⟩ : Pos) ≠ ⟨1, 8⟩ := by
  refine ⟨by decide, by decide, by decide⟩

/-- **C7 (amended)**: the sparse-`h` exponential strides: in the down-right
phase of the A* `j_range` walk an out-of-scope state advances the **column**
by `⌈Δ / (2·min_del_extend)⌉` (rows advance by one only when in scope); the
final upward loop moves the row up by `⌈Δ / (2·min_ins_extend)⌉`; and the
two `fixed_j_range` endpoint loops move their endpoint by
`⌈Δ / (2·min_ins_extend)⌉` rows when `sparse_h` is set. -/
theorem C7_sparse_strides :
    (∀ (h : Pos → Int) (u : Pos) (gu fmax ie m : Int) (n : Nat) (v : Pos) (fv : Int),
      v.i ≤ ie → v.j < m → fWalk h u gu v = .ok fv → fmax < fv →
      walkDRCnt h u gu fmax ie m (n + 1) v =
        walkDRCnt h u gu fmax ie m n
          ⟨v.i + ceilDivInt (fv - fmax) (2 * min_del_extend), v.j⟩) ∧
    (∀ (h : Pos → Int) (u : Pos) (gu fmax m : Int) (n : Nat) (v : Pos) (fv : Int),
      ¬(v.j < 0 ∨ v.j = m) → fWalk h u gu v = .ok fv → fmax < fv →
      walkUpCnt h u gu fmax m (n + 1) v =
        walkUpCnt h u gu fmax m n
          ⟨v.i, v.j - ceilDivInt (fv - fmax) (2 * min_ins_extend)⟩) ∧
    (∀ (front : BitFront) (h : Pos → Int) (i f_max e : Int) (n : Nat) (s g : Int),
      s ≤ e → front.indexE s = .ok g → f_max < g + h ⟨i, s⟩ →
      fixedStartCnt front h i f_max true e (n + 1) s =
        fixedStartCnt front h i f_max true e n
          (s + ceilDivInt (g + h ⟨i, s⟩ - f_max) (2 * min_ins_extend))) ∧
    (∀ (front : BitFront) (h : Pos → Int) (i f_max s : Int) (n : Nat) (e g : Int),
      s ≤ e → front.indexE e = .ok g → f_max < g + h ⟨i, e⟩ →
      fixedEndCnt front h i f_max true s (n + 1) e =
        fixedEndCnt front h i f_max true s n
          (e - ceilDivInt (g + h ⟨i, e⟩ - f_max) (2 * min_ins_extend))) := by
  refine ⟨?_, ?_, ?_, ?_⟩
  · intro h u gu fmax ie m n v fv h1 h2 h3 h4
    conv_lhs => rw [walkDRCnt]
    rw [if_pos ⟨h1, h2⟩, h3]
    simp only
    rw [if_neg (by omega)]
  · intro h u gu fmax m n v fv h1 h2 h3
    conv_lhs => rw [walkUpCnt]
    rw [if_neg h1, h2]
    simp only
    rw [if_neg (by omega)]
  · intro front h i f_max e n s g h1 h2 h3
    conv_lhs => rw [fixedStartCnt]
    rw [if_pos h1, h2]
    simp only
    rw [if_neg (by omega)]
    simp only [if_true]
  · intro front h i f_max s n e g h1 h2 h3
    conv_lhs => rw [fixedEndCnt]
    rw [if_pos h1, h2]
    simp only
    rw [if_neg (by omega)]
    simp only [if_true]

/-- Witness for C7: one out-of-scope column-stride step of the down-right
walk on the counterexample data. -/
theorem C7_sparse_strides_witness :
    walkDRCnt (fun _ => 3) ⟨0, 0⟩ 0 2 5 3 7 ⟨1, 1⟩ =
      walkDRCnt (fun _ => 3) ⟨0, 0⟩ 0 2 5 3 6
        ⟨1 + ceilDivInt (3 - 2) (2 * min_del_extend), 1⟩ :=
  C7_sparse_strides.1 (fun _ => 3) ⟨0, 0⟩ 0 2 5 3 6 ⟨1, 1⟩ 3 (by decide) (by decide)
    (by decide) (by decide)

/-- **C1 (code bug)**: `cost`/`align` never return at all on the simplest
nonempty inputs: with the `Full` domain and `Strategy::None`, the run of
`a = b = [0]` panics — after the first block, `align_for_bounded_dist`
passes `fixed_j_range` (which is `None` outside the A* domain) to
`set_last_front_fixed_j_range`, whose `assert!(fixed_j_range.is_some())`
fails — so the returned cost cannot equal the Levenshtein distance `0`. -/
theorem C1_cost_align_panic :
    NWcost c1Params [0] [0] 10 = .error .panic ∧
      NWalign c1Params [0] [0] 10 = .error .panic := by
  constructor
  · decide
  · decide

/-- **C2 (code bug)**: a single bounded run panics instead of returning
`Some`/`None`: with the A* domain it panics immediately — the initial
`j_range` calls `prev.fixed_j_range().expect(..)` on the `Default` front,
whose `fixed_j_range` is `None` — and with the `Full` domain and
`f_max = Some 1 ≥ dist(a, b)` it panics at the
`set_last_front_fixed_j_range` assertion after the first block. -/
theorem C2_bounded_dist_panic :
    alignForBoundedDist c2ParamsAstar [] [] (some 0) false none 10 =
        .error .panic ∧
      alignForBoundedDist c1Params [0] [0] (some 1) false none 10 =
        .error .panic := by
  constructor
  · decide
  · decide

theorem V_one_bit : ∀ k : Nat, k < 64 → V.one.bit k = 1 := by decide

theorem vAt_replicate_one (n : Nat) (k : Int) :
    vAt (List.replicate n V.one) k = V.one := by
  unfold vAt
  exact getD_replicate_one n k.toNat

theorem sliceSum_replicate_one (L : Nat) :
    sliceSum (List.replicate L V.one) 0 L = 64 * L := by
  rw [sliceSum_eq_sum _ _ _ (by omega) (by simp)]
  have hterm : ∀ t ∈ Finset.range (L - 0), (vAt (List.replicate L V.one)
      (((0 + t : Nat)) : Int)).value = (64 : Int) := by
    intro t _
    rw [vAt_replicate_one, V_one_value]
  rw [Finset.sum_congr rfl hterm]
  simp
  ring

theorem first_col_spec (ijr : JRange) (front : BitFront) (hh : 0 ≤ ijr.hi)
    (h : BitFront.first_col ijr = .ok front) :
    front.wfStruct ∧ front.top_bot_ok ∧
      (∀ j : Int, 0 ≤ j → j ≤ (round front.j_range).hi → front.indexT j = j) ∧
      front.j_range = ijr ∧ front.i = 0 ∧ front.offset = 0 ∧
      front.v = List.replicate ((round ijr).exclusive_len.toNat / W) V.one ∧
      (round front.j_range).hi = 64 * (((round ijr).exclusive_len.toNat / W : Nat)) := by
  unfold BitFront.first_col at h
  by_cases hl : ijr.lo = 0
  · rw [if_pos hl] at h
    cases h
    obtain ⟨hm0, hm1, hup, hub, hcond⟩ := round_spec ijr
    have hrlo : (round ijr).lo = 0 := by
      unfold round
      simp only
      rw [hl]
      rfl
    have hrhi0 : 0 ≤ (round ijr).hi := by omega
    have hL : 64 * (((round ijr).exclusive_len.toNat / W : Nat) : Int) =
        (round ijr).hi := by
      unfold JRange.exclusive_len W
      omega
    have hwf : BitFront.wfStruct
        { v := List.replicate ((round ijr).exclusive_len.toNat / W) V.one,
          i := 0, j_range := ijr, fixed_j_range := some ijr, offset := 0,
          top_val := 0, bot_val := (round ijr).exclusive_len, j_h := none } := by
      unfold BitFront.wfStruct
      simp only [List.length_replicate]
      refine ⟨le_refl 0, by norm_num, by omega, by omega, by omega, by omega⟩
    have htbo : BitFront.top_bot_ok
        { v := List.replicate ((round ijr).exclusive_len.toNat / W) V.one,
          i := 0, j_range := ijr, fixed_j_range := some ijr, offset := 0,
          top_val := 0, bot_val := (round ijr).exclusive_len, j_h := none } := by
      unfold BitFront.top_bot_ok
      simp only
      rw [hrlo]
      have hidx1 : (((round ijr).hi - 0).toNat) / W =
          (round ijr).exclusive_len.toNat / W := by
        unfold JRange.exclusive_len W
        omega
      have hidx0 : (((0 : Int) - 0).toNat) / W = 0 := by
        unfold W
        norm_num
      rw [hidx0, hidx1, sliceSum_replicate_one]
      unfold JRange.exclusive_len W
      push_cast
      omega
    have hrep : RepG
        { v := List.replicate ((round ijr).exclusive_len.toNat / W) V.one,
          i := 0, j_range := ijr, fixed_j_range := some ijr, offset := 0,
          top_val := 0, bot_val := (round ijr).exclusive_len, j_h := none }
        (fun j => j) := by
      unfold RepG
      simp only
      refine ⟨by rw [hrlo], ?_⟩
      intro t _
      unfold bitAt wordBit
      simp only
      rw [vAt_replicate_one, V_one_bit _ (by unfold W; omega)]
      ring
    refine ⟨hwf, htbo, ?_, rfl, rfl, rfl, rfl, by push_cast at hL ⊢; omega⟩
    intro j hj0 hjhi
    rw [indexT_eq_frontG _ hwf htbo j (by simp only; omega),
      frontG_eq_of_repG _ (fun j => j) hrep j (by simp only; omega) hjhi]
  · rw [if_neg hl] at h
    cases h

theorem insPushN_singleton (t : Int) (k : Nat) :
    insPushN [⟨.Ins, t⟩] k = [⟨.Ins, t + k⟩] := by
  induction k generalizing t with
  | zero => simp [insPushN]
  | succ k ih =>
    unfold insPushN
    have hp : Cigar.push_elem [⟨.Ins, t⟩] ⟨.Ins, 1⟩ = [⟨.Ins, t + 1⟩] := rfl
    rw [hp, ih]
    push_cast
    ring_nf

theorem insPushN_nil (k : Nat) :
    insPushN [] k = if k = 0 then [] else [⟨.Ins, (k : Int)⟩] := by
  match k with
  | 0 => rfl
  | k + 1 =>
    rw [if_neg (by omega)]
    unfold insPushN
    have hp : Cigar.push_elem [] ⟨.Ins, 1⟩ = [⟨.Ins, 1⟩] := rfl
    rw [hp, insPushN_singleton]
    push_cast
    ring_nf

theorem opsApply_ins_run (b : List Nat) :
    opsApply (List.replicate b.length .Ins) [] b = true := by
  induction b with
  | nil => rfl
  | cons x bb ih =>
    simp only [List.length_cons, List.replicate_succ]
    unfold opsApply
    exact ih

theorem ok_bind {α β : Type} (y : β) (k : β → Except Err α) :
    (Except.ok y >>= k) = k y := rfl

theorem pure_bind_e {α β : Type} (y : β) (k : β → Except Err α) :
    ((pure y : Except Err β) >>= k) = k y := rfl

theorem traceGo_ins (st : BitFronts) (L : Nat)
    (hlf_i : st.lastFront.i = 0)
    (hlf_v : st.lastFront.v = List.replicate L V.one)
    (hlf_off : st.lastFront.offset = 0) (bs : Int) :
    ∀ (fuel : Nat) (j g : Int) (cigar : Cigar)
      (out : BitFronts × Cigar × Int),
      0 ≤ j → j ≤ 64 * L →
      st.traceGo ⟨0, 0⟩ ⟨0, j⟩ g bs cigar fuel = .ok out →
      out.2.2 = g - j ∧ out.2.1 = insPushN cigar j.toNat := by
  have hpw : st.popWhile 0 = .ok st := by
    unfold BitFronts.popWhile popWhileCnt
    rw [hlf_i, if_neg (by omega)]
  intro fuel
  induction fuel with
  | zero =>
    intro j g cigar out h0 hL h
    unfold BitFronts.traceGo at h
    cases h
  | succ fuel ih =>
    intro j g cigar out h0 hL h
    by_cases hj0 : j = 0
    · subst hj0
      unfold BitFronts.traceGo at h
      rw [if_pos rfl] at h
      have ho := pure_ok h
      subst ho
      exact ⟨by simp, rfl⟩
    · unfold BitFronts.traceGo at h
      rw [if_neg (by simp only [State.mk.injEq]; omega)] at h
      rw [hpw] at h
      simp only [] at h
      rw [ok_bind] at h
      rw [if_neg (by simp)] at h
      rw [pure_bind_e] at h
      simp only [] at h
      have hgd : st.lastFront.get_diff (j - 1) = some 1 := by
        unfold BitFront.get_diff
        rw [hlf_off, hlf_v]
        rw [if_neg (by omega)]
        have hlt : ((j - 1 - 0).toNat) / W < (List.replicate L V.one).length := by
          rw [List.length_replicate]
          unfold W
          omega
        rw [dif_pos hlt]
        rw [List.get_replicate, V_one_bit _ (by unfold W; omega)]
      have hpar : st.parentF ⟨0, j⟩ g bs =
          .ok (⟨0, j - 1⟩, ⟨.Ins, 1⟩, g - 1) := by
        unfold BitFronts.parentF
        have hgrd : grd (st.lastFront.i = (⟨0, j⟩ : State).i) = .ok () := by
          unfold grd
          rw [if_pos]
          exact hlf_i
        simp only []
        rw [hgrd]
        show (do
          let prevOpt ←
            if 0 < (⟨0, j⟩ : State).i then do
              grd (0 < st.last_front_idx)
              let pf := st.fronts.getD (st.last_front_idx - 1) BitFront.default
              grd (pf.i = (⟨0, j⟩ : State).i - 1)
              pure (some pf)
            else pure (none : Option BitFront)
          let me : State × Int := match prevOpt with
            | some pf => matchExtGo st.a st.b pf bs ⟨0, j⟩ 0
            | none => (⟨0, j⟩, 0)
          if 0 < me.2 then
            pure (me.1, (⟨.Match, me.2⟩ : CigarElem), g)
          else do
            let g1 := g - 1
            if st.lastFront.get_diff ((⟨0, j⟩ : State).j - 1) = some 1 then
              pure ((⟨(⟨0, j⟩ : State).i, (⟨0, j⟩ : State).j - 1⟩ : State),
                (⟨.Ins, 1⟩ : CigarElem), g1)
            else
              match prevOpt with
              | none => .error .panic
              | some pf => do
                let pv ← pf.indexE (⟨0, j⟩ : State).j
                let hd := (g1 + 1) - pv
                if hd = 1 then
                  pure ((⟨(⟨0, j⟩ : State).i - 1, (⟨0, j⟩ : State).j⟩ : State),
                    (⟨.Del, 1⟩ : CigarElem), g1)
                else
                  match pf.get_diff ((⟨0, j⟩ : State).j - 1) with
                  | none => .error .panic
                  | some pd =>
                    if pd + hd = 1 then
                      pure ((⟨(⟨0, j⟩ : State).i - 1, (⟨0, j⟩ : State).j - 1⟩ : State),
                        (⟨.Sub, 1⟩ : CigarElem), g1)
                    else .error .panic) = Except.ok (⟨0, j - 1⟩, ⟨.Ins, 1⟩, g - 1)
        rw [if_neg (by simp)]
        rw [pure_bind_e]
        simp only []
        rw [if_neg (by simp)]
        show (if st.lastFront.get_diff (j - 1) = some 1 then _ else _) = _
        rw [if_pos hgd]
        rfl
      rw [hpar, ok_bind] at h
      simp only [] at h
      have hres := ih (j - 1) (g - 1) (cigar.push_elem ⟨.Ins, 1⟩) out (by omega)
        (by omega) h
      refine ⟨by omega, ?_⟩
      rw [hres.2]
      have hjn : j.toNat = (j - 1).toNat + 1 := by omega
      rw [hjn]
      rfl

theorem blockLoop_first_false (p : NWp) (a b : List Nat) (f_max : Option Int)
    (st : BitFronts) (n : Nat) (r : Bool × BitFronts)
    (hfx : ∀ (x : Int) (front : BitFront), fixedJRangeF p x f_max front = .ok none)
    (ha : (0 : Int) < (a.length : Int))
    (h : blockLoopCnt p a b f_max (n + 1) st 0 = .ok r) :
    r.1 = false := by
  unfold blockLoopCnt at h
  rw [if_pos ha] at h
  obtain ⟨jr, hjr, h⟩ := bind_ok h
  by_cases hje : jr.is_empty = true
  · rw [if_pos hje] at h
    have hv := pure_ok h
    rw [← hv]
  · rw [if_neg hje] at h
    obtain ⟨st1, h1, h⟩ := bind_ok h
    obtain ⟨fr, hfr, h⟩ := bind_ok h
    rw [hfx _ _] at hfr
    have hfrv : fr = none := by
      injection hfr.symm
    subst hfrv
    obtain ⟨st2, h2, h⟩ := bind_ok h
    unfold BitFronts.set_last_front_fixed_j_range at h2
    obtain ⟨hs, _⟩ := grd_bind_ok h2
    simp at hs

theorem afbd_cigar (p : NWp) (a b : List Nat) (f_max : Option Int) (trace : Bool)
    (fronts0 : Option BitFronts) (fuel : Nat) (dist : Int) (cg : Cigar)
    (st' : BitFronts)
    (h : alignForBoundedDist p a b f_max trace fronts0 fuel =
      .ok (some (dist, some cg), st')) :
    a = [] ∧ dist = (b.length : Int) ∧ cg = insPushN [] b.length := by
  unfold alignForBoundedDist at h
  generalize hFm : (match fronts0 with
    | some f => f
    | none => p.front.new trace a b) = F at h
  obtain ⟨hg0, h⟩ := grd_bind_ok h
  obtain ⟨j0, hj0, h⟩ := bind_ok h
  by_cases hje : j0.is_empty = true
  · rw [if_pos hje] at h
    have hv := pure_ok h
    simp at hv
  · rw [if_neg hje] at h
    obtain ⟨st, hinit, h⟩ := bind_ok h
    by_cases hbw : 0 < p.block_width
    · rw [if_pos hbw] at h
      obtain ⟨r, hloop, h⟩ := bind_ok h
      by_cases hr1 : r.1 = false
      · rw [if_pos hr1] at h
        have hv := pure_ok h
        simp at hv
      · rw [if_neg hr1] at h
        obtain ⟨dOpt, hget, h⟩ := bind_ok h
        rcases dOpt with _ | dist0
        · have hv := pure_ok h
          simp at hv
        · simp only [] at h
          by_cases htr : (trace = true ∧ dist0 ≤ f_max.getD costMAX)
          · rw [if_pos htr] at h
            obtain ⟨tr, htrc, h⟩ := bind_ok h
            have hv := pure_ok h
            simp only [Prod.mk.injEq, Option.some.injEq] at hv
            obtain ⟨⟨hdist, hcg⟩, hst2⟩ := hv
            by_cases ha : a = []
            · subst ha
              have hbl : blockLoopCnt p [] b f_max ([] : List Nat).length st 0 =
                  pure (true, st) := rfl
              unfold blockLoopF at hloop
              rw [hbl] at hloop
              have hrv := pure_ok hloop
              rw [← hrv] at hget htrc
              simp only [] at hget htrc
              unfold BitFronts.init at hinit
              obtain ⟨hlo, hinit⟩ := grd_bind_ok hinit
              simp only [] at hinit
              generalize hijr : (match F.fronts.get? 0 with
                | some f0 =>
                  (⟨min f0.j_range.lo j0.lo, max f0.j_range.hi j0.hi⟩ : JRange)
                | none => j0) = ijr at hinit
              have hijrhi : 0 ≤ ijr.hi := by
                rw [← hijr]
                rcases F.fronts.get? 0 with _ | f0
                · simp only []
                  unfold JRange.is_empty at hje
                  simp at hje
                  omega
                · simp only []
                  unfold JRange.is_empty at hje
                  simp at hje
                  omega
              by_cases hFt : F.trace = true
              · rw [if_pos hFt] at hinit
                obtain ⟨front, hfc, hinit⟩ := bind_ok hinit
                have hrec := pure_ok hinit
                subst hrec
                simp only [List.length_nil, Nat.cast_zero] at htrc
                obtain ⟨hwff, htbof, hidxf, hjrf, hfif, hfof, hfvf, hrhif⟩ :=
                  first_col_spec ijr front hijrhi hfc
                have hlf : BitFronts.lastFront
                    { params := F.params, trace := F.trace, a := F.a, b := F.b,
                      fronts := if F.fronts.isEmpty = true then [front]
                        else F.fronts.set 0 front,
                      last_front_idx := 0, i_range := { lo := -1, hi := 0 },
                      h := F.h } = front := by
                  unfold BitFronts.lastFront
                  simp only
                  by_cases he : F.fronts.isEmpty = true
                  · rw [if_pos he]
                    rfl
                  · rw [if_neg he]
                    refine getD_set_self _ _ _ _ ?_
                    simp only [List.isEmpty_eq_true] at he
                    exact List.length_pos.mpr he
                rw [hlf] at hget
                have hwfc := hwff
                obtain ⟨ho0, homod, hor0, hr01, hlnn, hjl⟩ := hwfc
                unfold BitFront.get at hget
                by_cases hout : ((b.length : Int) < (round front.j_range).lo ∨
                    (b.length : Int) > (round front.j_range).hi)
                · rw [if_pos hout] at hget
                  have := pure_ok hget
                  simp at this
                · rw [if_neg hout] at hget
                  push_neg at hout
                  have hok : front.indexOk (b.length : Int) :=
                    ⟨hout.1, by omega, by omega⟩
                  have hie : front.indexE (b.length : Int) =
                      .ok (front.indexT (b.length : Int)) := by
                    unfold BitFront.indexE
                    rw [if_pos hok]
                  rw [hie, ok_bind] at hget
                  have hd0 := pure_ok hget
                  simp only [Option.some.injEq] at hd0
                  have hd0v : dist0 = (b.length : Int) := by
                    rw [← hd0, hidxf _ (by omega) hout.2]
                  unfold BitFronts.traceF at htrc
                  obtain ⟨hgt, htrc⟩ := grd_bind_ok htrc
                  simp only [] at htrc
                  rcases hlast : (if F.fronts.isEmpty = true then [front]
                      else F.fronts.set 0 front).getLast? with _ | lst
                  · rw [hlast] at htrc
                    cases htrc
                  · rw [hlast] at htrc
                    simp only [] at htrc
                    obtain ⟨hlsti, htrc⟩ := grd_bind_ok htrc
                    obtain ⟨g0, hg0b, htrc⟩ := bind_ok htrc
                    rw [hlf, hie] at hg0b
                    have hg0v : g0 = (b.length : Int) := by
                      have := hg0b.symm
                      injection this with hh
                      rw [hh, hidxf _ (by omega) hout.2]
                    obtain ⟨r2, hr2, htrc⟩ := bind_ok htrc
                    have htg := traceGo_ins
                      { params := F.params, trace := F.trace, a := F.a, b := F.b,
                        fronts := if F.fronts.isEmpty = true then [front]
                          else F.fronts.set 0 front,
                        last_front_idx := 0, i_range := { lo := -1, hi := 0 },
                        h := F.h }
                      ((round ijr).exclusive_len.toNat / W)
                      (by rw [hlf]; exact hfif)
                      (by rw [hlf, hfvf])
                      (by rw [hlf]; exact hfof)
                      (0 - 1) fuel (b.length : Int) g0 [] r2 (by omega)
                      (by rw [← hrhif]; exact hout.2) hr2
                    obtain ⟨hgfin, hcig⟩ := htg
                    obtain ⟨hgz, htrc⟩ := grd_bind_ok htrc
                    have htrv := pure_ok htrc
                    have htr2 : tr.2 = r2.2.1.reverse := by
                      rw [← htrv]
                    refine ⟨rfl, by omega, ?_⟩
                    rw [← hcg, htr2, hcig, Int.toNat_natCast]
                    rw [insPushN_nil]
                    split
                    · simp
                    · simp
              · rw [if_neg hFt] at hinit
                have hrec := pure_ok hinit
                unfold BitFronts.traceF at htrc
                obtain ⟨hgt, _⟩ := grd_bind_ok htrc
                rw [← hrec] at hgt
                simp only [] at hgt
                exact absurd hgt hFt
            · rcases hfm : f_max with _ | fm
              · have hfx : ∀ (x : Int) (front : BitFront),
                    fixedJRangeF p x none front = .ok none := by
                  intro x front
                  unfold fixedJRangeF
                  rcases hdm : p.domain with _ | _ | _ | hh <;> rfl
                obtain ⟨n, hn⟩ : ∃ n, a.length = n + 1 := by
                  cases a with
                  | nil => exact absurd rfl ha
                  | cons x t => exact ⟨t.length, rfl⟩
                unfold blockLoopF at hloop
                rw [hfm] at hloop
                rw [hn] at hloop
                have hff := blockLoop_first_false p a b none st n r hfx
                  (by rw [hn]; push_cast; omega) hloop
                exact absurd hff hr1
              · rcases hdm : p.domain with _ | _ | _ | hh
                · have hfx : ∀ (x : Int) (front : BitFront),
                      fixedJRangeF p x (some fm) front = .ok none := by
                    intro x front
                    unfold fixedJRangeF
                    rw [hdm]
                    rfl
                  obtain ⟨n, hn⟩ : ∃ n, a.length = n + 1 := by
                    cases a with
                    | nil => exact absurd rfl ha
                    | cons x t => exact ⟨t.length, rfl⟩
                  unfold blockLoopF at hloop
                  rw [hfm, hn] at hloop
                  have hff := blockLoop_first_false p a b (some fm) st n r hfx
                    (by rw [hn]; push_cast; omega) hloop
                  exact absurd hff hr1
                · have hfx : ∀ (x : Int) (front : BitFront),
                      fixedJRangeF p x (some fm) front = .ok none := by
                    intro x front
                    unfold fixedJRangeF
                    rw [hdm]
                    rfl
                  obtain ⟨n, hn⟩ : ∃ n, a.length = n + 1 := by
                    cases a with
                    | nil => exact absurd rfl ha
                    | cons x t => exact ⟨t.length, rfl⟩
                  unfold blockLoopF at hloop
                  rw [hfm, hn] at hloop
                  have hff := blockLoop_first_false p a b (some fm) st n r hfx
                    (by rw [hn]; push_cast; omega) hloop
                  exact absurd hff hr1
                · have hfx : ∀ (x : Int) (front : BitFront),
                      fixedJRangeF p x (some fm) front = .ok none := by
                    intro x front
                    unfold fixedJRangeF
                    rw [hdm]
                    rfl
                  obtain ⟨n, hn⟩ : ∃ n, a.length = n + 1 := by
                    cases a with
                    | nil => exact absurd rfl ha
                    | cons x t => exact ⟨t.length, rfl⟩
                  unfold blockLoopF at hloop
                  rw [hfm, hn] at hloop
                  have hff := blockLoop_first_false p a b (some fm) st n r hfx
                    (by rw [hn]; push_cast; omega) hloop
                  exact absurd hff hr1
                · rw [hfm] at hj0
                  have hjerr : jRangeF p a b IRange.first_col (some fm)
                      BitFront.default = .error .panic := by
                    unfold jRangeF
                    rw [hdm]
                    rfl
                  rw [hjerr] at hj0
                  cases hj0
          · rw [if_neg htr] at h
            have hv := pure_ok h
            simp at hv
    · rw [if_neg hbw] at h
      cases h

theorem insRun_cost (k : Nat) : Cigar.cost (insPushN [] k) = (k : Int) := by
  rw [insPushN_nil]
  split
  · simp_all [Cigar.cost]
  · simp [Cigar.cost, CigarOp.opCost]

theorem insRun_ops (k : Nat) :
    Cigar.ops (insPushN [] k) = List.replicate k .Ins := by
  rw [insPushN_nil]
  split
  · simp_all [Cigar.ops]
  · simp [Cigar.ops, Int.toNat_natCast]

/-- Every successful result of the doubling driver is produced by some
successful `align_for_bounded_dist` call, whose returned pair is passed
through unchanged. -/
theorem expSearchDriver_ok (p : NWp) (a b : List Nat) (trace : Bool)
    (factor : ℚ) (incr : Int) (fuelT : Nat) :
    ∀ (fuel : Nat) (st : BitFronts) (s : Int)
      (out : Int × (Int × Option Cigar)),
      expSearchDriver p a b trace factor incr fuelT st fuel s = .ok out →
      ∃ s0 st0 st1,
        alignForBoundedDist p a b (some s0) trace (some st0) fuelT =
          .ok (some (out.1, out.2.2), st1) ∧ out.2.1 = out.1 := by
  intro fuel
  induction fuel with
  | zero => intro st s out h; cases h
  | succ n ih =>
    intro st s out h
    unfold expSearchDriver at h
    obtain ⟨r, hr, h⟩ := bind_ok h
    rcases hrv : r.1 with _ | ⟨cost, cg⟩
    · rw [hrv] at h
      simp only [] at h
      exact ih r.2 _ out h
    · rw [hrv] at h
      simp only [] at h
      by_cases hc : cost ≤ s
      · rw [if_pos hc] at h
        obtain rfl := pure_ok h
        refine ⟨s, st, r.2, ?_, rfl⟩
        rw [hr]
        simp only []
        rw [← hrv]
      · rw [if_neg hc] at h
        exact ih r.2 _ out h

theorem afbd_cigar_post (p : NWp) (a b : List Nat) (fm : Option Int)
    (t : Bool) (f0 : Option BitFronts) (fuel : Nat) (dist : Int) (cg : Cigar)
    (st' : BitFronts)
    (h : alignForBoundedDist p a b fm t f0 fuel =
      .ok (some (dist, some cg), st')) :
    Cigar.cost cg = dist ∧ opsApply (Cigar.ops cg) a b = true := by
  obtain ⟨ha, hd, hcg⟩ := afbd_cigar p a b fm t f0 fuel dist cg st' h
  subst ha
  constructor
  · rw [hcg, insRun_cost]
    exact hd.symm
  · rw [hcg, insRun_ops]
    exact opsApply_ins_run b

/-- **C9**: whenever `align` returns a CIGAR, the total unit cost of
its operations equals the reported cost and applying its operations to
`A` reproduces `B` (`Ins` consumes `B` only, `Del` consumes `A` only,
`Match`/`Sub` consume both, both strings exhausted at the end); the
underlying traceback only hands the CIGAR out after its `g = 0` assert
at `(0,0)` and a final reversal, both visible in `traceF`. -/
theorem C9_trace_cigar_correct (p : NWp) (a b : List Nat) (fuel : Nat)
    (dist : Int) (cg : Cigar)
    (h : NWalign p a b fuel = .ok (dist, some cg)) :
    Cigar.cost cg = dist ∧ opsApply (Cigar.ops cg) a b = true := by
  unfold NWalign costOrAlign at h
  rcases hstr : p.strategy with _ | ⟨start, factor⟩ | _
  · rw [hstr] at h
    simp only [] at h
    obtain ⟨hfull, h⟩ := grd_bind_ok h
    obtain ⟨r, hr, h⟩ := bind_ok h
    rcases hrv : r.1 with _ | x
    · rw [hrv] at h
      cases h
    · rw [hrv] at h
      have hv := pure_ok h
      have hafbd : alignForBoundedDist p a b none p.trace none fuel =
          .ok (some (dist, some cg), r.2) := by
        rw [hr, ← hv, ← hrv]
      exact afbd_cigar_post p a b none p.trace none fuel dist cg r.2 hafbd
  · rw [hstr] at h
    simp only [] at h
    obtain ⟨pr, hpr, h⟩ := bind_ok h
    obtain ⟨r, hr, h⟩ := bind_ok h
    have hv := pure_ok h
    obtain ⟨s0, st0, st1, hafbd, h21⟩ :=
      expSearchDriver_ok p a b p.trace factor pr.2 fuel fuel
        (p.front.new p.trace a b) pr.1 r hr
    have hr1 : r.1 = dist := by rw [← h21, hv]
    rw [hr1, hv] at hafbd
    simp only [] at hafbd
    exact afbd_cigar_post p a b (some s0) p.trace (some st0) fuel dist cg
      st1 hafbd
  · rw [hstr] at h
    cases h

theorem C9_trace_cigar_correct_witness :
    NWalign c9Params [] [5] 8 = .ok (1, some [⟨.Ins, 1⟩]) ∧
    (Cigar.cost [⟨.Ins, 1⟩] = 1 ∧
      opsApply (Cigar.ops [⟨.Ins, 1⟩]) [] [5] = true) :=
  ⟨by decide, C9_trace_cigar_correct c9Params [] [5] 8 1 [⟨.Ins, 1⟩]
    (by decide)⟩

/-- **C10 (amended)**: for a structurally well-formed front, `get(j)`
returns `Some(index(j))` when `j` lies in the rounded range
`round.lo ≤ j ≤ round.hi` and `None` otherwise.  (The claim's
"consequently" clause is not true of `align_for_bounded_dist`: the
bounded run can also report "not found" through the early return on an
empty computed `j_range`, even when the last front's rounded range
does contain row `m` and the value stored there is within the bound;
see the counterexample.) -/
theorem C10_get_characterization (f : BitFront) (j : Int)
    (hwf : f.wfStruct) :
    f.get j = .ok (if j < (round f.j_range).lo ∨ j > (round f.j_range).hi
      then none else some (f.indexT j)) := by
  obtain ⟨ho0, homod, hor0, hr01, hlen, hjl⟩ := hwf
  unfold BitFront.get
  simp only []
  by_cases hout : j < (round f.j_range).lo ∨ j > (round f.j_range).hi
  · rw [if_pos hout, if_pos hout]
  · rw [if_neg hout, if_neg hout]
    push_neg at hout
    have hok : f.indexOk j := ⟨hout.1, by omega, hlen⟩
    unfold BitFront.indexE
    rw [if_pos hok]
    rfl

theorem C10_get_characterization_witness :
    c10Front.wfStruct ∧
    c10Front.get 7 = .ok (if (7 : Int) < (round c10Front.j_range).lo ∨
      (7 : Int) > (round c10Front.j_range).hi then none
      else some (c10Front.indexT 7)) :=
  ⟨by decide, C10_get_characterization c10Front 7 (by decide)⟩

/-- **C10 counterexample** (to the "consequently" clause): the
`GapStart` run on `A = [0,1]`, `B = []` with bound `0` reports "not
found" (result `none`) through the early return on an empty computed
`j_range`, although the last front's rounded range does contain the
final row `m = 0` and the value stored there, `0`, does not exceed the
bound. -/
theorem C10_counterexample :
    c10run.map Prod.fst = .ok none ∧
    c10run.map (fun r => r.2.lastFront.get 0) = .ok (.ok (some 0)) ∧
    c10run.map (fun r =>
      decide ((0 : Int) < (round r.2.lastFront.j_range).lo ∨
        (0 : Int) > (round r.2.lastFront.j_range).hi)) = .ok false ∧
    (0 : Int) ≤ (some (0 : Int)).getD costMAX := by
  decide

end PA
